import Mathlib

/-!
# DualPI2 coupled AQM (`dualq_coupled_aqm.cc`)

A shallow embedding of `DualQCoupledAQM` and a verification of its specification.

Conventions of the embedding.

* `double` quantities (`pp_`, `p_c_`, `p_cl_`, `alpha_`, `beta_`, the recur accumulators) are
  rationals. The controller arithmetic is exact. The addition and the subtraction of `recur`,
  whose rounding decides how often `recur` returns true, are rounded to the nearest double
  (`to_double`).
* Unsigned integer members are natural numbers. The constructor's product
  `packet_limit_ * MTU` is reduced modulo `2 ^ 32` (`UINT_RANGE`), the width of the
  `unsigned int` that `get_arg` and `size_bytes` return. The queue sizes compared with the
  limits (`size_bytes() + MTU`, `2 * MTU`) are taken without reduction: they are inside the
  range while fewer than `2 ^ 32 - MTU` bytes are queued.
* The timer poll (`poller_.poll( 0 )`) either runs the periodic update or does nothing; which
  of the two happens, and every value of `timestamp()`, is an input supplied by the
  environment (`Env`).
* `MTU` is a constant of the enclosing shaper and is a parameter here.
-/

namespace DualPI2

/-! ## Packets and the IPv4 header helpers -/

/-- One octet of packet data. -/
abbrev Byte := Fin 256

/-- The shaper's packet: contents and arrival time (`QueuedPacket`). -/
structure QueuedPacket where
  contents : List Byte
  arrival_time : Nat
deriving DecidableEq

/-- Constant `IPTOS_ECN_MASK` of `netinet/ip.h`. -/
def IPTOS_ECN_MASK : Nat := 0x03
/-- Constant `IPTOS_ECN_NOT_ECT` of `netinet/ip.h`. -/
def IPTOS_ECN_NOT_ECT : Nat := 0x00
/-- Constant `IPTOS_ECN_ECT1` of `netinet/ip.h`. -/
def IPTOS_ECN_ECT1 : Nat := 0x01
/-- Constant `IPTOS_ECN_ECT0` of `netinet/ip.h`. -/
def IPTOS_ECN_ECT0 : Nat := 0x02
/-- Constant `IPTOS_ECN_CE` of `netinet/ip.h`. -/
def IPTOS_ECN_CE : Nat := 0x03

/-- The byte of `p.contents` at offset `i`; a read past the end of the buffer (undefined in the
source) is taken to be 0. -/
def byteAt (p : QueuedPacket) (i : Nat) : Nat := (p.contents.getD i 0).val

/-- Field `ip_header->tos` of the header at `&p.contents[4]`: header byte 1, packet byte 5. -/
def ip_tos (p : QueuedPacket) : Nat := byteAt p 5

/-- Field `ip_header->ihl` of the header at `&p.contents[4]`: low nibble of header byte 0. -/
def ip_ihl (p : QueuedPacket) : Nat := byteAt p 4 % 16

/-- Embedding of `DualQCoupledAQM::get_ecn_bits`: `ip_header->tos & IPTOS_ECN_MASK`. -/
def get_ecn_bits (p : QueuedPacket) : Nat := ip_tos p &&& IPTOS_ECN_MASK

/-- The `i`-th 16-bit word of a buffer as the host reads it through `unsigned short *`
(little-endian host). -/
def word16 (buf : List Byte) (i : Nat) : Nat :=
  (buf.getD (2 * i) 0).val + 256 * (buf.getD (2 * i + 1) 0).val

/-- Sum of the first `n` 16-bit words of a buffer. -/
def wordSum (buf : List Byte) : Nat → Nat
  | 0 => 0
  | n + 1 => wordSum buf n + word16 buf n

/-- Modelled from the spec: `calculate_ip_checksum` is a routine of the enclosing shaper that is
not in the sources; §4.5 names it "the standard one's-complement IP header checksum". This is
the RFC 1071 computation: add the 16-bit words (and a trailing odd byte), fold the carries into
the low 16 bits twice, and return the complement as an `unsigned short`. -/
def calculate_ip_checksum (buf : List Byte) (len : Nat) : Nat :=
  let sum := wordSum buf (len / 2) + (if len % 2 = 1 then (buf.getD (len - 1) 0).val else 0)
  let sum := sum / 65536 + sum % 65536
  let sum := sum + sum / 65536
  65535 - sum % 65536

/-- Embedding of `DualQCoupledAQM::mark`: set the ECN field of the TOS byte to CE, zero the
checksum field (header bytes 10 and 11), recompute the checksum over `ihl << 2` bytes and store
it in host byte order. -/
def mark (p : QueuedPacket) : QueuedPacket :=
  let tos := ip_tos p
  let c1 := p.contents.set 5 (Fin.ofNat ((tos &&& (255 - IPTOS_ECN_MASK)) ||| (IPTOS_ECN_CE &&& IPTOS_ECN_MASK)))
  let c2 := (c1.set 14 0).set 15 0
  let ihl := ((c2.getD 4 0).val % 16)
  let check := calculate_ip_checksum (c2.drop 4) (ihl * 4)
  let c3 := (c2.set 14 (Fin.ofNat (check % 256))).set 15 (Fin.ofNat (check / 256))
  { p with contents := c3 }

/-! ## Sub-queues -/

/-- Modelled from the spec: the sub-queue classes (`AbstractDualPI2PacketQueue`) are not in the
sources; §3 and §4.2 give their state: a FIFO of packets and the recur accumulator. -/
structure PacketQueue where
  queue : List QueuedPacket
  recur_count : ℚ
deriving DecidableEq

/-- Modelled from the spec: the L4S sub-queue adds the parameters `T_low` and `T_range` of its
native marking function (§4.2), in milliseconds. -/
structure L4SPacketQueue extends PacketQueue where
  T_low : ℚ
  T_range : ℚ
deriving DecidableEq

namespace PacketQueue

/-- Modelled from the spec: sub-queue `enqueue(p)`: append `p`, set `p.arrival_time = now()`
(§4.2). -/
def enqueue (q : PacketQueue) (p : QueuedPacket) (now : Nat) : PacketQueue :=
  { q with queue := q.queue ++ [{ p with arrival_time := now }] }

/-- Modelled from the spec: the packet sub-queue `dequeue()` returns, the head (§4.2). The
caller checks emptiness first; on an empty queue the model returns an empty packet. -/
def front (q : PacketQueue) : QueuedPacket := q.queue.headD ⟨[], 0⟩

/-- Modelled from the spec: the sub-queue left by `dequeue()`: the head is removed (§4.2). -/
def pop (q : PacketQueue) : PacketQueue := { q with queue := q.queue.tail }

/-- Modelled from the spec: `qdelay_in_ms(ref)`, the sojourn time of the head against `ref`, 0
when the queue is empty (§3, §4.2). -/
def qdelay_in_ms (q : PacketQueue) (ref : Nat) : Nat :=
  match q.queue with
  | [] => 0
  | p :: _ => ref - p.arrival_time

/-- Modelled from the spec: `size_bytes = Σ len(p)` (§3). -/
def size_bytes (q : PacketQueue) : Nat := (q.queue.map fun p => p.contents.length).sum

/-- Modelled from the spec: `size_packets`, the number of queued packets (§3). -/
def size_packets (q : PacketQueue) : Nat := q.queue.length

/-- Modelled from the spec: `empty` (§4.2). -/
def empty (q : PacketQueue) : Bool := q.queue.isEmpty

end PacketQueue

/-- Modelled from the spec: `calculate_l4s_native_prob`, the native marking function `f_L4S`
of §4.2: 0 up to `T_low`, 1 from `T_low + T_range`, linear in between. -/
def L4SPacketQueue.calculate_l4s_native_prob (q : L4SPacketQueue) (qdelay_ms : Nat) : ℚ :=
  if (qdelay_ms : ℚ) ≤ q.T_low then 0
  else if q.T_low + q.T_range ≤ (qdelay_ms : ℚ) then 1
  else ((qdelay_ms : ℚ) - q.T_low) / q.T_range

/-! ## Double arithmetic

The accumulator of `recur` is a `double`, and how often `recur` returns true depends on how
the sums are rounded: the values it adds and subtracts are rounded here as IEEE 754 binary64
arithmetic rounds them (to the nearest double, ties to the even significand). -/

/-- The power of two `2^e` for an integer exponent `e`. -/
def pow2 (e : Int) : ℚ :=
  if 0 ≤ e then ((2 ^ e.toNat : Nat) : ℚ) else 1 / ((2 ^ (-e).toNat : Nat) : ℚ)

/-- The position of the leading binary digit of `n`: `floor(log2 n)` for `1 ≤ n ≤ fuel`. -/
def log2_floor : Nat → Nat → Nat
  | 0, _ => 0
  | fuel + 1, n => if 2 ≤ n then log2_floor fuel (n / 2) + 1 else 0

/-- The binary exponent of a positive rational `x`: the integer `e` with
`2^e ≤ x < 2^(e+1)`. -/
def binade (x : ℚ) : Int :=
  let n := x.num.natAbs
  let e0 : Int := (log2_floor n n : Int) - (log2_floor x.den x.den : Int)
  if x < pow2 e0 then e0 - 1 else e0

/-- The integer nearest to `m`; a value halfway between two integers goes to the even one. -/
def round_half_even (m : ℚ) : Int :=
  let f := ⌊m⌋
  let r := m - f
  if r < 1 / 2 then f else if 1 / 2 < r then f + 1 else if f % 2 = 0 then f else f + 1

/-- The `double` that results from an arithmetic operation whose exact value is `x`: the
binary64 number nearest to `x`, with 53 significant bits in the binade of `x`, the spacing
`2^-1074` of the subnormal numbers below `2^-1022`, and ties to the even significand. The
overflow to infinity at `2^1024` is not represented: no value that `recur` forms from
likelihoods of at most 2 comes near it. -/
def to_double (x : ℚ) : ℚ :=
  if x = 0 then 0 else
  let e := max (binade |x|) (-1022)
  let ulp := pow2 (e - 52)
  (round_half_even (x / ulp) : ℚ) * ulp

/-- Embedding of `DualQCoupledAQM::recur`: the accumulator after the call and the value
returned. The sum `get_recur_count() + likelihood` and the difference `count - 1.0` are
`double` operations. -/
def recur (queue : PacketQueue) (likelihood : ℚ) : Bool × PacketQueue :=
  let count := to_double (queue.recur_count + likelihood)
  if count > 1 then (true, { queue with recur_count := to_double (count - 1) })
  else (false, { queue with recur_count := count })

/-! ## Scheduler -/

/-- The queue a scheduler selects (`QueueType`). -/
inductive QueueType where
  | L4S
  | Classic
  | NONE
deriving DecidableEq

/-- The scheduler variants (`SchedulerType`). -/
inductive SchedulerType where
  | StrictPriority
  | WRR
deriving DecidableEq

/-- Modelled from the spec: the WRR scheduler class is not in the sources; §3 and §4.3 give its
state: a signed credit, the per-queue quanta fixed at construction, the positive bound of the
credit, and the queue it selected last (whose quantum `apply_credit_change` applies). The field
`credit_changes` is a ghost: it counts the calls of `apply_credit_change` and nothing reads
it. -/
structure WRRScheduler where
  credit : Int
  l4s_quantum : Int
  classic_quantum : Int
  max_credit : Int
  served : QueueType
  credit_changes : Nat
deriving DecidableEq

/-- Modelled from the spec: the scheduler object `scheduler_`, one of the two variants of
§4.3. -/
inductive Scheduler where
  | strict
  | wrr (w : WRRScheduler)
deriving DecidableEq

/-- Modelled from the spec: `select_queue()` of §4.3. StrictPriority returns L4S if it is
non-empty, else Classic if it is non-empty, else NONE. WRR serves the only non-empty queue,
and with both non-empty serves L4S while it has credit and Classic otherwise; it records the
queue it selected. -/
def Scheduler.select_queue (sch : Scheduler) (l4s classic : PacketQueue) : QueueType × Scheduler :=
  match sch with
  | .strict =>
    if ¬ l4s.empty then (.L4S, .strict)
    else if ¬ classic.empty then (.Classic, .strict)
    else (.NONE, .strict)
  | .wrr w =>
    if l4s.empty ∧ classic.empty then (.NONE, .wrr w)
    else if classic.empty then (.L4S, .wrr { w with served := .L4S })
    else if l4s.empty then (.Classic, .wrr { w with served := .Classic })
    else if 0 < w.credit then (.L4S, .wrr { w with served := .L4S })
    else (.Classic, .wrr { w with served := .Classic })

/-- Modelled from the spec: `apply_credit_change()` of §4.3: the credit decrements toward 0 by
the L4S quantum when L4S was served and increments toward the bound by the Classic quantum when
Classic was served. Every call is counted in the ghost field `credit_changes`. -/
def WRRScheduler.apply_credit_change (w : WRRScheduler) : WRRScheduler :=
  let w := { w with credit_changes := w.credit_changes + 1 }
  match w.served with
  | .L4S => { w with credit := max 0 (w.credit - w.l4s_quantum) }
  | .Classic => { w with credit := min w.max_credit (w.credit + w.classic_quantum) }
  | .NONE => w

/-! ## The AQM -/

/-- The members of `DualQCoupledAQM` that the embedded functions read or write. -/
structure DualQCoupledAQM where
  byte_limit_ : Nat
  packet_limit_ : Nat
  l4s_queue_ : L4SPacketQueue
  classic_queue_ : PacketQueue
  scheduler_type_ : SchedulerType
  scheduler_ : Scheduler
  target_ms_ : Nat
  max_rtt_ms_ : Nat
  alpha_ : ℚ
  beta_ : ℚ
  t_update_ms_ : Nat
  satur_drop_pkts_ : Nat
  pp_ : ℚ
  pp_l_ : ℚ
  p_l_ : ℚ
  p_cl_ : ℚ
  p_c_ : ℚ
  k_ : ℚ
  l4s_drop_on_overload_ : Bool
  p_Cmax_ : ℚ
  p_Lmax_ : ℚ
  l4s_qdelay_ms_ : Nat
  classic_qdelay_ms_ : Nat
deriving DecidableEq

/-- The range of an `unsigned int`: `get_arg` and `size_bytes` are declared `unsigned int` in
the sources, 32 bits wide on the platforms the shaper builds for; the limits the constructor
reads through `get_arg` are members of that width. -/
def UINT_RANGE : Nat := 2 ^ 32

/-- The numeric options `get_arg` reads from the argument string, each a value of
`unsigned int` (below `UINT_RANGE`); an option that is absent reads as 0. The scheduler option
is given by the variant it encodes. -/
structure Args where
  bytes : Nat
  packets : Nat
  sched : SchedulerType
  target : Nat
  max_rtt : Nat
  alpha : Nat
  beta : Nat
  tupdate : Nat
deriving DecidableEq

/-- The empty argument string: every option absent. -/
def Args.empty : Args := ⟨0, 0, .StrictPriority, 0, 0, 0, 0, 0⟩

/-- What the constructor takes from classes that are not in the sources: the parameters of the
L4S sub-queue built by `L4SPacketQueue ( "" )` and the scheduler built by
`new WRRScheduler(l4s_queue_, classic_queue_)`. -/
structure Collaborators where
  T_low : ℚ
  T_range : ℚ
  wrr : WRRScheduler
deriving DecidableEq

/-- Embedding of the constructor `DualQCoupledAQM::DualQCoupledAQM( args )`. The product
`packet_limit_ * MTU` is formed in unsigned arithmetic and stored in the unsigned member
`byte_limit_`: it is reduced modulo `UINT_RANGE`.

Modelled from the spec: the constructor body replaces `scheduler_` only for the WRR variant;
the value the member has otherwise is declared in the class header, which is not in the
sources, and is the StrictPriority scheduler (§4.1: default `sched` is StrictPriority). -/
def construct (MTU : Nat) (args : Args) (ext : Collaborators) : DualQCoupledAQM :=
  let byte_limit := args.bytes
  let packet_limit := args.packets
  let limits : Nat × Nat :=
    if packet_limit = 0 ∧ byte_limit = 0 then ((10000 * MTU) % UINT_RANGE, 10000)
    else if packet_limit ≠ 0 then ((packet_limit * MTU) % UINT_RANGE, packet_limit)
    else if byte_limit ≠ 0 then (byte_limit, byte_limit / MTU)
    else (byte_limit, packet_limit)
  let k : ℚ := 2
  { byte_limit_ := limits.1
    packet_limit_ := limits.2
    l4s_queue_ := { queue := [], recur_count := 0, T_low := ext.T_low, T_range := ext.T_range }
    classic_queue_ := { queue := [], recur_count := 0 }
    scheduler_type_ := args.sched
    scheduler_ := if args.sched = .WRR then .wrr ext.wrr else .strict
    target_ms_ := if args.target = 0 then 15 else args.target
    max_rtt_ms_ := if args.max_rtt = 0 then 100 else args.max_rtt
    alpha_ := if args.alpha = 0 then 16 / 100000 else args.alpha
    beta_ := if args.beta = 0 then 32 / 10000 else args.beta
    t_update_ms_ := if args.tupdate = 0 then 16 else args.tupdate
    satur_drop_pkts_ := 0
    pp_ := 0
    pp_l_ := 0
    p_l_ := 0
    p_cl_ := 0
    p_c_ := 0
    k_ := k
    l4s_drop_on_overload_ := true
    p_Cmax_ := min (1 / k ^ 2) 1
    p_Lmax_ := 1
    l4s_qdelay_ms_ := 0
    classic_qdelay_ms_ := 0 }

/-- Embedding of `DualQCoupledAQM::empty`. -/
def empty (s : DualQCoupledAQM) : Bool := s.l4s_queue_.empty && s.classic_queue_.empty

/-- Embedding of `DualQCoupledAQM::size_bytes`. -/
def size_bytes (s : DualQCoupledAQM) : Nat := s.l4s_queue_.size_bytes + s.classic_queue_.size_bytes

/-- Embedding of `DualQCoupledAQM::size_packets`. -/
def size_packets (s : DualQCoupledAQM) : Nat :=
  s.l4s_queue_.size_packets + s.classic_queue_.size_packets

/-- Embedding of `DualQCoupledAQM::can_mark_or_drop`. -/
def can_mark_or_drop (MTU : Nat) (s : DualQCoupledAQM) : Bool :=
  if size_bytes s < 2 * MTU then false else true

/-- Embedding of `DualQCoupledAQM::drop`. -/
def drop (s : DualQCoupledAQM) (reason : String) : DualQCoupledAQM :=
  if reason = "saturation" then { s with satur_drop_pkts_ := s.satur_drop_pkts_ + 1 }
  else s

/-- Modelled from the spec: `classic_is_overloaded()` is declared in the class header, which is
not in the sources; §4.7: `pp ≥ p_Cmax`. -/
def classic_is_overloaded (s : DualQCoupledAQM) : Bool := decide (s.p_Cmax_ ≤ s.pp_)

/-- Modelled from the spec: `l4s_is_overloaded()` is declared in the class header, which is not
in the sources; §4.7: `classic_is_overloaded() ∧ l4s_drop_on_overload`. -/
def l4s_is_overloaded (s : DualQCoupledAQM) : Bool :=
  classic_is_overloaded s && s.l4s_drop_on_overload_

/-- Embedding of `DualQCoupledAQM::scheduler_update`. -/
def scheduler_update (s : DualQCoupledAQM) : DualQCoupledAQM :=
  if s.scheduler_type_ = .WRR then
    match s.scheduler_ with
    | .wrr w => { s with scheduler_ := .wrr w.apply_credit_change }
    | .strict => s
  else s

/-! ## Controller -/

/-- The value `new_pp` that `calculate_base_aqm_prob` computes before clamping, from the
maximum `qdelay` of the freshly read delays and the maximum `qdelay_old` of the cached ones. -/
def pi_update (s : DualQCoupledAQM) (qdelay qdelay_old : Nat) : ℚ :=
  ((qdelay : ℚ) - (s.target_ms_ : ℚ)) * s.alpha_ + ((qdelay : ℚ) - (qdelay_old : ℚ)) * s.beta_ + s.pp_

/-- Embedding of `DualQCoupledAQM::calculate_base_aqm_prob`: the returned value and the state
with the cached delays refreshed. -/
def calculate_base_aqm_prob (s : DualQCoupledAQM) (ref : Nat) : ℚ × DualQCoupledAQM :=
  let qdelay_old := max s.l4s_qdelay_ms_ s.classic_qdelay_ms_
  let s1 := { s with l4s_qdelay_ms_ := s.l4s_queue_.qdelay_in_ms ref
                     classic_qdelay_ms_ := s.classic_queue_.qdelay_in_ms ref }
  let qdelay := max s1.l4s_qdelay_ms_ s1.classic_qdelay_ms_
  let new_pp := pi_update s qdelay qdelay_old
  let new_pp := if new_pp > 1 then 1 else if new_pp < 0 then 0 else new_pp
  (new_pp, s1)

/-- Embedding of the timer action installed by `DualQCoupledAQM::set_periodic_update`: one
controller tick at `timestamp() = now`. -/
def periodic_update (s : DualQCoupledAQM) (now : Nat) : DualQCoupledAQM :=
  let r := calculate_base_aqm_prob s now
  let s1 := { r.2 with pp_ := r.1 }
  let s2 := { s1 with p_c_ := s1.pp_ ^ 2 }
  { s2 with p_cl_ := s2.pp_ * s2.k_ }

/-- Embedding of `poller_.poll( 0 )`: the timer action runs when the timer has expired
(`some now`, with `now` the timestamp the action reads) and nothing happens otherwise. -/
def poll (s : DualQCoupledAQM) (fired : Option Nat) : DualQCoupledAQM :=
  match fired with
  | none => s
  | some now => periodic_update s now

/-- What the environment supplies to one `enqueue` call or one iteration of the `dequeue`
loop: whether the timer fires at the first and at the last poll, and the clock value read in
between. -/
structure Env where
  poll_start : Option Nat
  now : Nat
  poll_end : Option Nat
deriving DecidableEq

/-- An environment in which the timer does not fire and the clock reads `now`. -/
def Env.quiet (now : Nat) : Env := ⟨none, now, none⟩

/-! ## Enqueue -/

/-- Embedding of `DualQCoupledAQM::enqueue`. -/
def enqueue (MTU : Nat) (s : DualQCoupledAQM) (p : QueuedPacket) (e : Env) : DualQCoupledAQM :=
  let s := poll s e.poll_start
  if size_bytes s + MTU > s.byte_limit_ then
    drop s "saturation"
  else
    let ecn_bits := get_ecn_bits p
    let s :=
      if ecn_bits = IPTOS_ECN_ECT1 ∨ ecn_bits = IPTOS_ECN_CE then
        { s with l4s_queue_ := { s.l4s_queue_ with
                                  toPacketQueue := s.l4s_queue_.toPacketQueue.enqueue p e.now } }
      else
        { s with classic_queue_ := s.classic_queue_.enqueue p e.now }
    poll s e.poll_end

/-! ## Dequeue -/

/-- How one iteration of the `do ... while` loop of `dequeue` ends: at `return pkt`, or at a
`continue` after a drop. Both record the value of the local `dequeue_from` and the packet. -/
inductive Outcome where
  | returned (dequeue_from : QueueType) (pkt : QueuedPacket)
  | dropped (dequeue_from : QueueType) (pkt : QueuedPacket)
deriving DecidableEq

/-- The packet `QueuedPacket pkt("empty", 0)` that `dequeue` returns when no queue is
selected: its contents are the five characters of the word, its arrival time is 0. -/
def empty_packet : QueuedPacket := ⟨[0x65, 0x6d, 0x70, 0x74, 0x79], 0⟩

/-- The state with the L4S sub-queue's FIFO and accumulator replaced. -/
def set_l4s (s : DualQCoupledAQM) (q : PacketQueue) : DualQCoupledAQM :=
  { s with l4s_queue_ := { s.l4s_queue_ with toPacketQueue := q } }

/-- Embedding of the branch `dequeue_from == QueueType::L4S` of the loop of `dequeue`, up to
the `return pkt` or the `continue` that ends the iteration. -/
def dequeue_l4s (MTU : Nat) (s : DualQCoupledAQM) (e : Env) : Outcome × DualQCoupledAQM :=
  let pkt := s.l4s_queue_.front
  let s := set_l4s s s.l4s_queue_.pop
  if ¬ l4s_is_overloaded s then
    let l4s_qdelay_ms := s.l4s_queue_.qdelay_in_ms e.now
    let s := { s with pp_l_ := s.l4s_queue_.calculate_l4s_native_prob l4s_qdelay_ms }
    let s := { s with p_l_ := max s.pp_l_ s.p_cl_ }
    let r := recur s.l4s_queue_.toPacketQueue s.p_l_
    let s := set_l4s s r.2
    let pkt := if r.1 && can_mark_or_drop MTU s then mark pkt else pkt
    let s := scheduler_update s
    (.returned .L4S pkt, poll s e.poll_end)
  else
    let r := recur s.l4s_queue_.toPacketQueue s.p_c_
    let s := set_l4s s r.2
    if r.1 && can_mark_or_drop MTU s then
      (.dropped .L4S pkt, drop s "saturation")
    else
      let r := recur s.l4s_queue_.toPacketQueue s.p_cl_
      let s := set_l4s s r.2
      let pkt := if r.1 && can_mark_or_drop MTU s then mark pkt else pkt
      let s := scheduler_update s
      (.returned .L4S pkt, poll s e.poll_end)

/-- Embedding of the branch `dequeue_from == QueueType::Classic` of the loop of `dequeue`, up
to the `return pkt` or the `continue` that ends the iteration. -/
def dequeue_classic (MTU : Nat) (s : DualQCoupledAQM) (e : Env) : Outcome × DualQCoupledAQM :=
  let pkt := s.classic_queue_.front
  let s := { s with classic_queue_ := s.classic_queue_.pop }
  let r := recur s.classic_queue_ s.p_c_
  let s := { s with classic_queue_ := r.2 }
  if r.1 then
    if (get_ecn_bits pkt = IPTOS_ECN_NOT_ECT ∨ classic_is_overloaded s)
        ∧ can_mark_or_drop MTU s then
      (.dropped .Classic pkt, drop s "")
    else
      let pkt := if can_mark_or_drop MTU s then mark pkt else pkt
      let s := scheduler_update s
      (.returned .Classic pkt, poll s e.poll_end)
  else
    let s := scheduler_update s
    (.returned .Classic pkt, poll s e.poll_end)

/-- Embedding of one iteration of the loop of `DualQCoupledAQM::dequeue`. -/
def dequeue_iter (MTU : Nat) (s : DualQCoupledAQM) (e : Env) : Outcome × DualQCoupledAQM :=
  let s := poll s e.poll_start
  let sel := s.scheduler_.select_queue s.l4s_queue_.toPacketQueue s.classic_queue_
  let s := { s with scheduler_ := sel.2 }
  match sel.1 with
  | .L4S => dequeue_l4s MTU s e
  | .Classic => dequeue_classic MTU s e
  | .NONE => (.returned .NONE empty_packet, poll s e.poll_end)

/-- What a call of `dequeue` yields: the packet returned, the value of the local
`dequeue_from` at the return, and the number of iterations that ended in a drop. -/
structure Dequeued where
  pkt : QueuedPacket
  dequeue_from : QueueType
  drops : Nat
deriving DecidableEq

/-- The loop of `DualQCoupledAQM::dequeue`, bounded by `fuel` iterations; iteration `i` of the
remaining ones runs in environment `env i`. -/
def dequeue_loop (MTU : Nat) :
    Nat → DualQCoupledAQM → (Nat → Env) → Nat → Option (Dequeued × DualQCoupledAQM)
  | 0, _, _, _ => none
  | fuel + 1, s, env, drops =>
    match dequeue_iter MTU s (env 0) with
    | (.returned q pkt, s1) => some (⟨pkt, q, drops⟩, s1)
    | (.dropped _ _, s1) => dequeue_loop MTU fuel s1 (fun i => env (i + 1)) (drops + 1)

/-- Embedding of `DualQCoupledAQM::dequeue`: every iteration that does not return removes a
packet, so `size_packets + 1` iterations suffice (`dequeue_returns`). -/
def dequeue (MTU : Nat) (s : DualQCoupledAQM) (env : Nat → Env) :
    Option (Dequeued × DualQCoupledAQM) :=
  dequeue_loop MTU (size_packets s + 1) s env 0

/-! ## Reachable states -/

/-- States reachable from a freshly constructed AQM by `enqueue`, `dequeue` and controller-tick
steps, with arbitrary packets and an arbitrary environment. -/
inductive Reachable (MTU : Nat) (args : Args) (ext : Collaborators) : DualQCoupledAQM → Prop where
  | init : Reachable MTU args ext (construct MTU args ext)
  | enq (s : DualQCoupledAQM) (p : QueuedPacket) (e : Env) :
      Reachable MTU args ext s → Reachable MTU args ext (enqueue MTU s p e)
  | deq (s : DualQCoupledAQM) (env : Nat → Env) (r : Dequeued) (s1 : DualQCoupledAQM) :
      Reachable MTU args ext s → dequeue MTU s env = some (r, s1) → Reachable MTU args ext s1
  | tick (s : DualQCoupledAQM) (now : Nat) :
      Reachable MTU args ext s → Reachable MTU args ext (periodic_update s now)

/-! ## Repeated recur -/

/-- The outcome of `N` consecutive calls `recur(queue, likelihood)` on the same queue: the
number of calls that returned true and the queue after the last call. -/
def recur_times (queue : PacketQueue) (likelihood : ℚ) : Nat → Nat × PacketQueue
  | 0 => (0, queue)
  | N + 1 =>
    let before := recur_times queue likelihood N
    let r := recur before.2 likelihood
    (before.1 + (if r.1 then 1 else 0), r.2)

/-- The values on which the double operations of `recur` are exact: the multiples of `2^-52`
between 0 and 1. Each of them is a double, and so are the sum of two of them and that sum
less 1. -/
def on_grid (x : ℚ) : Prop := ∃ k : Nat, k ≤ 2 ^ 52 ∧ x = (k : ℚ) / 2 ^ 52

/-! ## Concrete inputs -/

/-- A 24-byte packet: 4 bytes of preamble and a 20-byte IPv4 header with TOS byte `tos`,
followed by `n` zero bytes of payload. -/
def sample_packet (tos : Byte) (n : Nat) : QueuedPacket :=
  ⟨[0, 0, 0, 0, 0x45, tos, 0, 20, 0, 0, 0, 0, 64, 6, 0, 0, 10, 0, 0, 1, 10, 0, 0, 2]
    ++ List.replicate n 0, 0⟩

/-- The collaborators used in concrete evaluations: `T_low` = 0.8 ms, `T_range` = 15 ms, and a
WRR scheduler with unit quanta. -/
def sample_ext : Collaborators := ⟨4 / 5, 15, ⟨0, 1, 1, 10, .NONE, 0⟩⟩

/-- The AQM constructed from the empty argument string with `MTU = 1500`. -/
def default_aqm : DualQCoupledAQM := construct 1500 Args.empty sample_ext

/-- The default AQM holding one Not-ECT packet that arrived at time 0. -/
def tick_state : DualQCoupledAQM := enqueue 1500 default_aqm (sample_packet 0 0) (Env.quiet 0)

/-- The default AQM holding one ECT(1) packet that arrived at time 0, after a controller tick
at time 1000. -/
def overloaded_state : DualQCoupledAQM :=
  periodic_update (enqueue 1500 default_aqm (sample_packet 1 0) (Env.quiet 0)) 1000

/-- A `dequeue` call on `overloaded_state` at time 1000 with a quiet timer. -/
def overloaded_dequeue : Option (Dequeued × DualQCoupledAQM) :=
  dequeue 1500 overloaded_state (fun _ => Env.quiet 1000)

/-- States reachable from a freshly constructed AQM by `enqueue`, `dequeue` and controller-tick
steps when every packet offered to `enqueue` is at most `MTU` bytes long. -/
inductive ReachableMTU (MTU : Nat) (args : Args) (ext : Collaborators) :
    DualQCoupledAQM → Prop where
  | init : ReachableMTU MTU args ext (construct MTU args ext)
  | enq (s : DualQCoupledAQM) (p : QueuedPacket) (e : Env) :
      ReachableMTU MTU args ext s → p.contents.length ≤ MTU →
      ReachableMTU MTU args ext (enqueue MTU s p e)
  | deq (s : DualQCoupledAQM) (env : Nat → Env) (r : Dequeued) (s1 : DualQCoupledAQM) :
      ReachableMTU MTU args ext s → dequeue MTU s env = some (r, s1) →
      ReachableMTU MTU args ext s1
  | tick (s : DualQCoupledAQM) (now : Nat) :
      ReachableMTU MTU args ext s → ReachableMTU MTU args ext (periodic_update s now)

/-! ## Runs -/

/-- One call made on the AQM by its environment: an `enqueue`, a `dequeue`, or a controller
tick on its own. -/
inductive Step where
  | enq (p : QueuedPacket) (e : Env)
  | deq (env : Nat → Env)
  | tick (now : Nat)

/-- The state after one call. A `dequeue` call always returns (`dequeue_returns`), so the
branch without a result is never taken. -/
def step (MTU : Nat) (s : DualQCoupledAQM) : Step → DualQCoupledAQM
  | .enq p e => enqueue MTU s p e
  | .deq env =>
    match dequeue MTU s env with
    | some r => r.2
    | none => s
  | .tick now => periodic_update s now

/-- The state after a sequence of calls. -/
def run (MTU : Nat) (s : DualQCoupledAQM) : List Step → DualQCoupledAQM
  | [] => s
  | st :: rest => run MTU (step MTU s st) rest

/-- The number of `enqueue` calls of a run whose packet is rejected: calls made when
`size_bytes + MTU > byte_limit`. -/
def rejected_enqueues (MTU : Nat) (s : DualQCoupledAQM) : List Step → Nat
  | [] => 0
  | .enq p e :: rest =>
    (if size_bytes s + MTU > s.byte_limit_ then 1 else 0)
      + rejected_enqueues MTU (enqueue MTU s p e) rest
  | st :: rest => rejected_enqueues MTU (step MTU s st) rest

/-- The number of iterations of the loop of `dequeue` that end in the drop of a packet taken
from the L4S sub-queue. -/
def dequeue_loop_l4s_drops (MTU : Nat) : Nat → DualQCoupledAQM → (Nat → Env) → Nat
  | 0, _, _ => 0
  | fuel + 1, s, env =>
    match dequeue_iter MTU s (env 0) with
    | (.returned _ _, _) => 0
    | (.dropped q _, s1) =>
      (if q = .L4S then 1 else 0) + dequeue_loop_l4s_drops MTU fuel s1 (fun i => env (i + 1))

/-- The number of packets that the `dequeue` calls of a run drop out of the L4S sub-queue. -/
def l4s_drops (MTU : Nat) (s : DualQCoupledAQM) : List Step → Nat
  | [] => 0
  | .deq env :: rest =>
    dequeue_loop_l4s_drops MTU (size_packets s + 1) s env
      + l4s_drops MTU (step MTU s (.deq env)) rest
  | st :: rest => l4s_drops MTU (step MTU s st) rest

/-- A run on the default AQM: four MTU-sized ECT(1) packets arrive at time 0, the controller
ticks at time 1000, and `dequeue` is called twice. -/
def l4s_overload_run : List Step :=
  [.enq (sample_packet 1 1476) (Env.quiet 0), .enq (sample_packet 1 1476) (Env.quiet 0),
    .enq (sample_packet 1 1476) (Env.quiet 0), .enq (sample_packet 1 1476) (Env.quiet 0),
    .tick 1000, .deq (fun _ => Env.quiet 1000), .deq (fun _ => Env.quiet 1000)]

/-- A run on the default AQM: one Not-ECT packet arrives at time 0, the controller ticks at
time 1000, and `dequeue` is called once. -/
def classic_overload_run : List Step :=
  [.enq (sample_packet 0 0) (Env.quiet 0), .tick 1000, .deq (fun _ => Env.quiet 1000)]

/-- The queue the scheduler selects in state `s` (`scheduler_->select_queue()`). -/
def selected (s : DualQCoupledAQM) : QueueType :=
  (s.scheduler_.select_queue s.l4s_queue_.toPacketQueue s.classic_queue_).1

/-- The state once the scheduler has selected a queue in state `s`. -/
def after_select (s : DualQCoupledAQM) : DualQCoupledAQM :=
  { s with scheduler_ :=
      (s.scheduler_.select_queue s.l4s_queue_.toPacketQueue s.classic_queue_).2 }

/-- The lengths of the packets that the `enqueue` calls of a run offer, in order. -/
def enqueued_lengths : List Step → List Nat
  | [] => []
  | .enq p _ :: rest => p.contents.length :: enqueued_lengths rest
  | _ :: rest => enqueued_lengths rest

/-- The configuration `packets=n`, every other option absent. -/
def Args.with_packets (n : Nat) : Args := ⟨0, n, .StrictPriority, 0, 0, 0, 0, 0⟩

/-- A run of three `enqueue` calls with 24-byte Not-ECT packets. -/
def three_small_packets : List Step :=
  [.enq (sample_packet 0 0) (Env.quiet 0), .enq (sample_packet 0 0) (Env.quiet 0),
    .enq (sample_packet 0 0) (Env.quiet 0)]

/-- A run of two `enqueue` calls with packets of 1500 bytes. -/
def two_mtu_packets : List Step :=
  [.enq (sample_packet 0 1476) (Env.quiet 0), .enq (sample_packet 0 1476) (Env.quiet 0)]

/-- The results of `n` consecutive `dequeue` calls, each in environment `env`, and the state
after the last one. A `dequeue` call always returns (`dequeue_returns`), so the branch without
a result is never taken. -/
def dequeue_times (MTU : Nat) (s : DualQCoupledAQM) (env : Nat → Env) :
    Nat → List Dequeued × DualQCoupledAQM
  | 0 => ([], s)
  | n + 1 =>
    let before := dequeue_times MTU s env n
    match dequeue MTU before.2 env with
    | some r => (before.1 ++ [r.1], r.2)
    | none => before

/-- The default AQM with `pp` forced to 0.25 (so `p_C = 0.0625`, `p_CL = 0.5`) and a Classic
sub-queue of 100 Not-ECT packets of 24 bytes followed by two Not-ECT packets of 1500 bytes,
which keep the queue depth at `2·MTU` or more while the first 100 are taken. -/
def classic_backlog : DualQCoupledAQM :=
  { default_aqm with
    pp_ := 1 / 4
    p_c_ := 1 / 16
    p_cl_ := 1 / 2
    classic_queue_ :=
      { queue := List.replicate 100 (sample_packet 0 0) ++ List.replicate 2 (sample_packet 0 1476)
        recur_count := 0 } }

/-- The configuration `sched=1` (WRR), every other option absent. -/
def Args.with_wrr : Args := ⟨0, 0, .WRR, 0, 0, 0, 0, 0⟩

/-- The AQM constructed with the WRR scheduler and `MTU = 1500`, holding one Not-ECT packet. -/
def wrr_state : DualQCoupledAQM :=
  enqueue 1500 (construct 1500 Args.with_wrr sample_ext) (sample_packet 0 0) (Env.quiet 0)

/-- The controller constants and the relations that every controller tick establishes between
the probabilities. -/
def Controlled (s : DualQCoupledAQM) : Prop :=
  0 ≤ s.pp_ ∧ s.pp_ ≤ 1 ∧ s.p_c_ = s.pp_ ^ 2 ∧ s.p_cl_ = s.pp_ * s.k_ ∧ s.k_ = 2 ∧
    s.p_Cmax_ = 1 / 4 ∧ s.p_Lmax_ = 1 ∧ s.l4s_drop_on_overload_ = true

/-! ## Invariants -/

/-- Packet `q` equals packet `p` except possibly in the low two bits of the TOS byte (packet
byte 5) and in the two header-checksum bytes (packet bytes 14 and 15). -/
def same_except_ecn_checksum (p q : QueuedPacket) : Prop :=
  q.arrival_time = p.arrival_time ∧ q.contents.length = p.contents.length ∧
    (∀ i, i ≠ 5 → i ≠ 14 → i ≠ 15 → q.contents[i]? = p.contents[i]?) ∧
    byteAt q 5 / 4 = byteAt p 5 / 4


/-- The probabilities the dequeue path passes to `recur`, the coupling factor and both
accumulators are non-negative. -/
def NonNeg (s : DualQCoupledAQM) : Prop :=
  0 ≤ s.p_c_ ∧ 0 ≤ s.p_cl_ ∧ 0 ≤ s.k_ ∧ 0 ≤ s.l4s_queue_.recur_count ∧
    0 ≤ s.classic_queue_.recur_count

/-! ## Basic facts -/

@[simp] theorem poll_l4s_queue (s : DualQCoupledAQM) (t : Option Nat) :
    (poll s t).l4s_queue_ = s.l4s_queue_ := by
  cases t <;> rfl

@[simp] theorem poll_classic_queue (s : DualQCoupledAQM) (t : Option Nat) :
    (poll s t).classic_queue_ = s.classic_queue_ := by
  cases t <;> rfl

@[simp] theorem poll_byte_limit (s : DualQCoupledAQM) (t : Option Nat) :
    (poll s t).byte_limit_ = s.byte_limit_ := by
  cases t <;> rfl

@[simp] theorem poll_satur_drop_pkts (s : DualQCoupledAQM) (t : Option Nat) :
    (poll s t).satur_drop_pkts_ = s.satur_drop_pkts_ := by
  cases t <;> rfl

@[simp] theorem poll_scheduler (s : DualQCoupledAQM) (t : Option Nat) :
    (poll s t).scheduler_ = s.scheduler_ := by
  cases t <;> rfl

@[simp] theorem poll_scheduler_type (s : DualQCoupledAQM) (t : Option Nat) :
    (poll s t).scheduler_type_ = s.scheduler_type_ := by
  cases t <;> rfl

@[simp] theorem poll_size_bytes (s : DualQCoupledAQM) (t : Option Nat) :
    size_bytes (poll s t) = size_bytes s := by
  simp [size_bytes]

@[simp] theorem poll_size_packets (s : DualQCoupledAQM) (t : Option Nat) :
    size_packets (poll s t) = size_packets s := by
  simp [size_packets]

theorem get_ecn_bits_eq_mod (p : QueuedPacket) : get_ecn_bits p = ip_tos p % 4 := by
  unfold get_ecn_bits IPTOS_ECN_MASK
  exact Nat.and_pow_two_sub_one_eq_mod (ip_tos p) 2

/-! ## Rounding to double -/

theorem pow2_eq (e : Int) : pow2 e = (2 : ℚ) ^ e := by
  unfold pow2
  split_ifs with h
  · obtain ⟨n, rfl⟩ := Int.eq_ofNat_of_zero_le h
    simp
  · push_neg at h
    obtain ⟨n, hn⟩ := Int.exists_eq_neg_ofNat (le_of_lt h)
    subst hn
    simp

theorem pow2_pos (e : Int) : 0 < pow2 e := by
  rw [pow2_eq]; positivity

theorem log2_floor_spec (fuel : Nat) :
    ∀ n : Nat, 1 ≤ n → n ≤ fuel →
      2 ^ log2_floor fuel n ≤ n ∧ n < 2 ^ (log2_floor fuel n + 1) := by
  induction fuel with
  | zero => intro n h1 h2; omega
  | succ f ih =>
    intro n h1 h2
    unfold log2_floor
    split_ifs with h
    · have := ih (n / 2) (by omega) (by omega)
      rw [pow_succ, pow_succ]
      omega
    · simp; omega

theorem binade_spec (x : ℚ) (hx : 0 < x) :
    (2 : ℚ) ^ binade x ≤ x ∧ x < (2 : ℚ) ^ (binade x + 1) := by
  have hnum : 0 < x.num := Rat.num_pos.mpr hx
  have hn1 : 1 ≤ x.num.natAbs := by omega
  have hd1 : 1 ≤ x.den := x.den_pos
  obtain ⟨ha1, ha2⟩ := log2_floor_spec x.num.natAbs x.num.natAbs hn1 le_rfl
  obtain ⟨hb1, hb2⟩ := log2_floor_spec x.den x.den hd1 le_rfl
  unfold binade
  simp only []
  rw [pow2_eq]
  generalize log2_floor x.num.natAbs x.num.natAbs = a at ha1 ha2 ⊢
  generalize log2_floor x.den x.den = b at hb1 hb2 ⊢
  have hxeq : x = (x.num.natAbs : ℚ) / (x.den : ℚ) := by
    have h2 : (x.num.natAbs : ℚ) = (x.num : ℚ) := by
      rw [Nat.cast_natAbs, abs_of_pos hnum]
    rw [h2]; exact (Rat.num_div_den x).symm
  have hdpos : (0 : ℚ) < x.den := by exact_mod_cast hd1
  have ha1q : (2 : ℚ) ^ a ≤ (x.num.natAbs : ℚ) := by exact_mod_cast ha1
  have ha2q : (x.num.natAbs : ℚ) < (2 : ℚ) ^ (a + 1) := by exact_mod_cast ha2
  have hb1q : (2 : ℚ) ^ b ≤ (x.den : ℚ) := by exact_mod_cast hb1
  have hb2q : (x.den : ℚ) < (2 : ℚ) ^ (b + 1) := by exact_mod_cast hb2
  have hup : x < (2 : ℚ) ^ ((a : ℤ) - b + 1) := by
    have : (2 : ℚ) ^ ((a : ℤ) - b + 1) = (2 : ℚ) ^ (a + 1) / (2 : ℚ) ^ b := by
      rw [show ((a : ℤ) - b + 1) = ((a + 1 : ℕ) : ℤ) - (b : ℕ) by push_cast; ring]
      rw [zpow_sub₀ (by norm_num), zpow_natCast, zpow_natCast]
    rw [this, hxeq, div_lt_div_iff₀ hdpos (by positivity)]
    calc (x.num.natAbs : ℚ) * 2 ^ b < 2 ^ (a + 1) * 2 ^ b := by
          apply mul_lt_mul_of_pos_right ha2q (by positivity)
      _ ≤ 2 ^ (a + 1) * x.den := by
          apply mul_le_mul_of_nonneg_left hb1q (by positivity)
  have hlo : (2 : ℚ) ^ ((a : ℤ) - b - 1) ≤ x := by
    have : (2 : ℚ) ^ ((a : ℤ) - b - 1) = (2 : ℚ) ^ a / (2 : ℚ) ^ (b + 1) := by
      rw [show ((a : ℤ) - b - 1) = ((a : ℕ) : ℤ) - ((b + 1 : ℕ) : ℤ) by push_cast; ring]
      rw [zpow_sub₀ (by norm_num), zpow_natCast, zpow_natCast]
    rw [this, hxeq, div_le_div_iff₀ (by positivity) hdpos]
    calc (2 : ℚ) ^ a * x.den ≤ 2 ^ a * 2 ^ (b + 1) := by
          apply mul_le_mul_of_nonneg_left (le_of_lt hb2q) (by positivity)
      _ ≤ x.num.natAbs * 2 ^ (b + 1) := by
          apply mul_le_mul_of_nonneg_right ha1q (by positivity)
  split_ifs with h
  · constructor
    · exact hlo
    · rw [show ((a : ℤ) - b - 1 + 1) = (a : ℤ) - b by ring]; exact h
  · push_neg at h
    exact ⟨h, hup⟩

theorem round_half_even_intCast (z : Int) : round_half_even (z : ℚ) = z := by
  unfold round_half_even
  simp

theorem round_half_even_le (m : ℚ) (N : Int) (h : m ≤ N) : round_half_even m ≤ N := by
  have hf : ⌊m⌋ ≤ N := by
    have := Int.floor_le m
    exact_mod_cast (le_trans this h)
  have hf1 : m - ⌊m⌋ ≥ 1 / 2 → ⌊m⌋ + 1 ≤ N := by
    intro hr
    by_contra hc
    have hN : ⌊m⌋ = N := by omega
    have : (N : ℚ) ≤ m := by rw [← hN]; exact Int.floor_le m
    have : m = N := le_antisymm h this
    rw [hN, this] at hr
    norm_num at hr
  unfold round_half_even
  simp only []
  split_ifs with h1 h2 h3
  · exact hf
  · exact hf1 (le_of_lt h2)
  · exact hf
  · exact hf1 (by push_neg at h1; exact h1)

theorem le_round_half_even (m : ℚ) (N : Int) (h : (N : ℚ) ≤ m) : N ≤ round_half_even m := by
  have hf : N ≤ ⌊m⌋ := Int.le_floor.mpr h
  unfold round_half_even
  simp only []
  split_ifs <;> omega

theorem to_double_nonneg (x : ℚ) (h : 0 ≤ x) : 0 ≤ to_double x := by
  unfold to_double
  split_ifs with h0
  · exact le_refl _
  · simp only []
    have hu := pow2_pos (max (binade |x|) (-1022) - 52)
    apply mul_nonneg _ (le_of_lt hu)
    have : (0 : ℤ) ≤ round_half_even (x / pow2 (max (binade |x|) (-1022) - 52)) := by
      apply le_round_half_even
      simp only [Int.cast_zero]
      exact div_nonneg h (le_of_lt hu)
    exact_mod_cast this

/-- Rounding does not cross a power of two from below. -/
theorem to_double_le_pow2 (x : ℚ) (k : Int) (hk : -1074 ≤ k) (h0 : 0 ≤ x) (hx : x ≤ (2 : ℚ) ^ k) :
    to_double x ≤ (2 : ℚ) ^ k := by
  unfold to_double
  split_ifs with hz
  · positivity
  · simp only []
    have hpos : 0 < x := lt_of_le_of_ne h0 (Ne.symm hz)
    rw [abs_of_pos hpos]
    obtain ⟨hb1, hb2⟩ := binade_spec x hpos
    have hek : binade x ≤ k := by
      have : (2 : ℚ) ^ binade x ≤ (2 : ℚ) ^ k := le_trans hb1 hx
      exact (zpow_le_zpow_iff_right₀ (by norm_num : (1 : ℚ) < 2)).mp this
    have he : max (binade x) (-1022) - 52 ≤ k := by
      have : max (binade x) (-1022) ≤ k + 52 := max_le (by omega) (by omega)
      omega
    generalize max (binade x) (-1022) - 52 = u at he ⊢
    rw [pow2_eq]
    have hu : (0 : ℚ) < 2 ^ u := by positivity
    obtain ⟨n, hn⟩ := Int.eq_ofNat_of_zero_le (sub_nonneg.mpr he)
    have hk2 : (2 : ℚ) ^ k = (((2 ^ n : ℕ) : ℤ) : ℚ) * 2 ^ u := by
      have : k = n + u := by omega
      rw [this, zpow_add₀ (by norm_num), zpow_natCast]; push_cast; ring
    have hr : round_half_even (x / 2 ^ u) ≤ ((2 ^ n : ℕ) : ℤ) := by
      apply round_half_even_le
      rw [div_le_iff₀ hu, ← hk2]
      exact hx
    rw [hk2]
    apply mul_le_mul_of_nonneg_right _ (le_of_lt hu)
    exact_mod_cast hr

/-- A multiple of `2^-52` between 0 and 2 is a double: rounding leaves it as it is. -/
theorem to_double_exact (x : ℚ) (k : Nat) (hk : k ≤ 2 ^ 53) (hx : x = (k : ℚ) / 2 ^ 52) :
    to_double x = x := by
  unfold to_double
  split_ifs with hz
  · exact hz.symm
  · simp only []
    have hkpos : 1 ≤ k := by
      rcases Nat.eq_zero_or_pos k with h | h
      · exfalso; apply hz; rw [hx, h]; simp
      · exact h
    have hpos : 0 < x := by rw [hx]; positivity
    rw [abs_of_pos hpos]
    obtain ⟨hb1, hb2⟩ := binade_spec x hpos
    have hx2 : x ≤ (2 : ℚ) ^ (1 : ℤ) := by
      rw [hx, div_le_iff₀ (by positivity)]
      have : (k : ℚ) ≤ 2 ^ 53 := by exact_mod_cast hk
      calc (k : ℚ) ≤ 2 ^ 53 := this
        _ = 2 ^ (1 : ℤ) * 2 ^ 52 := by norm_num
    have hxlo : (2 : ℚ) ^ (-52 : ℤ) ≤ x := by
      rw [hx, le_div_iff₀ (by positivity)]
      have : (1 : ℚ) ≤ k := by exact_mod_cast hkpos
      calc (2 : ℚ) ^ (-52 : ℤ) * 2 ^ 52 = 1 := by norm_num
        _ ≤ k := this
    have he1 : binade x ≤ 1 :=
      (zpow_le_zpow_iff_right₀ (by norm_num : (1 : ℚ) < 2)).mp (le_trans hb1 hx2)
    have he2 : -52 ≤ binade x := by
      have : (2 : ℚ) ^ (-52 : ℤ) < (2 : ℚ) ^ (binade x + 1) := lt_of_le_of_lt hxlo hb2
      have := (zpow_lt_zpow_iff_right₀ (by norm_num : (1 : ℚ) < 2)).mp this
      omega
    have hmax : max (binade x) (-1022) = binade x := max_eq_left (by omega)
    rw [hmax, pow2_eq]
    generalize binade x = e at *
    have hu : (0 : ℚ) < 2 ^ (e - 52) := by positivity
    have hint : ∃ z : ℤ, x / 2 ^ (e - 52) = (z : ℚ) := by
      rcases le_or_lt e 0 with h0 | h0
      · obtain ⟨n, hn⟩ := Int.eq_ofNat_of_zero_le (neg_nonneg.mpr h0)
        refine ⟨(k : ℤ) * 2 ^ n, ?_⟩
        rw [div_eq_iff (ne_of_gt hu), hx]
        have : e - 52 = -(n : ℤ) - 52 := by omega
        rw [this, zpow_sub₀ (by norm_num), zpow_neg, zpow_natCast]
        push_cast
        field_simp
        ring
      · have h1 : e = 1 := by omega
        subst h1
        have hk53 : (2 : ℚ) ^ 53 ≤ k := by
          have := hb1
          rw [hx, le_div_iff₀ (by positivity)] at this
          calc (2 : ℚ) ^ 53 = (2 : ℚ) ^ (1 : ℤ) * (2 : ℚ) ^ 52 := by norm_num
            _ ≤ (k : ℚ) := this
        have hkeq : (k : ℚ) = 2 ^ 53 := le_antisymm (by exact_mod_cast hk) hk53
        refine ⟨2 ^ 52, ?_⟩
        rw [div_eq_iff (ne_of_gt hu), hx, hkeq]
        norm_num
    obtain ⟨z, hzq⟩ := hint
    rw [hzq, round_half_even_intCast, ← hzq]
    field_simp

theorem round_half_even_error (m : ℚ) : |(round_half_even m : ℚ) - m| ≤ 1 / 2 := by
  have h1 : (⌊m⌋ : ℚ) ≤ m := Int.floor_le m
  have h2 : m < (⌊m⌋ : ℚ) + 1 := Int.lt_floor_add_one m
  unfold round_half_even
  simp only []
  rw [abs_le]
  split_ifs with ha hb hc
  · constructor <;> linarith
  · push_cast; constructor <;> linarith
  · push_neg at ha hb; constructor <;> linarith
  · push_neg at ha hb; push_cast; constructor <;> linarith

/-- The rounding error of a double operation with a result between 0 and 2 is at most
`2^-53`. -/
theorem to_double_error (x : ℚ) (h0 : 0 ≤ x) (h2 : x ≤ 2) : |to_double x - x| ≤ 1 / 2 ^ 53 := by
  rcases eq_or_lt_of_le h2 with heq | hlt
  · rw [to_double_exact x (2 ^ 53) le_rfl (by rw [heq]; norm_num)]
    simp
  · unfold to_double
    split_ifs with hz
    · rw [hz]; simp
    · simp only []
      have hpos : 0 < x := lt_of_le_of_ne h0 (Ne.symm hz)
      rw [abs_of_pos hpos]
      obtain ⟨hb1, hb2⟩ := binade_spec x hpos
      have he : binade x ≤ 0 := by
        have : (2 : ℚ) ^ binade x < (2 : ℚ) ^ (1 : ℤ) := lt_of_le_of_lt hb1 (by norm_num; exact hlt)
        have := (zpow_lt_zpow_iff_right₀ (by norm_num : (1 : ℚ) < 2)).mp this
        omega
      have he2 : max (binade x) (-1022) - 52 ≤ -52 := by
        have : max (binade x) (-1022) ≤ 0 := max_le he (by norm_num)
        omega
      generalize max (binade x) (-1022) - 52 = u at he2 ⊢
      rw [pow2_eq]
      have hu : (0 : ℚ) < 2 ^ u := by positivity
      have hu2 : (2 : ℚ) ^ u ≤ 1 / 2 ^ 52 := by
        have : (2 : ℚ) ^ u ≤ (2 : ℚ) ^ (-52 : ℤ) :=
          (zpow_le_zpow_iff_right₀ (by norm_num : (1 : ℚ) < 2)).mpr he2
        calc (2 : ℚ) ^ u ≤ (2 : ℚ) ^ (-52 : ℤ) := this
          _ = 1 / 2 ^ 52 := by norm_num
      have herr := round_half_even_error (x / 2 ^ u)
      have hfac : (round_half_even (x / 2 ^ u) : ℚ) * 2 ^ u - x =
          ((round_half_even (x / 2 ^ u) : ℚ) - x / 2 ^ u) * 2 ^ u := by
        field_simp
      rw [hfac, abs_mul, abs_of_pos hu]
      calc |(round_half_even (x / 2 ^ u) : ℚ) - x / 2 ^ u| * 2 ^ u
          ≤ (1 / 2) * (1 / 2 ^ 52) := mul_le_mul herr hu2 (le_of_lt hu) (by norm_num)
        _ = 1 / 2 ^ 53 := by norm_num

/-- A double in `(1, 2]` less 1 is a double: the subtraction `count - 1.0` of `recur` is
exact after a sum of at most 2. -/
theorem to_double_sub_one_exact (x : ℚ) (h0 : 0 ≤ x) (h2 : x ≤ 2) (h1 : 1 < to_double x) :
    to_double (to_double x - 1) = to_double x - 1 := by
  have hx1 : 1 < x := by
    by_contra hle
    have := to_double_le_pow2 x 0 (by norm_num) h0 (by simpa using not_lt.mp hle)
    simp at this
    linarith
  rcases eq_or_lt_of_le h2 with heq | hlt
  · have hd : to_double x = 2 := by
      rw [to_double_exact x (2 ^ 53) le_rfl (by rw [heq]; norm_num)]; exact heq
    rw [hd]
    exact to_double_exact _ (2 ^ 52) (by norm_num) (by norm_num)
  · have hpos : 0 < x := by linarith
    obtain ⟨hb1, hb2⟩ := binade_spec x hpos
    have he0 : binade x = 0 := by
      have ha : (2 : ℚ) ^ binade x < (2 : ℚ) ^ (1 : ℤ) := lt_of_le_of_lt hb1 (by norm_num; exact hlt)
      have ha := (zpow_lt_zpow_iff_right₀ (by norm_num : (1 : ℚ) < 2)).mp ha
      have hb : (2 : ℚ) ^ (0 : ℤ) < (2 : ℚ) ^ (binade x + 1) := lt_of_lt_of_le (by norm_num; exact hx1) (le_of_lt hb2)
      have hb := (zpow_lt_zpow_iff_right₀ (by norm_num : (1 : ℚ) < 2)).mp hb
      omega
    have hval : to_double x = (round_half_even (x / (1 / 2 ^ 52)) : ℚ) * (1 / 2 ^ 52) := by
      unfold to_double
      rw [if_neg (ne_of_gt hpos)]
      simp only []
      rw [abs_of_pos hpos, he0, pow2_eq]
      norm_num
    generalize hZ : round_half_even (x / (1 / 2 ^ 52)) = Z at hval
    have hZle : Z ≤ 2 ^ 53 := by
      rw [← hZ]
      have := round_half_even_le (x / (1 / 2 ^ 52)) (2 ^ 53) (by
        rw [div_le_iff₀ (by positivity)]
        push_cast
        norm_num
        linarith)
      exact this
    have hZgt : 2 ^ 52 < Z := by
      rw [hval] at h1
      have : (2 ^ 52 : ℚ) < (Z : ℚ) := by
        have h3 : (Z : ℚ) * (1 / 2 ^ 52) = (Z : ℚ) / 2 ^ 52 := by ring
        rw [h3, lt_div_iff₀ (by positivity : (0 : ℚ) < 2 ^ 52), one_mul] at h1
        exact h1
      exact_mod_cast this
    rw [hval]
    apply to_double_exact _ (Z - 2 ^ 52).toNat
    · omega
    · have : (((Z - 2 ^ 52).toNat : ℕ) : ℚ) = (Z : ℚ) - 2 ^ 52 := by
        have h : (((Z - 2 ^ 52).toNat : ℕ) : ℤ) = Z - 2 ^ 52 := Int.toNat_of_nonneg (by omega)
        have h4 : ((((Z - 2 ^ 52).toNat : ℕ) : ℤ) : ℚ) = ((Z - 2 ^ 52 : ℤ) : ℚ) := by rw [h]
        rw [Int.cast_natCast] at h4
        rw [h4]
        push_cast
        ring
      rw [this]
      field_simp

/-! ## Enqueue: classification and admission -/

/-- C1: a packet that passes admission is appended (with its bytes unchanged and its arrival
time set) to the L4S sub-queue exactly when the low two bits of its TOS byte, packet byte 5,
are 01 or 11, and to the Classic sub-queue when they are 00 or 10; the other sub-queue is
unchanged. The branch taken is a function of those two bits alone. -/
theorem enqueue_classifies_by_ecn (MTU : Nat) (s : DualQCoupledAQM) (p : QueuedPacket) (e : Env)
    (hadm : ¬ (size_bytes s + MTU > s.byte_limit_)) :
    ((byteAt p 5 % 4 = 1 ∨ byteAt p 5 % 4 = 3) →
        (enqueue MTU s p e).l4s_queue_ =
            { s.l4s_queue_ with queue := s.l4s_queue_.queue ++ [⟨p.contents, e.now⟩] } ∧
          (enqueue MTU s p e).classic_queue_ = s.classic_queue_) ∧
      ((byteAt p 5 % 4 = 0 ∨ byteAt p 5 % 4 = 2) →
        (enqueue MTU s p e).classic_queue_ =
            { s.classic_queue_ with queue := s.classic_queue_.queue ++ [⟨p.contents, e.now⟩] } ∧
          (enqueue MTU s p e).l4s_queue_ = s.l4s_queue_) := by
  have hadm1 : ¬ (size_bytes (poll s e.poll_start) + MTU > (poll s e.poll_start).byte_limit_) := by
    simpa using hadm
  have hbits : get_ecn_bits p = byteAt p 5 % 4 := get_ecn_bits_eq_mod p
  constructor
  · intro h
    have hc : get_ecn_bits p = IPTOS_ECN_ECT1 ∨ get_ecn_bits p = IPTOS_ECN_CE := by
      rw [hbits]; exact h
    unfold enqueue
    simp only [if_neg hadm1, if_pos hc, poll_l4s_queue, poll_classic_queue]
    exact ⟨rfl, trivial⟩
  · intro h
    have hc : ¬ (get_ecn_bits p = IPTOS_ECN_ECT1 ∨ get_ecn_bits p = IPTOS_ECN_CE) := by
      rw [hbits]; unfold IPTOS_ECN_ECT1 IPTOS_ECN_CE; omega
    unfold enqueue
    simp only [if_neg hadm1, if_neg hc, poll_l4s_queue, poll_classic_queue]
    exact ⟨rfl, trivial⟩

/-- C1 at a concrete input: an ECT(1) packet offered to the default AQM goes to L4S. -/
theorem enqueue_classifies_by_ecn_witness :
    (enqueue 1500 default_aqm (sample_packet 1 0) (Env.quiet 7)).l4s_queue_ =
        { default_aqm.l4s_queue_ with
          queue := default_aqm.l4s_queue_.queue ++ [⟨(sample_packet 1 0).contents, 7⟩] } ∧
      (enqueue 1500 default_aqm (sample_packet 1 0) (Env.quiet 7)).classic_queue_ =
        default_aqm.classic_queue_ :=
  (enqueue_classifies_by_ecn 1500 default_aqm (sample_packet 1 0) (Env.quiet 7)
    (by decide)).1 (by decide)

/-- C2: `enqueue` rejects the packet exactly when `size_bytes + MTU > byte_limit`. On rejection
both sub-queues (contents, sizes, accumulators) are unchanged and `satur_drop_pkts` grows by 1;
on admission `satur_drop_pkts` is unchanged, `size_packets` grows by 1 and `size_bytes` by the
length of the packet. -/
theorem enqueue_admission (MTU : Nat) (s : DualQCoupledAQM) (p : QueuedPacket) (e : Env) :
    (size_bytes s + MTU > s.byte_limit_ →
        (enqueue MTU s p e).l4s_queue_ = s.l4s_queue_ ∧
          (enqueue MTU s p e).classic_queue_ = s.classic_queue_ ∧
          size_packets (enqueue MTU s p e) = size_packets s ∧
          size_bytes (enqueue MTU s p e) = size_bytes s ∧
          (enqueue MTU s p e).satur_drop_pkts_ = s.satur_drop_pkts_ + 1) ∧
      (¬ (size_bytes s + MTU > s.byte_limit_) →
        (enqueue MTU s p e).satur_drop_pkts_ = s.satur_drop_pkts_ ∧
          size_packets (enqueue MTU s p e) = size_packets s + 1 ∧
          size_bytes (enqueue MTU s p e) = size_bytes s + p.contents.length) := by
  constructor
  · intro h
    have h1 : size_bytes (poll s e.poll_start) + MTU > (poll s e.poll_start).byte_limit_ := by
      simpa using h
    unfold enqueue
    simp only [if_pos h1]
    simp [drop, size_packets, size_bytes]
  · intro h
    have h1 : ¬ (size_bytes (poll s e.poll_start) + MTU > (poll s e.poll_start).byte_limit_) := by
      simpa using h
    unfold enqueue
    simp only [if_neg h1]
    by_cases hc : get_ecn_bits p = IPTOS_ECN_ECT1 ∨ get_ecn_bits p = IPTOS_ECN_CE
    · simp only [if_pos hc]
      simp [size_packets, size_bytes, PacketQueue.size_packets, PacketQueue.size_bytes,
        PacketQueue.enqueue]
      omega
    · simp only [if_neg hc]
      simp [size_packets, size_bytes, PacketQueue.size_packets, PacketQueue.size_bytes,
        PacketQueue.enqueue]
      omega

/-! ## Controller tick -/

theorem periodic_update_pp (s : DualQCoupledAQM) (now : Nat) :
    (periodic_update s now).pp_ =
      (if pi_update s (max (s.l4s_queue_.qdelay_in_ms now) (s.classic_queue_.qdelay_in_ms now))
            (max s.l4s_qdelay_ms_ s.classic_qdelay_ms_) > 1 then 1
        else if pi_update s (max (s.l4s_queue_.qdelay_in_ms now)
            (s.classic_queue_.qdelay_in_ms now)) (max s.l4s_qdelay_ms_ s.classic_qdelay_ms_) < 0
          then 0
        else pi_update s (max (s.l4s_queue_.qdelay_in_ms now) (s.classic_queue_.qdelay_in_ms now))
            (max s.l4s_qdelay_ms_ s.classic_qdelay_ms_)) := rfl

theorem periodic_update_pp_bounds (s : DualQCoupledAQM) (now : Nat) :
    0 ≤ (periodic_update s now).pp_ ∧ (periodic_update s now).pp_ ≤ 1 := by
  rw [periodic_update_pp]
  split_ifs with h1 h2
  · exact ⟨zero_le_one, le_refl _⟩
  · exact ⟨le_refl _, zero_le_one⟩
  · exact ⟨not_lt.mp h2, not_lt.mp h1⟩

/-- C3: one controller tick computes `v = pp + alpha·(qdelay − target_ms) + beta·(qdelay −
qdelay_old)` from the maximum of the freshly read delays and the maximum of the cached ones;
afterwards `pp ∈ [0,1]`, `pp = v` whenever `v ∈ [0, p_Cmax]`, `p_C = pp²`, `p_CL = 2·pp`, and
the cached delays are the freshly read ones. -/
theorem controller_tick (s : DualQCoupledAQM) (now : Nat) (hk : s.k_ = 2)
    (hC : s.p_Cmax_ = min (1 / s.k_ ^ 2) 1) :
    let qdelay := max (s.l4s_queue_.qdelay_in_ms now) (s.classic_queue_.qdelay_in_ms now)
    let qdelay_old := max s.l4s_qdelay_ms_ s.classic_qdelay_ms_
    let v := s.pp_ + s.alpha_ * ((qdelay : ℚ) - (s.target_ms_ : ℚ))
      + s.beta_ * ((qdelay : ℚ) - (qdelay_old : ℚ))
    0 ≤ (periodic_update s now).pp_ ∧ (periodic_update s now).pp_ ≤ 1 ∧
      (0 ≤ v → v ≤ s.p_Cmax_ → (periodic_update s now).pp_ = v) ∧
      (periodic_update s now).p_c_ = (periodic_update s now).pp_ ^ 2 ∧
      (periodic_update s now).p_cl_ = 2 * (periodic_update s now).pp_ ∧
      (periodic_update s now).l4s_qdelay_ms_ = s.l4s_queue_.qdelay_in_ms now ∧
      (periodic_update s now).classic_qdelay_ms_ = s.classic_queue_.qdelay_in_ms now := by
  intro qdelay qdelay_old v
  have hv : pi_update s qdelay qdelay_old = v := by
    simp only [pi_update, v]; ring
  have hcap : s.p_Cmax_ ≤ 1 := by rw [hC]; exact min_le_right _ _
  refine ⟨(periodic_update_pp_bounds s now).1, (periodic_update_pp_bounds s now).2, ?_, rfl,
    ?_, rfl, rfl⟩
  · intro h0 h1
    rw [periodic_update_pp]
    change (if pi_update s qdelay qdelay_old > 1 then 1
      else if pi_update s qdelay qdelay_old < 0 then 0 else pi_update s qdelay qdelay_old) = v
    rw [hv, if_neg (not_lt.mpr (le_trans h1 hcap)), if_neg (not_lt.mpr h0)]
  · change (periodic_update s now).pp_ * s.k_ = 2 * (periodic_update s now).pp_
    rw [hk, mul_comm]

/-- C3 at the stated input: target 15, alpha 0.00016, beta 0.0032, `pp = 0`, cached delays 0
and a queue delay of 30 ms give `pp = 0.0984`, `p_C = 0.00968256`, `p_CL = 0.1968`. -/
theorem controller_tick_witness :
    (tick_state.target_ms_ = 15 ∧ tick_state.alpha_ = 16 / 100000 ∧
        tick_state.beta_ = 32 / 10000 ∧ tick_state.pp_ = 0 ∧
        max tick_state.l4s_qdelay_ms_ tick_state.classic_qdelay_ms_ = 0 ∧
        max (tick_state.l4s_queue_.qdelay_in_ms 30) (tick_state.classic_queue_.qdelay_in_ms 30)
          = 30) ∧
      (periodic_update tick_state 30).pp_ = 984 / 10000 ∧
      (periodic_update tick_state 30).p_c_ = 968256 / 100000000 ∧
      (periodic_update tick_state 30).p_cl_ = 1968 / 10000 := by
  have h := controller_tick tick_state 30 (by decide!) (by decide!)
  have hpp : (periodic_update tick_state 30).pp_ = 984 / 10000 := by
    rw [h.2.2.1 (by decide!) (by decide!)]; decide!
  refine ⟨by decide!, hpp, ?_, ?_⟩
  · rw [h.2.2.2.1, hpp]; norm_num
  · rw [h.2.2.2.2.1, hpp]; norm_num

/-- C4, refuted as stated: the constructor enables drop-on-overload and sets `p_Cmax = 0.25`,
and a tick of the reachable state `tick_state` at a queue delay of 1000 ms leaves `pp = 1`,
above `p_Cmax`. -/
theorem pp_exceeds_p_Cmax :
    Reachable 1500 Args.empty sample_ext tick_state ∧
      tick_state.l4s_drop_on_overload_ = true ∧ (periodic_update tick_state 1000).p_Cmax_ = 1 / 4 ∧
      (periodic_update tick_state 1000).pp_ = 1 ∧
      ¬ ((periodic_update tick_state 1000).pp_ ≤ (periodic_update tick_state 1000).p_Cmax_) :=
  ⟨Reachable.enq _ _ _ Reachable.init, by decide!, by decide!, by decide!, by decide!⟩

/-- C4, as the code has it: after every controller tick from any state `0 ≤ pp ≤ 1`; the tick
leaves `p_Cmax` and the drop-on-overload flag as they are, and the constructor sets them to
`min(1/k², 1) = 0.25` (with `k = 2`) and true. -/
theorem pp_within_unit_interval (MTU : Nat) (args : Args) (ext : Collaborators)
    (s : DualQCoupledAQM) (now : Nat) :
    (0 ≤ (periodic_update s now).pp_ ∧ (periodic_update s now).pp_ ≤ 1) ∧
      (periodic_update s now).p_Cmax_ = s.p_Cmax_ ∧
      (periodic_update s now).l4s_drop_on_overload_ = s.l4s_drop_on_overload_ ∧
      (construct MTU args ext).k_ = 2 ∧
      (construct MTU args ext).p_Cmax_ = 1 / 4 ∧
      (construct MTU args ext).l4s_drop_on_overload_ = true := by
  refine ⟨periodic_update_pp_bounds s now, rfl, rfl, rfl, ?_, rfl⟩
  change min ((1 : ℚ) / 2 ^ 2) 1 = 1 / 4
  norm_num

/-! ## Facts about the loop of `dequeue` -/

@[simp] theorem scheduler_update_l4s_queue (s : DualQCoupledAQM) :
    (scheduler_update s).l4s_queue_ = s.l4s_queue_ := by
  unfold scheduler_update; split_ifs <;> [split <;> rfl; rfl]

@[simp] theorem scheduler_update_classic_queue (s : DualQCoupledAQM) :
    (scheduler_update s).classic_queue_ = s.classic_queue_ := by
  unfold scheduler_update; split_ifs <;> [split <;> rfl; rfl]

@[simp] theorem scheduler_update_p_c (s : DualQCoupledAQM) :
    (scheduler_update s).p_c_ = s.p_c_ := by
  unfold scheduler_update; split_ifs <;> [split <;> rfl; rfl]

@[simp] theorem scheduler_update_p_cl (s : DualQCoupledAQM) :
    (scheduler_update s).p_cl_ = s.p_cl_ := by
  unfold scheduler_update; split_ifs <;> [split <;> rfl; rfl]

@[simp] theorem scheduler_update_k (s : DualQCoupledAQM) :
    (scheduler_update s).k_ = s.k_ := by
  unfold scheduler_update; split_ifs <;> [split <;> rfl; rfl]

@[simp] theorem scheduler_update_byte_limit (s : DualQCoupledAQM) :
    (scheduler_update s).byte_limit_ = s.byte_limit_ := by
  unfold scheduler_update; split_ifs <;> [split <;> rfl; rfl]

@[simp] theorem scheduler_update_satur_drop_pkts (s : DualQCoupledAQM) :
    (scheduler_update s).satur_drop_pkts_ = s.satur_drop_pkts_ := by
  unfold scheduler_update; split_ifs <;> [split <;> rfl; rfl]

@[simp] theorem drop_l4s_queue (s : DualQCoupledAQM) (reason : String) :
    (drop s reason).l4s_queue_ = s.l4s_queue_ := by
  unfold drop; split_ifs <;> rfl

@[simp] theorem drop_classic_queue (s : DualQCoupledAQM) (reason : String) :
    (drop s reason).classic_queue_ = s.classic_queue_ := by
  unfold drop; split_ifs <;> rfl

@[simp] theorem drop_p_c (s : DualQCoupledAQM) (reason : String) :
    (drop s reason).p_c_ = s.p_c_ := by
  unfold drop; split_ifs <;> rfl

@[simp] theorem drop_p_cl (s : DualQCoupledAQM) (reason : String) :
    (drop s reason).p_cl_ = s.p_cl_ := by
  unfold drop; split_ifs <;> rfl

@[simp] theorem drop_k (s : DualQCoupledAQM) (reason : String) :
    (drop s reason).k_ = s.k_ := by
  unfold drop; split_ifs <;> rfl

@[simp] theorem drop_byte_limit (s : DualQCoupledAQM) (reason : String) :
    (drop s reason).byte_limit_ = s.byte_limit_ := by
  unfold drop; split_ifs <;> rfl

@[simp] theorem pop_recur_count (q : PacketQueue) : q.pop.recur_count = q.recur_count := rfl

@[simp] theorem pop_queue (q : PacketQueue) : q.pop.queue = q.queue.tail := rfl

theorem recur_count_nonneg (q : PacketQueue) (p : ℚ) (hq : 0 ≤ q.recur_count) (hp : 0 ≤ p) :
    0 ≤ (recur q p).2.recur_count := by
  have hc := to_double_nonneg (q.recur_count + p) (by linarith)
  unfold recur
  simp only []
  split_ifs with h
  · exact to_double_nonneg _ (by linarith)
  · exact hc

theorem recur_count_le_one (q : PacketQueue) (p : ℚ) (hq0 : 0 ≤ q.recur_count)
    (hq1 : q.recur_count ≤ 1) (hp0 : 0 ≤ p) (hp1 : p ≤ 1) :
    (recur q p).2.recur_count ≤ 1 := by
  have hc : to_double (q.recur_count + p) ≤ (2 : ℚ) ^ (1 : ℤ) :=
    to_double_le_pow2 _ 1 (by norm_num) (by linarith) (by norm_num; linarith)
  unfold recur
  simp only []
  split_ifs with h
  · have := to_double_le_pow2 (to_double (q.recur_count + p) - 1) 0 (by norm_num)
      (by linarith) (by norm_num at hc ⊢; linarith)
    simpa using this
  · exact not_lt.mp h

/-- One call of `recur` with accumulator and likelihood in `[0,1]`: what it returns plus what
it leaves differs from the accumulator plus the likelihood by the rounding of one double
addition, at most `2^-53`. -/
theorem recur_step_error (q : PacketQueue) (p : ℚ) (hq0 : 0 ≤ q.recur_count)
    (hq1 : q.recur_count ≤ 1) (hp0 : 0 ≤ p) (hp1 : p ≤ 1) :
    |(((if (recur q p).1 then 1 else 0 : ℕ) : ℚ) + (recur q p).2.recur_count)
        - (q.recur_count + p)| ≤ 1 / 2 ^ 53 := by
  have herr := to_double_error (q.recur_count + p) (by linarith) (by linarith)
  by_cases h : to_double (q.recur_count + p) > 1
  · have hr : recur q p = (true, { q with
        recur_count := to_double (to_double (q.recur_count + p) - 1) }) := by
      simp only [recur, if_pos h]
    rw [hr, to_double_sub_one_exact _ (by linarith) (by linarith) h]
    simp only [if_true, Nat.cast_one]
    have : (1 : ℚ) + (to_double (q.recur_count + p) - 1) - (q.recur_count + p) =
        to_double (q.recur_count + p) - (q.recur_count + p) := by ring
    rw [this]
    exact herr
  · have hr : recur q p = (false, { q with recur_count := to_double (q.recur_count + p) }) := by
      simp only [recur, if_neg h]
    rw [hr]
    simp only [Bool.false_eq_true, if_false, Nat.cast_zero, zero_add]
    exact herr

theorem recur_times_bounds (q : PacketQueue) (p : ℚ) (hp0 : 0 ≤ p) (hp1 : p ≤ 1)
    (hc0 : 0 ≤ q.recur_count) (hc1 : q.recur_count ≤ 1) (N : Nat) :
    0 ≤ (recur_times q p N).2.recur_count ∧ (recur_times q p N).2.recur_count ≤ 1 := by
  induction N with
  | zero => exact ⟨hc0, hc1⟩
  | succ n ih =>
    simp only [recur_times]
    exact ⟨recur_count_nonneg _ p ih.1 hp0, recur_count_le_one _ p ih.1 ih.2 hp0 hp1⟩

/-- Conservation up to rounding: after `N` calls of `recur` with accumulator and likelihood in
`[0,1]`, the number of true returns plus the accumulator differs from the initial accumulator
plus `N` times the likelihood by at most `N·2^-53`. -/
theorem recur_times_error (q : PacketQueue) (p : ℚ) (hp0 : 0 ≤ p) (hp1 : p ≤ 1)
    (hc0 : 0 ≤ q.recur_count) (hc1 : q.recur_count ≤ 1) (N : Nat) :
    |((recur_times q p N).1 : ℚ) + (recur_times q p N).2.recur_count
        - (q.recur_count + N * p)| ≤ N / 2 ^ 53 := by
  induction N with
  | zero => simp [recur_times]
  | succ n ih =>
    obtain ⟨h0, h1⟩ := recur_times_bounds q p hp0 hp1 hc0 hc1 n
    have hstep := recur_step_error (recur_times q p n).2 p h0 h1 hp0 hp1
    simp only [recur_times]
    generalize (if (recur (recur_times q p n).2 p).1 then 1 else 0 : ℕ) = d at hstep ⊢
    rw [abs_le] at ih hstep ⊢
    push_cast
    have e : ((n : ℚ) + 1) / 2 ^ 53 = (n : ℚ) / 2 ^ 53 + 1 / 2 ^ 53 := by ring
    have e2 : ((n : ℚ) + 1) * p = n * p + p := by ring
    rw [e, e2]
    constructor
    · linarith [ih.1, hstep.1]
    · linarith [ih.2, hstep.2]

theorem recur_pop_nonneg (q : PacketQueue) (p : ℚ) (hq : 0 ≤ q.recur_count) (hp : 0 ≤ p) :
    0 ≤ (recur q.pop p).2.recur_count :=
  recur_count_nonneg q.pop p hq hp

theorem periodic_update_nonneg (s : DualQCoupledAQM) (now : Nat) (h : NonNeg s) :
    NonNeg (periodic_update s now) := by
  obtain ⟨_, _, hk, hl, hc⟩ := h
  have hpp := (periodic_update_pp_bounds s now).1
  refine ⟨?_, ?_, hk, hl, hc⟩
  · change 0 ≤ (periodic_update s now).pp_ ^ 2
    positivity
  · change 0 ≤ (periodic_update s now).pp_ * s.k_
    exact mul_nonneg hpp hk

theorem poll_nonneg (s : DualQCoupledAQM) (t : Option Nat) (h : NonNeg s) : NonNeg (poll s t) := by
  cases t
  · exact h
  · exact periodic_update_nonneg s _ h

theorem enqueue_nonneg (MTU : Nat) (s : DualQCoupledAQM) (p : QueuedPacket) (e : Env)
    (h : NonNeg s) : NonNeg (enqueue MTU s p e) := by
  have h1 := poll_nonneg s e.poll_start h
  unfold enqueue
  simp only []
  split_ifs
  · simpa [NonNeg] using h1
  · apply poll_nonneg; simpa [NonNeg, PacketQueue.enqueue] using h1
  · apply poll_nonneg; simpa [NonNeg, PacketQueue.enqueue] using h1

theorem dequeue_l4s_nonneg (MTU : Nat) (s : DualQCoupledAQM) (e : Env) (h : NonNeg s) :
    NonNeg (dequeue_l4s MTU s e).2 := by
  obtain ⟨hpc, hpcl, hk, hl, hc⟩ := h
  unfold dequeue_l4s
  simp only []
  split_ifs <;> (try apply poll_nonneg) <;>
    simp only [NonNeg, scheduler_update_l4s_queue, scheduler_update_classic_queue,
      scheduler_update_p_c, scheduler_update_p_cl, scheduler_update_k, drop_l4s_queue,
      drop_classic_queue, drop_p_c, drop_p_cl, drop_k, set_l4s, pop_recur_count] <;>
    refine ⟨hpc, hpcl, hk, ?_, hc⟩ <;>
    first
      | with_reducible exact recur_pop_nonneg _ _ hl hpc
      | with_reducible exact recur_count_nonneg _ _ (recur_pop_nonneg _ _ hl hpc) hpcl
      | with_reducible exact recur_pop_nonneg _ _ hl (le_trans hpcl le_sup_right)

theorem dequeue_classic_nonneg (MTU : Nat) (s : DualQCoupledAQM) (e : Env) (h : NonNeg s) :
    NonNeg (dequeue_classic MTU s e).2 := by
  obtain ⟨hpc, hpcl, hk, hl, hc⟩ := h
  unfold dequeue_classic
  simp only []
  split_ifs <;> (try apply poll_nonneg) <;>
    simp only [NonNeg, scheduler_update_l4s_queue, scheduler_update_classic_queue,
      scheduler_update_p_c, scheduler_update_p_cl, scheduler_update_k, drop_l4s_queue,
      drop_classic_queue, drop_p_c, drop_p_cl, drop_k, pop_recur_count] <;>
    exact ⟨hpc, hpcl, hk, hl, recur_pop_nonneg _ _ hc hpc⟩

theorem dequeue_iter_nonneg (MTU : Nat) (s : DualQCoupledAQM) (e : Env) (h : NonNeg s) :
    NonNeg (dequeue_iter MTU s e).2 := by
  have hp := poll_nonneg s e.poll_start h
  unfold dequeue_iter
  simp only []
  split
  · exact dequeue_l4s_nonneg MTU _ e hp
  · exact dequeue_classic_nonneg MTU _ e hp
  · exact poll_nonneg _ _ hp

theorem dequeue_loop_nonneg (MTU : Nat) (fuel : Nat) :
    ∀ (s : DualQCoupledAQM) (env : Nat → Env) (drops : Nat) (r : Dequeued)
      (s1 : DualQCoupledAQM), NonNeg s → dequeue_loop MTU fuel s env drops = some (r, s1) →
      NonNeg s1 := by
  induction fuel with
  | zero => intro s env drops r s1 _ h; simp [dequeue_loop] at h
  | succ n ih =>
    intro s env drops r s1 hs h
    have hit := dequeue_iter_nonneg MTU s (env 0) hs
    unfold dequeue_loop at h
    split at h
    · next q pkt s2 heq =>
      rw [heq] at hit
      simp only [Option.some.injEq, Prod.mk.injEq] at h
      rw [← h.2]; exact hit
    · next q pkt s2 heq =>
      rw [heq] at hit
      exact ih s2 _ _ r s1 hit h

theorem construct_nonneg (MTU : Nat) (args : Args) (ext : Collaborators) :
    NonNeg (construct MTU args ext) := by
  refine ⟨le_refl _, le_refl _, ?_, le_refl _, le_refl _⟩
  change (0 : ℚ) ≤ 2
  norm_num

theorem reachable_nonneg (MTU : Nat) (args : Args) (ext : Collaborators) (s : DualQCoupledAQM)
    (h : Reachable MTU args ext s) : NonNeg s := by
  induction h with
  | init => exact construct_nonneg MTU args ext
  | enq s p e _ ih => exact enqueue_nonneg MTU s p e ih
  | deq s env r s1 _ hd ih => exact dequeue_loop_nonneg MTU _ s env 0 r s1 ih hd
  | tick s now _ ih => exact periodic_update_nonneg s now ih

/-! ## The recur accumulator -/

theorem on_grid_bounds (x : ℚ) (h : on_grid x) : 0 ≤ x ∧ x ≤ 1 := by
  obtain ⟨k, hk, rfl⟩ := h
  constructor
  · positivity
  · rw [div_le_one (by positivity)]
    exact_mod_cast hk

/-- On the grid the double operations of `recur` are exact: the call adds the likelihood,
returns true and subtracts 1 when the sum exceeds 1, and leaves the accumulator on the grid. -/
theorem recur_on_grid (q : PacketQueue) (p : ℚ) (hq : on_grid q.recur_count) (hp : on_grid p) :
    recur q p =
        (if q.recur_count + p > 1 then (true, { q with recur_count := q.recur_count + p - 1 })
          else (false, { q with recur_count := q.recur_count + p })) ∧
      on_grid (recur q p).2.recur_count := by
  obtain ⟨k, hk, hkq⟩ := hq
  obtain ⟨j, hj, hjp⟩ := hp
  have hsum : q.recur_count + p = ((k + j : ℕ) : ℚ) / 2 ^ 52 := by
    rw [hkq, hjp]; push_cast; ring
  have h1 : to_double (q.recur_count + p) = q.recur_count + p :=
    to_double_exact _ (k + j) (by omega) hsum
  have hiff : q.recur_count + p > 1 ↔ 2 ^ 52 < k + j := by
    rw [hsum, gt_iff_lt, lt_div_iff₀ (by positivity), one_mul]
    exact_mod_cast Iff.rfl
  unfold recur
  simp only [h1]
  split_ifs with h
  · have hlt := hiff.mp h
    have hdiff : q.recur_count + p - 1 = ((k + j - 2 ^ 52 : ℕ) : ℚ) / 2 ^ 52 := by
      rw [hsum, Nat.cast_sub (le_of_lt hlt)]
      push_cast
      field_simp
      norm_num
    have h2 : to_double (q.recur_count + p - 1) = q.recur_count + p - 1 :=
      to_double_exact _ (k + j - 2 ^ 52) (by omega) hdiff
    simp only [h2, true_and]
    exact ⟨k + j - 2 ^ 52, by omega, hdiff⟩
  · have hle : k + j ≤ 2 ^ 52 := by
      by_contra hc
      exact h (hiff.mpr (by omega))
    simp only [true_and]
    exact ⟨k + j, hle, hsum⟩

theorem recur_times_invariant (q : PacketQueue) (p : ℚ) (hp : on_grid p)
    (hc : on_grid q.recur_count) (N : Nat) :
    ((recur_times q p N).1 : ℚ) + (recur_times q p N).2.recur_count = q.recur_count + N * p ∧
      on_grid (recur_times q p N).2.recur_count ∧
      (0 < q.recur_count + N * p → 0 < (recur_times q p N).2.recur_count) := by
  obtain ⟨hp0, hp1⟩ := on_grid_bounds p hp
  induction N with
  | zero => simp [recur_times, hc]
  | succ n ih =>
    obtain ⟨hsum, hg, hpos⟩ := ih
    obtain ⟨h0, h1⟩ := on_grid_bounds _ hg
    obtain ⟨hr, hg2⟩ := recur_on_grid (recur_times q p n).2 p hg hp
    by_cases hgt : (recur_times q p n).2.recur_count + p > 1
    · rw [if_pos hgt] at hr
      refine ⟨?_, by simpa only [recur_times] using hg2, ?_⟩
      · simp only [recur_times, hr, if_true, Nat.cast_add, Nat.cast_one]
        linarith
      · intro _
        simp only [recur_times, hr]
        linarith
    · rw [if_neg hgt] at hr
      refine ⟨?_, by simpa only [recur_times] using hg2, ?_⟩
      · simp only [recur_times, hr, Bool.false_eq_true, if_false, Nat.cast_add, Nat.cast_one,
          add_zero]
        linarith
      · intro hx
        simp only [recur_times, hr]
        by_contra hle
        have hc0 : (recur_times q p n).2.recur_count = 0 := by linarith
        have hpz : p = 0 := by linarith
        have hn : ¬ (0 < q.recur_count + n * p) := fun h => by
          have := hpos h
          linarith
        rw [hpz] at hn hx
        simp only [mul_zero, add_zero] at hn hx
        exact hn hx

/-- C6, refuted as stated: with accumulator 0 and likelihood 1/2, two calls of `recur` return
true 0 times, while `floor(2·(1/2) + 0) = 1`; and with accumulator 0 and the double nearest to
0.15 as likelihood `p`, twenty calls return true 3 times, while `floor(20·p + 0) = 2`. -/
theorem recur_count_not_floor :
    ((recur_times ⟨[], 0⟩ (1 / 2) 2).1 = 0 ∧ ⌊((2 : ℕ) : ℚ) * (1 / 2) + 0⌋ = 1 ∧
      ((recur_times ⟨[], 0⟩ (1 / 2) 2).1 : ℤ) ≠ ⌊((2 : ℕ) : ℚ) * (1 / 2) + 0⌋) ∧
      (0 ≤ to_double (3 / 20) ∧ to_double (3 / 20) ≤ 1 ∧
        (recur_times ⟨[], 0⟩ (to_double (3 / 20)) 20).1 = 3 ∧
        ⌊((20 : ℕ) : ℚ) * to_double (3 / 20) + 0⌋ = 2) := by
  have h1 : (recur_times ⟨[], 0⟩ (1 / 2) 2).1 = 0 := by decide!
  have h2 : ⌊((2 : ℕ) : ℚ) * (1 / 2) + 0⌋ = 1 := by norm_num
  have h3 : to_double (3 / 20) = 5404319552844595 / 36028797018963968 := by decide!
  refine ⟨⟨h1, h2, ?_⟩, ?_, ?_, by decide!, ?_⟩
  · rw [h1, h2]; norm_num
  · rw [h3]; norm_num
  · rw [h3]; norm_num
  · rw [h3, Int.floor_eq_iff]; norm_num

/-- C6, as the code has it: for a likelihood `p ∈ [0,1]` and an initial accumulator
`c0 ∈ [0,1]`, the number `T` of true returns of `N` consecutive calls of `recur` satisfies
`ceil(N·p + c0 − N·2^-53) − 1 ≤ T ≤ floor(N·p + c0 + N·2^-53)`, where `N·2^-53` bounds the
rounding of the `N` double additions. When `p` and `c0` are multiples of `2^-52`, where the
additions are exact, `T` is exactly `ceil(N·p + c0) − 1` when `N·p + c0 > 0` and 0 when it is
0; this is `floor(N·p + c0)` whenever `N·p + c0` is not an integer. -/
theorem recur_count_ceil (q : PacketQueue) (p : ℚ) (N : Nat) (hp0 : 0 ≤ p) (hp1 : p ≤ 1)
    (hc0 : 0 ≤ q.recur_count) (hc1 : q.recur_count ≤ 1) :
    (⌈(N : ℚ) * p + q.recur_count - N / 2 ^ 53⌉ - 1 ≤ ((recur_times q p N).1 : ℤ) ∧
        ((recur_times q p N).1 : ℤ) ≤ ⌊(N : ℚ) * p + q.recur_count + N / 2 ^ 53⌋) ∧
      (on_grid p → on_grid q.recur_count →
        (0 < (N : ℚ) * p + q.recur_count →
            ((recur_times q p N).1 : ℤ) = ⌈(N : ℚ) * p + q.recur_count⌉ - 1) ∧
          ((N : ℚ) * p + q.recur_count = 0 → (recur_times q p N).1 = 0) ∧
          ((⌊(N : ℚ) * p + q.recur_count⌋ : ℚ) ≠ (N : ℚ) * p + q.recur_count →
            ((recur_times q p N).1 : ℤ) = ⌊(N : ℚ) * p + q.recur_count⌋)) := by
  have hT : (((recur_times q p N).1 : ℤ) : ℚ) = ((recur_times q p N).1 : ℚ) := by norm_cast
  constructor
  · obtain ⟨hb0, hb1⟩ := recur_times_bounds q p hp0 hp1 hc0 hc1 N
    have herr := recur_times_error q p hp0 hp1 hc0 hc1 N
    rw [abs_le] at herr
    constructor
    · have : ⌈(N : ℚ) * p + q.recur_count - N / 2 ^ 53⌉ ≤ ((recur_times q p N).1 : ℤ) + 1 := by
        rw [Int.ceil_le]
        push_cast
        linarith [herr.1]
      omega
    · rw [Int.le_floor, hT]
      linarith [herr.2]
  · intro hp hc
    obtain ⟨hsum, hg, hpos⟩ := recur_times_invariant q p hp hc N
    obtain ⟨h0, h1⟩ := on_grid_bounds _ hg
    have hx0 : 0 ≤ (N : ℚ) * p + q.recur_count := by positivity
    refine ⟨?_, ?_, ?_⟩
    · intro hx
      have hc := hpos (by linarith)
      have : ⌈(N : ℚ) * p + q.recur_count⌉ = ((recur_times q p N).1 : ℤ) + 1 := by
        rw [Int.ceil_eq_iff]
        push_cast
        constructor <;> linarith
      omega
    · intro hx
      have : ((recur_times q p N).1 : ℚ) = 0 := by
        have hT0 : (0 : ℚ) ≤ ((recur_times q p N).1 : ℚ) := Nat.cast_nonneg _
        linarith
      exact_mod_cast this
    · intro hx
      have hne : (N : ℚ) * p + q.recur_count ≠ 0 := by
        intro hz
        rw [hz] at hx
        simp at hx
      have hxpos : 0 < (N : ℚ) * p + q.recur_count := lt_of_le_of_ne hx0 (Ne.symm hne)
      have hc := hpos (by linarith)
      symm
      rw [Int.floor_eq_iff]
      rw [hT]
      constructor
      · linarith
      · rcases lt_or_eq_of_le h1 with hlt | heq
        · linarith
        · exfalso
          apply hx
          have hval : (N : ℚ) * p + q.recur_count = (((recur_times q p N).1 + 1 : ℤ) : ℚ) := by
            push_cast; linarith
          rw [hval, Int.floor_intCast]

/-- C6 (amended) at the stated input: accumulator 0, likelihood 0.0625 and 100 calls give 6. -/
theorem recur_count_ceil_witness : (recur_times ⟨[], 0⟩ (1 / 16) 100).1 = 6 := by
  have h := ((recur_count_ceil ⟨[], 0⟩ (1 / 16) 100 (by norm_num) (by norm_num) (le_refl _)
    zero_le_one).2 ⟨2 ^ 48, by norm_num, by norm_num⟩ ⟨0, by norm_num, by norm_num⟩).2.2
  have hf : ⌊((100 : ℕ) : ℚ) * (1 / 16) + (0 : ℚ)⌋ = 6 := by
    rw [Int.floor_eq_iff]; norm_num
  have h2 := h (by
    show ((⌊((100 : ℕ) : ℚ) * (1 / 16) + (0 : ℚ)⌋ : ℤ) : ℚ) ≠ ((100 : ℕ) : ℚ) * (1 / 16) + 0
    rw [hf]; norm_num)
  have h3 : ((recur_times ⟨[], 0⟩ (1 / 16) 100).1 : ℤ) = 6 := by
    rw [h2]; exact hf
  exact_mod_cast h3

/-! ## Marking -/

theorem ecn_ce_bits (t : Byte) :
    ((Fin.ofNat ((t.val &&& (255 - IPTOS_ECN_MASK)) ||| (IPTOS_ECN_CE &&& IPTOS_ECN_MASK)) :
        Byte).val % 4 = 3) ∧
      ((Fin.ofNat ((t.val &&& (255 - IPTOS_ECN_MASK)) ||| (IPTOS_ECN_CE &&& IPTOS_ECN_MASK)) :
        Byte).val / 4 = t.val / 4) := by
  revert t
  decide!

theorem mark_length (p : QueuedPacket) : (mark p).contents.length = p.contents.length := by
  simp [mark]

theorem mark_arrival_time (p : QueuedPacket) : (mark p).arrival_time = p.arrival_time := rfl

theorem mark_getElem? (p : QueuedPacket) (i : Nat) (h5 : i ≠ 5) (h14 : i ≠ 14) (h15 : i ≠ 15) :
    (mark p).contents[i]? = p.contents[i]? := by
  simp only [mark]
  rw [List.getElem?_set_ne (Ne.symm h15), List.getElem?_set_ne (Ne.symm h14),
    List.getElem?_set_ne (Ne.symm h15), List.getElem?_set_ne (Ne.symm h14),
    List.getElem?_set_ne (Ne.symm h5)]

theorem mark_tos (p : QueuedPacket) (h : 6 ≤ p.contents.length) :
    byteAt (mark p) 5 % 4 = 3 ∧ byteAt (mark p) 5 / 4 = byteAt p 5 / 4 := by
  have h5 : (5 : Nat) < p.contents.length := by omega
  have hb : byteAt (mark p) 5 = (Fin.ofNat ((byteAt p 5 &&& (255 - IPTOS_ECN_MASK)) |||
      (IPTOS_ECN_CE &&& IPTOS_ECN_MASK)) : Byte).val := by
    simp only [byteAt, mark, ip_tos, List.getD_eq_getElem?_getD]
    rw [List.getElem?_set_ne (by decide), List.getElem?_set_ne (by decide),
      List.getElem?_set_ne (by decide), List.getElem?_set_ne (by decide),
      List.getElem?_set_self h5]
    rfl
  rw [hb]
  exact ecn_ce_bits (p.contents.getD 5 0)

/-! ## The header checksum -/

theorem word16_le (buf : List Byte) (i : Nat) : word16 buf i ≤ 65535 := by
  unfold word16
  have h1 := (buf.getD (2 * i) 0).isLt
  have h2 := (buf.getD (2 * i + 1) 0).isLt
  omega

theorem wordSum_le (buf : List Byte) (n : Nat) : wordSum buf n ≤ n * 65535 := by
  induction n with
  | zero => simp [wordSum]
  | succ k ih =>
    have := word16_le buf k
    simp only [wordSum]
    omega

theorem wordSum_replace_word (a b : List Byte) (j : Nat)
    (h : ∀ i, i ≠ j → word16 b i = word16 a i) (n : Nat) :
    (n ≤ j → wordSum b n = wordSum a n) ∧
      (j < n → wordSum b n + word16 a j = wordSum a n + word16 b j) := by
  induction n with
  | zero => simp [wordSum]
  | succ k ih =>
    constructor
    · intro hk
      simp only [wordSum]
      rw [ih.1 (by omega), h k (by omega)]
    · intro hk
      simp only [wordSum]
      rcases Nat.lt_or_ge j k with hjk | hjk
      · have := ih.2 hjk
        rw [h k (by omega)]
        omega
      · have hkj : k = j := by omega
        have := ih.1 (by omega)
        subst hkj
        omega

/-- The two carry-folding steps of `calculate_ip_checksum` on a sum of at most 30 words:
either no carry arises, or exactly one that is added back. -/
theorem fold_small (S : Nat) (h : S ≤ 30 * 65535) :
    (S / 65536 + S % 65536 < 65536 →
        (S / 65536 + S % 65536 + (S / 65536 + S % 65536) / 65536) % 65536
          = S / 65536 + S % 65536) ∧
      (65536 ≤ S / 65536 + S % 65536 →
        (S / 65536 + S % 65536 + (S / 65536 + S % 65536) / 65536) % 65536
          = S / 65536 + S % 65536 - 65535) := by
  have hq : S / 65536 ≤ 29 := by omega
  have hr : S % 65536 < 65536 := Nat.mod_lt _ (by norm_num)
  generalize S / 65536 = q at *
  generalize S % 65536 = r at *
  constructor
  · intro h1
    have e1 : (q + r) / 65536 = 0 := Nat.div_eq_of_lt h1
    rw [e1]; omega
  · intro h1
    have e1 : (q + r) / 65536 = 1 := by omega
    rw [e1]; omega

theorem checksum_fold_complement (S : Nat) (h : S ≤ 30 * 65535) :
    65535 - ((S + (65535 - (S / 65536 + S % 65536 + (S / 65536 + S % 65536) / 65536) % 65536)) / 65536
      + (S + (65535 - (S / 65536 + S % 65536 + (S / 65536 + S % 65536) / 65536) % 65536)) % 65536
      + ((S + (65535 - (S / 65536 + S % 65536 + (S / 65536 + S % 65536) / 65536) % 65536)) / 65536
        + (S + (65535 - (S / 65536 + S % 65536 + (S / 65536 + S % 65536) / 65536) % 65536)) % 65536)
          / 65536) % 65536 = 0 := by
  have hq : S / 65536 ≤ 29 := by omega
  have hS : S = 65536 * (S / 65536) + S % 65536 := (Nat.div_add_mod S 65536).symm
  have hr : S % 65536 < 65536 := Nat.mod_lt _ (by norm_num)
  obtain ⟨hA, hB⟩ := fold_small S h
  rcases Nat.lt_or_ge (S / 65536 + S % 65536) 65536 with h1 | h1
  · rw [hA h1]
    have hS1 : S + (65535 - (S / 65536 + S % 65536)) = 65536 * (S / 65536) + (65535 - S / 65536) := by
      omega
    rw [hS1]
    have e1 : (65536 * (S / 65536) + (65535 - S / 65536)) / 65536 = S / 65536 := by omega
    have e2 : (65536 * (S / 65536) + (65535 - S / 65536)) % 65536 = 65535 - S / 65536 := by omega
    rw [e1, e2]
    have e3 : S / 65536 + (65535 - S / 65536) = 65535 := by omega
    rw [e3]
  · rw [hB h1]
    have hS1 : S + (65535 - (S / 65536 + S % 65536 - 65535))
        = 65536 * (S / 65536 + 1) + (65534 - S / 65536) := by omega
    rw [hS1]
    have e1 : (65536 * (S / 65536 + 1) + (65534 - S / 65536)) / 65536 = S / 65536 + 1 := by omega
    have e2 : (65536 * (S / 65536 + 1) + (65534 - S / 65536)) % 65536 = 65534 - S / 65536 := by
      omega
    rw [e1, e2]
    have e3 : S / 65536 + 1 + (65534 - S / 65536) = 65535 := by omega
    rw [e3]

theorem word16_drop4_set (c : List Byte) (a b : Byte) (h : 16 ≤ c.length) (i : Nat) :
    word16 (((c.set 14 a).set 15 b).drop 4) i =
      if i = 5 then a.val + 256 * b.val else word16 (c.drop 4) i := by
  unfold word16
  simp only [List.getD_eq_getElem?_getD, List.getElem?_drop]
  split_ifs with hi
  · subst hi
    have h14 : (14 : Nat) < c.length := by omega
    have h15 : (15 : Nat) < (c.set 14 a).length := by rw [List.length_set]; omega
    rw [show 4 + 2 * 5 = 14 from rfl, show 4 + (2 * 5 + 1) = 15 from rfl,
      List.getElem?_set_ne (by decide), List.getElem?_set_self h14, List.getElem?_set_self h15]
    rfl
  · rw [List.getElem?_set_ne (by omega), List.getElem?_set_ne (by omega),
      List.getElem?_set_ne (by omega), List.getElem?_set_ne (by omega)]

theorem checksum_bytes (check : Nat) (h : check ≤ 65535) :
    ((Fin.ofNat (check % 256) : Byte).val + 256 * (Fin.ofNat (check / 256) : Byte).val) = check := by
  show check % 256 % 256 + 256 * (check / 256 % 256) = check
  omega

theorem calculate_ip_checksum_le (buf : List Byte) (len : Nat) :
    calculate_ip_checksum buf len ≤ 65535 := by
  unfold calculate_ip_checksum
  simp only []
  omega

theorem mark_ihl (p : QueuedPacket) : ip_ihl (mark p) = ip_ihl p := by
  simp only [ip_ihl, byteAt, mark, List.getD_eq_getElem?_getD]
  rw [List.getElem?_set_ne (by decide), List.getElem?_set_ne (by decide),
    List.getElem?_set_ne (by decide), List.getElem?_set_ne (by decide),
    List.getElem?_set_ne (by decide)]

/-- C8: for a packet whose IPv4 header (`ihl ≥ 5`, `ihl·4` bytes inside the contents from
offset 4) is marked, the header length is unchanged and the one's-complement checksum
recomputed over the `ihl·4` header bytes, stored checksum field included, is zero, whatever
the checksum field held before. -/
theorem mark_checksum_valid (p : QueuedPacket) (hihl : 5 ≤ ip_ihl p)
    (hlen : 4 + ip_ihl p * 4 ≤ p.contents.length) :
    ip_ihl (mark p) = ip_ihl p ∧
      calculate_ip_checksum ((mark p).contents.drop 4) (ip_ihl (mark p) * 4) = 0 := by
  refine ⟨mark_ihl p, ?_⟩
  rw [mark_ihl]
  have hi16 : ip_ihl p < 16 := Nat.mod_lt _ (by norm_num)
  -- the header with the ECN field set and the checksum field zeroed
  obtain ⟨c1, hc1⟩ : ∃ c1, c1 = p.contents.set 5 (Fin.ofNat
      ((ip_tos p &&& (255 - IPTOS_ECN_MASK)) ||| (IPTOS_ECN_CE &&& IPTOS_ECN_MASK))) := ⟨_, rfl⟩
  have hl1 : 16 ≤ c1.length := by rw [hc1, List.length_set]; omega
  have hihl2 : ((((c1.set 14 0).set 15 0).getD 4 0).val % 16) = ip_ihl p := by
    rw [hc1]
    simp only [ip_ihl, byteAt, List.getD_eq_getElem?_getD]
    rw [List.getElem?_set_ne (by decide), List.getElem?_set_ne (by decide),
      List.getElem?_set_ne (by decide)]
  obtain ⟨check, hcheck⟩ : ∃ check, check =
      calculate_ip_checksum (((c1.set 14 0).set 15 0).drop 4) (ip_ihl p * 4) := ⟨_, rfl⟩
  have hmark : (mark p).contents =
      ((((c1.set 14 0).set 15 0).set 14 (Fin.ofNat (check % 256))).set 15
        (Fin.ofNat (check / 256))) := by
    rw [hcheck, hc1]
    simp only [mark]
    rw [← hc1, hihl2]
  have hck : check ≤ 65535 := by rw [hcheck]; exact calculate_ip_checksum_le _ _
  have hl2 : 16 ≤ ((c1.set 14 0).set 15 0).length := by
    rw [List.length_set, List.length_set]; exact hl1
  have hw0 : word16 (((c1.set 14 0).set 15 0).drop 4) 5 = 0 := by
    rw [word16_drop4_set c1 0 0 hl1 5]; rfl
  have hw1 : word16 ((mark p).contents.drop 4) 5 = check := by
    rw [hmark, word16_drop4_set _ _ _ hl2 5, if_pos rfl]
    exact checksum_bytes check hck
  have hwi : ∀ i, i ≠ 5 → word16 ((mark p).contents.drop 4) i
      = word16 (((c1.set 14 0).set 15 0).drop 4) i := by
    intro i hi
    rw [hmark, word16_drop4_set _ _ _ hl2 i, if_neg hi]
  have hsum := (wordSum_replace_word (((c1.set 14 0).set 15 0).drop 4)
    ((mark p).contents.drop 4) 5 hwi (ip_ihl p * 4 / 2)).2 (by omega)
  rw [hw0, hw1] at hsum
  have hbound := wordSum_le (((c1.set 14 0).set 15 0).drop 4) (ip_ihl p * 4 / 2)
  have heven : ip_ihl p * 4 % 2 = 0 := by omega
  have hS : wordSum (((c1.set 14 0).set 15 0).drop 4) (ip_ihl p * 4 / 2) ≤ 30 * 65535 := by
    have : ip_ihl p * 4 / 2 ≤ 30 := by omega
    calc wordSum (((c1.set 14 0).set 15 0).drop 4) (ip_ihl p * 4 / 2)
        ≤ ip_ihl p * 4 / 2 * 65535 := hbound
      _ ≤ 30 * 65535 := Nat.mul_le_mul_right _ this
  have hfin := checksum_fold_complement _ hS
  have hcheck2 : check = 65535 -
      (wordSum (((c1.set 14 0).set 15 0).drop 4) (ip_ihl p * 4 / 2) / 65536
        + wordSum (((c1.set 14 0).set 15 0).drop 4) (ip_ihl p * 4 / 2) % 65536
        + (wordSum (((c1.set 14 0).set 15 0).drop 4) (ip_ihl p * 4 / 2) / 65536
          + wordSum (((c1.set 14 0).set 15 0).drop 4) (ip_ihl p * 4 / 2) % 65536) / 65536)
        % 65536 := by
    rw [hcheck]
    simp only [calculate_ip_checksum, heven]
    simp
  have hsum2 : wordSum ((mark p).contents.drop 4) (ip_ihl p * 4 / 2) =
      wordSum (((c1.set 14 0).set 15 0).drop 4) (ip_ihl p * 4 / 2) + check := by omega
  simp only [calculate_ip_checksum, heven]
  simp only [zero_ne_one, if_false, add_zero]
  rw [hsum2, hcheck2]
  exact hfin

/-- C8 at a concrete packet: the sample ECT(0) packet has `ihl = 5` and 24 bytes. -/
theorem mark_checksum_valid_witness :
    ip_ihl (mark (sample_packet 2 0)) = ip_ihl (sample_packet 2 0) ∧
      calculate_ip_checksum ((mark (sample_packet 2 0)).contents.drop 4)
        (ip_ihl (mark (sample_packet 2 0)) * 4) = 0 :=
  mark_checksum_valid (sample_packet 2 0) (by decide) (by decide)

/-! ## One iteration of the dequeue loop -/

theorem select_queue_cases (sch : Scheduler) (l4s classic : PacketQueue) :
    ((sch.select_queue l4s classic).1 = .NONE ∧ l4s.queue = [] ∧ classic.queue = [] ∧
        (sch.select_queue l4s classic).2 = sch) ∨
      ((sch.select_queue l4s classic).1 = .L4S ∧ l4s.queue ≠ []) ∨
      ((sch.select_queue l4s classic).1 = .Classic ∧ classic.queue ≠ []) := by
  cases sch with
  | strict =>
    cases hl : l4s.queue <;> cases hc : classic.queue <;>
      simp [Scheduler.select_queue, PacketQueue.empty, hl, hc]
  | wrr w =>
    cases hl : l4s.queue <;> cases hc : classic.queue <;>
      simp [Scheduler.select_queue, PacketQueue.empty, hl, hc]
    split_ifs <;> simp

@[simp] theorem recur_queue (q : PacketQueue) (p : ℚ) : (recur q p).2.queue = q.queue := by
  unfold recur
  simp only []
  split_ifs <;> rfl

theorem dequeue_l4s_spec (MTU : Nat) (s : DualQCoupledAQM) (e : Env) :
    (dequeue_l4s MTU s e).2.l4s_queue_.queue = s.l4s_queue_.queue.tail ∧
      (dequeue_l4s MTU s e).2.classic_queue_.queue = s.classic_queue_.queue ∧
      (dequeue_l4s MTU s e).2.byte_limit_ = s.byte_limit_ ∧
      ((dequeue_l4s MTU s e).1 = .returned .L4S s.l4s_queue_.front ∨
        (dequeue_l4s MTU s e).1 = .returned .L4S (mark s.l4s_queue_.front) ∨
        (dequeue_l4s MTU s e).1 = .dropped .L4S s.l4s_queue_.front) := by
  unfold dequeue_l4s
  simp only []
  split_ifs <;>
    simp [set_l4s]

theorem dequeue_classic_spec (MTU : Nat) (s : DualQCoupledAQM) (e : Env) :
    (dequeue_classic MTU s e).2.l4s_queue_.queue = s.l4s_queue_.queue ∧
      (dequeue_classic MTU s e).2.classic_queue_.queue = s.classic_queue_.queue.tail ∧
      (dequeue_classic MTU s e).2.byte_limit_ = s.byte_limit_ ∧
      ((dequeue_classic MTU s e).1 = .returned .Classic s.classic_queue_.front ∨
        (dequeue_classic MTU s e).1 = .returned .Classic (mark s.classic_queue_.front) ∨
        (dequeue_classic MTU s e).1 = .dropped .Classic s.classic_queue_.front) := by
  unfold dequeue_classic
  simp only []
  split_ifs <;>
    simp

theorem dequeue_iter_spec (MTU : Nat) (s : DualQCoupledAQM) (e : Env) :
    (dequeue_iter MTU s e).2.byte_limit_ = s.byte_limit_ ∧
      ((s.l4s_queue_.queue = [] ∧ s.classic_queue_.queue = [] ∧
          (dequeue_iter MTU s e).1 = .returned .NONE empty_packet ∧
          (dequeue_iter MTU s e).2.l4s_queue_ = s.l4s_queue_ ∧
          (dequeue_iter MTU s e).2.classic_queue_ = s.classic_queue_ ∧
          (dequeue_iter MTU s e).2.satur_drop_pkts_ = s.satur_drop_pkts_ ∧
          (dequeue_iter MTU s e).2.scheduler_ = s.scheduler_ ∧
          (dequeue_iter MTU s e).2.scheduler_type_ = s.scheduler_type_) ∨
        (∃ p rest, s.l4s_queue_.queue = p :: rest ∧
          (dequeue_iter MTU s e).2.l4s_queue_.queue = rest ∧
          (dequeue_iter MTU s e).2.classic_queue_.queue = s.classic_queue_.queue ∧
          ((dequeue_iter MTU s e).1 = .returned .L4S p ∨
            (dequeue_iter MTU s e).1 = .returned .L4S (mark p) ∨
            (dequeue_iter MTU s e).1 = .dropped .L4S p)) ∨
        (∃ p rest, s.classic_queue_.queue = p :: rest ∧
          (dequeue_iter MTU s e).2.classic_queue_.queue = rest ∧
          (dequeue_iter MTU s e).2.l4s_queue_.queue = s.l4s_queue_.queue ∧
          ((dequeue_iter MTU s e).1 = .returned .Classic p ∨
            (dequeue_iter MTU s e).1 = .returned .Classic (mark p) ∨
            (dequeue_iter MTU s e).1 = .dropped .Classic p))) := by
  have hq1 := poll_l4s_queue s e.poll_start
  have hq2 := poll_classic_queue s e.poll_start
  have hb := poll_byte_limit s e.poll_start
  have hsat := poll_satur_drop_pkts s e.poll_start
  have hsch := poll_scheduler s e.poll_start
  have hty := poll_scheduler_type s e.poll_start
  unfold dequeue_iter
  simp only []
  generalize poll s e.poll_start = s1 at *
  rw [← hq1, ← hq2, ← hb, ← hsat, ← hsch, ← hty]
  rcases select_queue_cases s1.scheduler_ s1.l4s_queue_.toPacketQueue s1.classic_queue_ with
    ⟨h1, hl, hc, hs⟩ | ⟨h1, hl⟩ | ⟨h1, hc⟩
  · rw [h1]
    simp only [poll_l4s_queue, poll_classic_queue, poll_byte_limit, poll_satur_drop_pkts,
      poll_scheduler, poll_scheduler_type, hs, true_and]
    exact Or.inl ⟨hl, hc, trivial⟩
  · rw [h1]
    simp only []
    obtain ⟨h_l, h_c, h_b, h_o⟩ := dequeue_l4s_spec MTU
      { s1 with scheduler_ := (s1.scheduler_.select_queue
          s1.l4s_queue_.toPacketQueue s1.classic_queue_).2 } e
    refine ⟨h_b, Or.inr (Or.inl ?_)⟩
    obtain ⟨p, rest, hpr⟩ := List.exists_cons_of_ne_nil hl
    refine ⟨p, rest, hpr, ?_, h_c, ?_⟩
    · rw [h_l]; show s1.l4s_queue_.queue.tail = rest; rw [hpr]; rfl
    · have hf : s1.l4s_queue_.front = p := by simp [PacketQueue.front, hpr]
      rw [← hf]
      exact h_o
  · rw [h1]
    simp only []
    obtain ⟨h_l, h_c, h_b, h_o⟩ := dequeue_classic_spec MTU
      { s1 with scheduler_ := (s1.scheduler_.select_queue
          s1.l4s_queue_.toPacketQueue s1.classic_queue_).2 } e
    refine ⟨h_b, Or.inr (Or.inr ?_)⟩
    obtain ⟨p, rest, hpr⟩ := List.exists_cons_of_ne_nil hc
    refine ⟨p, rest, hpr, ?_, h_l, ?_⟩
    · rw [h_c]; show s1.classic_queue_.queue.tail = rest; rw [hpr]; rfl
    · have hf : s1.classic_queue_.front = p := by simp [PacketQueue.front, hpr]
      rw [← hf]
      exact h_o

/-! ## The dequeue loop -/

theorem dequeue_iter_shrinks (MTU : Nat) (s : DualQCoupledAQM) (e : Env) :
    (dequeue_iter MTU s e).2.byte_limit_ = s.byte_limit_ ∧
      size_bytes (dequeue_iter MTU s e).2 ≤ size_bytes s ∧
      (∀ q, q ∈ (dequeue_iter MTU s e).2.l4s_queue_.queue ∨
          q ∈ (dequeue_iter MTU s e).2.classic_queue_.queue →
        q ∈ s.l4s_queue_.queue ∨ q ∈ s.classic_queue_.queue) ∧
      (∀ d p, (dequeue_iter MTU s e).1 = .dropped d p →
        size_packets (dequeue_iter MTU s e).2 + 1 = size_packets s) ∧
      (∀ d p, (dequeue_iter MTU s e).1 = .returned d p → d ≠ .NONE →
        ∃ q, (q ∈ s.l4s_queue_.queue ∨ q ∈ s.classic_queue_.queue) ∧ (p = q ∨ p = mark q)) := by
  obtain ⟨hb, hcases⟩ := dequeue_iter_spec MTU s e
  refine ⟨hb, ?_⟩
  rcases hcases with ⟨hl, hc, ho, hl2, hc2, -, -, -⟩ | ⟨p, rest, hpr, hl2, hc2, ho⟩ |
    ⟨p, rest, hpr, hc2, hl2, ho⟩
  · refine ⟨?_, ?_, ?_, ?_⟩
    · simp [size_bytes, hl2, hc2]
    · intro q hq; rw [hl2, hc2] at hq; exact hq
    · intro d p hd; rw [ho] at hd; cases hd
    · intro d p hd hne
      rw [ho] at hd
      cases hd
      exact absurd rfl hne
  · refine ⟨?_, ?_, ?_, ?_⟩
    · simp [size_bytes, PacketQueue.size_bytes, hl2, hc2, hpr]
    · intro q hq
      rw [hl2, hc2] at hq
      rw [hpr]
      rcases hq with hq | hq
      · exact Or.inl (List.mem_cons_of_mem _ hq)
      · exact Or.inr hq
    · intro d p hd
      simp [size_packets, PacketQueue.size_packets, hl2, hc2, hpr]
      omega
    · intro d p1 hd _
      refine ⟨p, Or.inl (by rw [hpr]; exact List.mem_cons_self _ _), ?_⟩
      rcases ho with ho | ho | ho <;> rw [ho] at hd <;> cases hd
      · exact Or.inl rfl
      · exact Or.inr rfl
  · refine ⟨?_, ?_, ?_, ?_⟩
    · simp [size_bytes, PacketQueue.size_bytes, hl2, hc2, hpr]
    · intro q hq
      rw [hl2, hc2] at hq
      rw [hpr]
      rcases hq with hq | hq
      · exact Or.inl hq
      · exact Or.inr (List.mem_cons_of_mem _ hq)
    · intro d p hd
      simp [size_packets, PacketQueue.size_packets, hl2, hc2, hpr]
      omega
    · intro d p1 hd _
      refine ⟨p, Or.inr (by rw [hpr]; exact List.mem_cons_self _ _), ?_⟩
      rcases ho with ho | ho | ho <;> rw [ho] at hd <;> cases hd
      · exact Or.inl rfl
      · exact Or.inr rfl

theorem dequeue_loop_returns (MTU : Nat) (fuel : Nat) :
    ∀ (s : DualQCoupledAQM) (env : Nat → Env) (drops : Nat), size_packets s < fuel →
      ∃ r s1, dequeue_loop MTU fuel s env drops = some (r, s1) := by
  induction fuel with
  | zero => intro s env drops h; omega
  | succ n ih =>
    intro s env drops h
    obtain ⟨-, -, -, hdrop, -⟩ := dequeue_iter_shrinks MTU s (env 0)
    unfold dequeue_loop
    split
    · next q pkt s2 heq => exact ⟨_, _, rfl⟩
    · next q pkt s2 heq =>
      rw [heq] at hdrop
      have := hdrop q pkt rfl
      exact ih s2 _ _ (by simp only at this; omega)

theorem dequeue_loop_spec (MTU : Nat) (fuel : Nat) :
    ∀ (s : DualQCoupledAQM) (env : Nat → Env) (drops : Nat) (r : Dequeued)
      (s1 : DualQCoupledAQM), dequeue_loop MTU fuel s env drops = some (r, s1) →
      s1.byte_limit_ = s.byte_limit_ ∧ size_bytes s1 ≤ size_bytes s ∧
        (r.dequeue_from ≠ .NONE →
          ∃ q, (q ∈ s.l4s_queue_.queue ∨ q ∈ s.classic_queue_.queue) ∧
            (r.pkt = q ∨ r.pkt = mark q)) := by
  induction fuel with
  | zero => intro s env drops r s1 h; simp [dequeue_loop] at h
  | succ n ih =>
    intro s env drops r s1 h
    obtain ⟨hb, hsz, hmem, -, hret⟩ := dequeue_iter_shrinks MTU s (env 0)
    unfold dequeue_loop at h
    split at h
    · next q pkt s2 heq =>
      rw [heq] at hb hsz hret
      simp only [Option.some.injEq, Prod.mk.injEq] at h
      obtain ⟨hr, hs⟩ := h
      subst hr hs
      exact ⟨hb, hsz, fun hne => hret q pkt rfl hne⟩
    · next q pkt s2 heq =>
      rw [heq] at hb hsz hmem
      obtain ⟨hb2, hsz2, hret2⟩ := ih s2 _ _ r s1 h
      refine ⟨hb2.trans hb, le_trans hsz2 hsz, fun hne => ?_⟩
      obtain ⟨q1, hq1, hp⟩ := hret2 hne
      exact ⟨q1, hmem q1 hq1, hp⟩

/-- A call of `dequeue` returns: the loop ends within `size_packets + 1` iterations. -/
theorem dequeue_returns (MTU : Nat) (s : DualQCoupledAQM) (env : Nat → Env) :
    ∃ r s1, dequeue MTU s env = some (r, s1) :=
  dequeue_loop_returns MTU _ s env 0 (Nat.lt_succ_self _)

/-! ## Packets returned by dequeue -/

theorem same_except_refl (p : QueuedPacket) : same_except_ecn_checksum p p :=
  ⟨rfl, rfl, fun _ _ _ _ => rfl, rfl⟩

theorem same_except_mark (p : QueuedPacket) (h : 24 ≤ p.contents.length) :
    same_except_ecn_checksum p (mark p) :=
  ⟨mark_arrival_time p, mark_length p, fun i h5 h14 h15 => mark_getElem? p i h5 h14 h15,
    (mark_tos p (by omega)).2⟩

/-- C7: for a packet that holds a complete IPv4 header at offset 4, `mark` keeps the arrival
time, the length and every byte other than bytes 5, 14 and 15 (the TOS byte and the two
header-checksum bytes), keeps the upper six bits of the TOS byte and sets its low two bits to
11. Consequently every call of `dequeue` returns, and a packet it returns from a sub-queue is
one of the queued packets, unchanged except possibly in those bits. -/
theorem mark_changes_only_ecn_and_checksum (p : QueuedPacket) (h : 24 ≤ p.contents.length) :
    same_except_ecn_checksum p (mark p) ∧ byteAt (mark p) 5 % 4 = 3 ∧
      ∀ (MTU : Nat) (s : DualQCoupledAQM) (env : Nat → Env),
        (∀ q, q ∈ s.l4s_queue_.queue ∨ q ∈ s.classic_queue_.queue → 24 ≤ q.contents.length) →
        (∃ r s1, dequeue MTU s env = some (r, s1)) ∧
          ∀ (r : Dequeued) (s1 : DualQCoupledAQM),
            dequeue MTU s env = some (r, s1) → r.dequeue_from ≠ .NONE →
            ∃ q, (q ∈ s.l4s_queue_.queue ∨ q ∈ s.classic_queue_.queue) ∧
              same_except_ecn_checksum q r.pkt := by
  refine ⟨same_except_mark p h, (mark_tos p (by omega)).1, ?_⟩
  intro MTU s env hlen
  refine ⟨dequeue_returns MTU s env, ?_⟩
  intro r s1 hd hne
  obtain ⟨q, hq, hp⟩ := (dequeue_loop_spec MTU _ s env 0 r s1 hd).2.2 hne
  refine ⟨q, hq, ?_⟩
  rcases hp with hp | hp
  · rw [hp]; exact same_except_refl q
  · rw [hp]; exact same_except_mark q (hlen q hq)

/-- C7 at a concrete packet: the 24-byte sample packet with ECT(0). -/
theorem mark_changes_only_ecn_and_checksum_witness :
    same_except_ecn_checksum (sample_packet 2 0) (mark (sample_packet 2 0)) ∧
      byteAt (mark (sample_packet 2 0)) 5 % 4 = 3 :=
  ⟨(mark_changes_only_ecn_and_checksum (sample_packet 2 0) (by decide)).1,
    (mark_changes_only_ecn_and_checksum (sample_packet 2 0) (by decide)).2.1⟩

/-! ## Empty dequeue -/

/-- C9: the AQM constructed from the empty argument string has the StrictPriority scheduler
and is empty; and in every state whose two sub-queues are empty, `dequeue` returns the
`"empty"` packet without selecting a queue and leaves both sub-queues (accumulators included),
`satur_drop_pkts` and the scheduler unchanged. -/
theorem dequeue_of_empty (MTU : Nat) (ext : Collaborators) :
    (construct MTU Args.empty ext).scheduler_type_ = .StrictPriority ∧
      (construct MTU Args.empty ext).scheduler_ = .strict ∧
      empty (construct MTU Args.empty ext) = true ∧
      ∀ (s : DualQCoupledAQM) (env : Nat → Env), empty s = true →
        ∃ s1, dequeue MTU s env = some (⟨empty_packet, .NONE, 0⟩, s1) ∧
          s1.l4s_queue_ = s.l4s_queue_ ∧ s1.classic_queue_ = s.classic_queue_ ∧
          s1.satur_drop_pkts_ = s.satur_drop_pkts_ ∧ s1.scheduler_ = s.scheduler_ ∧
          s1.scheduler_type_ = s.scheduler_type_ := by
  refine ⟨rfl, rfl, rfl, ?_⟩
  intro s env hempty
  have hq : s.l4s_queue_.queue = [] ∧ s.classic_queue_.queue = [] := by
    simpa [empty, PacketQueue.empty, List.isEmpty_iff] using hempty
  have hsz : size_packets s = 0 := by
    simp [size_packets, PacketQueue.size_packets, hq.1, hq.2]
  rcases (dequeue_iter_spec MTU s (env 0)).2 with
    ⟨-, -, ho, hl2, hc2, hsat, hsch, hty⟩ | ⟨p, rest, hpr, -⟩ | ⟨p, rest, hpr, -⟩
  · refine ⟨(dequeue_iter MTU s (env 0)).2, ?_, hl2, hc2, hsat, hsch, hty⟩
    unfold dequeue
    rw [hsz]
    unfold dequeue_loop
    split
    · next q pkt s2 heq =>
      rw [heq] at ho
      cases ho
      rw [heq]
    · next q pkt s2 heq =>
      rw [heq] at ho
      cases ho
  · rw [hq.1] at hpr; cases hpr
  · rw [hq.2] at hpr; cases hpr

/-! ## The buffer bound -/

theorem enqueue_byte_limit (MTU : Nat) (s : DualQCoupledAQM) (p : QueuedPacket) (e : Env) :
    (enqueue MTU s p e).byte_limit_ = s.byte_limit_ := by
  unfold enqueue
  simp only []
  split_ifs <;> simp

theorem enqueue_size_bytes_le (MTU : Nat) (s : DualQCoupledAQM) (p : QueuedPacket) (e : Env)
    (hp : p.contents.length ≤ MTU) (hs : size_bytes s ≤ s.byte_limit_) :
    size_bytes (enqueue MTU s p e) ≤ s.byte_limit_ := by
  unfold enqueue
  simp only []
  split_ifs with h1 h2
  · simpa [size_bytes] using hs
  · simp only [poll_size_bytes, poll_byte_limit] at h1
    simp [size_bytes, PacketQueue.size_bytes, PacketQueue.enqueue] at h1 ⊢
    omega
  · simp only [poll_size_bytes, poll_byte_limit] at h1
    simp [size_bytes, PacketQueue.size_bytes, PacketQueue.enqueue] at h1 ⊢
    omega

theorem size_bytes_le_byte_limit (MTU : Nat) (args : Args) (ext : Collaborators)
    (s : DualQCoupledAQM) (h : ReachableMTU MTU args ext s) : size_bytes s ≤ s.byte_limit_ := by
  induction h with
  | init => simp [construct, size_bytes, PacketQueue.size_bytes]
  | enq s p e _ hp ih =>
    rw [enqueue_byte_limit]
    exact enqueue_size_bytes_le MTU s p e hp ih
  | deq s env r s1 _ hd ih =>
    obtain ⟨hb, hsz, -⟩ := dequeue_loop_spec MTU _ s env 0 r s1 hd
    rw [hb]
    exact le_trans hsz ih
  | tick s now _ ih => exact ih

/-- C10: for every configuration, in every state reached from a freshly constructed AQM by
enqueue and dequeue calls (and controller ticks) with packets of at most `MTU` bytes, the
state after a further such enqueue has `size_bytes ≤ byte_limit + MTU − 1`, with `size_bytes`
the sum of the byte sizes of the two sub-queues. -/
theorem size_bytes_bound_after_enqueue (MTU : Nat) (args : Args) (ext : Collaborators)
    (s : DualQCoupledAQM) (p : QueuedPacket) (e : Env) (hMTU : 0 < MTU)
    (h : ReachableMTU MTU args ext s) (hp : p.contents.length ≤ MTU) :
    size_bytes (enqueue MTU s p e) ≤ (enqueue MTU s p e).byte_limit_ + MTU - 1 ∧
      size_bytes (enqueue MTU s p e) =
        (enqueue MTU s p e).l4s_queue_.size_bytes + (enqueue MTU s p e).classic_queue_.size_bytes ∧
      (enqueue MTU s p e).byte_limit_ = (construct MTU args ext).byte_limit_ := by
  have h1 := size_bytes_le_byte_limit MTU args ext _ (ReachableMTU.enq s p e h hp)
  refine ⟨by omega, rfl, ?_⟩
  have hconst : ∀ t, ReachableMTU MTU args ext t →
      t.byte_limit_ = (construct MTU args ext).byte_limit_ := by
    intro t ht
    induction ht with
    | init => rfl
    | enq s p e _ _ ih => rw [enqueue_byte_limit]; exact ih
    | deq s env r s1 _ hd ih => rw [(dequeue_loop_spec MTU _ s env 0 r s1 hd).1]; exact ih
    | tick s now _ ih => exact ih
  exact hconst _ (ReachableMTU.enq s p e h hp)

/-- C10 at a concrete input: a 24-byte packet offered to the default AQM. -/
theorem size_bytes_bound_after_enqueue_witness :
    size_bytes (enqueue 1500 default_aqm (sample_packet 0 0) (Env.quiet 0)) ≤
      (enqueue 1500 default_aqm (sample_packet 0 0) (Env.quiet 0)).byte_limit_ + 1500 - 1 :=
  (size_bytes_bound_after_enqueue 1500 Args.empty sample_ext default_aqm (sample_packet 0 0)
    (Env.quiet 0) (by decide) ReachableMTU.init (by decide)).1

/-! ## The saturation counter -/

theorem dequeue_iter_unfold (MTU : Nat) (s : DualQCoupledAQM) (e : Env) :
    dequeue_iter MTU s e =
      match selected (poll s e.poll_start) with
      | .L4S => dequeue_l4s MTU (after_select (poll s e.poll_start)) e
      | .Classic => dequeue_classic MTU (after_select (poll s e.poll_start)) e
      | .NONE => (.returned .NONE empty_packet, poll (after_select (poll s e.poll_start)) e.poll_end) :=
  rfl

@[simp] theorem drop_satur_saturation (s : DualQCoupledAQM) :
    (drop s "saturation").satur_drop_pkts_ = s.satur_drop_pkts_ + 1 := by
  simp [drop]

@[simp] theorem drop_satur_other (s : DualQCoupledAQM) :
    (drop s "").satur_drop_pkts_ = s.satur_drop_pkts_ := by
  simp [drop]

/-- The contribution of one loop iteration to `satur_drop_pkts`: 1 when the iteration drops a
packet taken from the L4S sub-queue, 0 otherwise. -/
theorem dequeue_l4s_satur (MTU : Nat) (s : DualQCoupledAQM) (e : Env) :
    ((∃ p, (dequeue_l4s MTU s e).1 = .dropped .L4S p) ∧
        (dequeue_l4s MTU s e).2.satur_drop_pkts_ = s.satur_drop_pkts_ + 1) ∨
      ((∃ p, (dequeue_l4s MTU s e).1 = .returned .L4S p) ∧
        (dequeue_l4s MTU s e).2.satur_drop_pkts_ = s.satur_drop_pkts_) := by
  unfold dequeue_l4s
  simp only []
  split_ifs <;> simp [set_l4s]

theorem dequeue_classic_satur (MTU : Nat) (s : DualQCoupledAQM) (e : Env) :
    ((∃ p, (dequeue_classic MTU s e).1 = .dropped .Classic p) ∨
        (∃ p, (dequeue_classic MTU s e).1 = .returned .Classic p)) ∧
      (dequeue_classic MTU s e).2.satur_drop_pkts_ = s.satur_drop_pkts_ := by
  unfold dequeue_classic
  simp only []
  split_ifs <;> simp

theorem dequeue_iter_satur (MTU : Nat) (s : DualQCoupledAQM) (e : Env) :
    ((∃ p, (dequeue_iter MTU s e).1 = .dropped .L4S p) ∧
        (dequeue_iter MTU s e).2.satur_drop_pkts_ = s.satur_drop_pkts_ + 1) ∨
      (((∃ p, (dequeue_iter MTU s e).1 = .dropped .Classic p) ∨
          (∃ q p, (dequeue_iter MTU s e).1 = .returned q p)) ∧
        (dequeue_iter MTU s e).2.satur_drop_pkts_ = s.satur_drop_pkts_) := by
  rw [dequeue_iter_unfold]
  have hs : (after_select (poll s e.poll_start)).satur_drop_pkts_ = s.satur_drop_pkts_ :=
    poll_satur_drop_pkts s e.poll_start
  split
  · rcases dequeue_l4s_satur MTU (after_select (poll s e.poll_start)) e with ⟨h1, h2⟩ | ⟨⟨p, h1⟩, h2⟩
    · exact Or.inl ⟨h1, by rw [h2, hs]⟩
    · exact Or.inr ⟨Or.inr ⟨_, p, h1⟩, by rw [h2, hs]⟩
  · obtain ⟨h1, h2⟩ := dequeue_classic_satur MTU (after_select (poll s e.poll_start)) e
    refine Or.inr ⟨?_, by rw [h2, hs]⟩
    rcases h1 with h1 | ⟨p, h1⟩
    · exact Or.inl h1
    · exact Or.inr ⟨_, p, h1⟩
  · exact Or.inr ⟨Or.inr ⟨_, _, rfl⟩, by rw [poll_satur_drop_pkts, hs]⟩

theorem dequeue_loop_satur (MTU : Nat) (fuel : Nat) :
    ∀ (s : DualQCoupledAQM) (env : Nat → Env) (drops : Nat) (r : Dequeued)
      (s1 : DualQCoupledAQM), dequeue_loop MTU fuel s env drops = some (r, s1) →
      s1.satur_drop_pkts_ = s.satur_drop_pkts_ + dequeue_loop_l4s_drops MTU fuel s env := by
  induction fuel with
  | zero => intro s env drops r s1 h; simp [dequeue_loop] at h
  | succ n ih =>
    intro s env drops r s1 h
    have hit := dequeue_iter_satur MTU s (env 0)
    unfold dequeue_loop at h
    unfold dequeue_loop_l4s_drops
    split at h
    · next q pkt s2 heq =>
      rw [heq] at hit
      simp only [Option.some.injEq, Prod.mk.injEq] at h
      rcases hit with ⟨⟨p, hp⟩, _⟩ | ⟨_, h2⟩
      · cases hp
      · rw [← h.2]; simpa using h2
    · next q pkt s2 heq =>
      rw [heq] at hit
      have := ih s2 _ _ r s1 h
      rcases hit with ⟨⟨p, hp⟩, h2⟩ | ⟨h1, h2⟩
      · cases hp
        simp only [if_true] at this ⊢
        rw [this, h2]; omega
      · rcases h1 with ⟨p, hp⟩ | ⟨q1, p, hp⟩
        · cases hp
          simp only at this ⊢
          rw [this, h2]; simp
        · cases hp

theorem step_satur (MTU : Nat) (s : DualQCoupledAQM) (st : Step) :
    (step MTU s st).satur_drop_pkts_ + rejected_enqueues MTU (step MTU s st) []
        + l4s_drops MTU (step MTU s st) [] =
      s.satur_drop_pkts_ + rejected_enqueues MTU s [st] + l4s_drops MTU s [st] := by
  cases st with
  | enq p e =>
    simp only [step, rejected_enqueues, l4s_drops, add_zero]
    unfold enqueue
    simp only [poll_size_bytes, poll_byte_limit]
    split_ifs <;> simp
  | deq env =>
    simp only [step, rejected_enqueues, l4s_drops, add_zero, zero_add]
    obtain ⟨r, s1, h⟩ := dequeue_returns MTU s env
    rw [h]
    exact dequeue_loop_satur MTU _ s env 0 r s1 h
  | tick now =>
    simp only [step, rejected_enqueues, l4s_drops, add_zero]
    rfl

theorem run_satur (MTU : Nat) (steps : List Step) :
    ∀ s : DualQCoupledAQM, (run MTU s steps).satur_drop_pkts_ =
      s.satur_drop_pkts_ + rejected_enqueues MTU s steps + l4s_drops MTU s steps := by
  induction steps with
  | nil => intro s; simp [run, rejected_enqueues, l4s_drops]
  | cons st rest ih =>
    intro s
    have h1 := step_satur MTU s st
    have h2 := ih (step MTU s st)
    simp only [run]
    rw [h2]
    cases st <;>
      simp only [step, rejected_enqueues, l4s_drops, add_zero, zero_add] at h1 ⊢ <;> omega

theorem reachable_run (MTU : Nat) (args : Args) (ext : Collaborators) (steps : List Step) :
    ∀ s : DualQCoupledAQM, Reachable MTU args ext s → Reachable MTU args ext (run MTU s steps) := by
  induction steps with
  | nil => intro s h; exact h
  | cons st rest ih =>
    intro s h
    apply ih
    cases st with
    | enq p e => exact Reachable.enq s p e h
    | deq env =>
      obtain ⟨r, s1, hd⟩ := dequeue_returns MTU s env
      simp only [step, hd]
      exact Reachable.deq s env r s1 h hd
    | tick now => exact Reachable.tick s now h

/-- C11, refuted as stated: on the default AQM, four MTU-sized ECT(1) packets are admitted, a
tick at a queue delay of 1000 ms sets `pp = 1`, and the second of two `dequeue` calls drops an
L4S packet through `drop("saturation")`: the reachable final state has `satur_drop_pkts = 1`
although no `enqueue` call was rejected. -/
theorem satur_drop_pkts_counts_dequeue_drop :
    Reachable 1500 Args.empty sample_ext (run 1500 default_aqm l4s_overload_run) ∧
      rejected_enqueues 1500 default_aqm l4s_overload_run = 0 ∧
      (run 1500 default_aqm l4s_overload_run).satur_drop_pkts_ = 1 ∧
      (run 1500 default_aqm l4s_overload_run).satur_drop_pkts_ ≠
        rejected_enqueues 1500 default_aqm l4s_overload_run :=
  ⟨reachable_run 1500 Args.empty sample_ext l4s_overload_run _ Reachable.init, by decide!,
    by decide!, by decide!⟩

/-- C11, as the code has it: after any run from a freshly constructed AQM, `satur_drop_pkts`
is the number of rejected `enqueue` calls plus the number of packets that `dequeue` calls
dropped out of the L4S sub-queue; a controller tick never changes it, and a `dequeue` call
adds exactly the number of its L4S drops. -/
theorem satur_drop_pkts_count (MTU : Nat) (args : Args) (ext : Collaborators)
    (steps : List Step) :
    (run MTU (construct MTU args ext) steps).satur_drop_pkts_ =
        rejected_enqueues MTU (construct MTU args ext) steps
          + l4s_drops MTU (construct MTU args ext) steps ∧
      (∀ (s : DualQCoupledAQM) (now : Nat),
        (periodic_update s now).satur_drop_pkts_ = s.satur_drop_pkts_) ∧
      (∀ (s : DualQCoupledAQM) (env : Nat → Env) (r : Dequeued) (s1 : DualQCoupledAQM),
        dequeue MTU s env = some (r, s1) →
        s1.satur_drop_pkts_ =
          s.satur_drop_pkts_ + dequeue_loop_l4s_drops MTU (size_packets s + 1) s env) := by
  refine ⟨?_, fun _ _ => rfl, fun s env r s1 h => dequeue_loop_satur MTU _ s env 0 r s1 h⟩
  rw [run_satur]
  show 0 + _ + _ = _
  omega

/-! ## The packet budget -/

theorem dequeue_loop_mem (MTU : Nat) (fuel : Nat) :
    ∀ (s : DualQCoupledAQM) (env : Nat → Env) (drops : Nat) (r : Dequeued)
      (s1 : DualQCoupledAQM), dequeue_loop MTU fuel s env drops = some (r, s1) →
      ∀ q, q ∈ s1.l4s_queue_.queue ∨ q ∈ s1.classic_queue_.queue →
        q ∈ s.l4s_queue_.queue ∨ q ∈ s.classic_queue_.queue := by
  induction fuel with
  | zero => intro s env drops r s1 h; simp [dequeue_loop] at h
  | succ n ih =>
    intro s env drops r s1 h
    obtain ⟨-, -, hmem, -, -⟩ := dequeue_iter_shrinks MTU s (env 0)
    unfold dequeue_loop at h
    split at h
    · next q pkt s2 heq =>
      rw [heq] at hmem
      simp only [Option.some.injEq, Prod.mk.injEq] at h
      rw [← h.2]
      exact hmem
    · next q pkt s2 heq =>
      rw [heq] at hmem
      intro q1 hq1
      exact hmem q1 (ih s2 _ _ r s1 h q1 hq1)

theorem length_mul_le_sum (L : Nat) (l : List QueuedPacket)
    (h : ∀ q ∈ l, L ≤ q.contents.length) :
    l.length * L ≤ (l.map fun p => p.contents.length).sum := by
  induction l with
  | nil => simp
  | cons a t ih =>
    have ha := h a (List.mem_cons_self _ _)
    have ht := ih (fun q hq => h q (List.mem_cons_of_mem _ hq))
    simp only [List.map_cons, List.sum_cons, List.length_cons]
    rw [Nat.add_mul]
    omega

theorem size_packets_mul_le (L : Nat) (s : DualQCoupledAQM)
    (hq : ∀ q, q ∈ s.l4s_queue_.queue ∨ q ∈ s.classic_queue_.queue → L ≤ q.contents.length) :
    size_packets s * L ≤ size_bytes s := by
  have h1 := length_mul_le_sum L s.l4s_queue_.queue (fun q h => hq q (Or.inl h))
  have h2 := length_mul_le_sum L s.classic_queue_.queue (fun q h => hq q (Or.inr h))
  simp only [size_bytes, size_packets, PacketQueue.size_bytes, PacketQueue.size_packets]
  rw [Nat.add_mul]
  omega

theorem dequeue_iter_size_packets_le (MTU : Nat) (s : DualQCoupledAQM) (e : Env) :
    size_packets (dequeue_iter MTU s e).2 ≤ size_packets s := by
  obtain ⟨-, hcases⟩ := dequeue_iter_spec MTU s e
  rcases hcases with ⟨-, -, -, hl2, hc2, -, -, -⟩ | ⟨p, rest, hpr, hl2, hc2, -⟩ |
    ⟨p, rest, hpr, hc2, hl2, -⟩
  · simp [size_packets, hl2, hc2]
  · simp [size_packets, PacketQueue.size_packets, hl2, hc2, hpr]
  · simp [size_packets, PacketQueue.size_packets, hl2, hc2, hpr]

theorem dequeue_loop_size_packets_le (MTU : Nat) (fuel : Nat) :
    ∀ (s : DualQCoupledAQM) (env : Nat → Env) (drops : Nat) (r : Dequeued)
      (s1 : DualQCoupledAQM), dequeue_loop MTU fuel s env drops = some (r, s1) →
      size_packets s1 ≤ size_packets s := by
  induction fuel with
  | zero => intro s env drops r s1 h; simp [dequeue_loop] at h
  | succ n ih =>
    intro s env drops r s1 h
    have hit := dequeue_iter_size_packets_le MTU s (env 0)
    unfold dequeue_loop at h
    split at h
    · next q pkt s2 heq =>
      rw [heq] at hit
      simp only [Option.some.injEq, Prod.mk.injEq] at h
      rw [← h.2]
      exact hit
    · next q pkt s2 heq =>
      rw [heq] at hit
      exact le_trans (ih s2 _ _ r s1 h) hit

/-- What one call preserves when every packet offered is between `L` and `MTU` bytes long:
the queued packets are at least `L` bytes long, `size_bytes` stays within the byte limit, and
`size_packets` stays within `(byte_limit − MTU) / L + 1`. -/
theorem step_bounded (MTU L : Nat) (s : DualQCoupledAQM) (st : Step) (hL : 1 ≤ L)
    (hlen : ∀ n ∈ enqueued_lengths [st], L ≤ n ∧ n ≤ MTU)
    (hq : ∀ q, q ∈ s.l4s_queue_.queue ∨ q ∈ s.classic_queue_.queue → L ≤ q.contents.length)
    (hb : size_bytes s ≤ s.byte_limit_)
    (hp : size_packets s ≤ (s.byte_limit_ - MTU) / L + 1) :
    (∀ q, q ∈ (step MTU s st).l4s_queue_.queue ∨ q ∈ (step MTU s st).classic_queue_.queue →
        L ≤ q.contents.length) ∧
      size_bytes (step MTU s st) ≤ (step MTU s st).byte_limit_ ∧
      size_packets (step MTU s st) ≤ ((step MTU s st).byte_limit_ - MTU) / L + 1 ∧
      (step MTU s st).byte_limit_ = s.byte_limit_ := by
  cases st with
  | enq p e =>
    obtain ⟨hp1, hp2⟩ := hlen p.contents.length (by simp [enqueued_lengths])
    have hmul := size_packets_mul_le L s hq
    refine ⟨?_, ?_, ?_, enqueue_byte_limit MTU s p e⟩
    · intro q
      simp only [step]
      unfold enqueue
      simp only []
      split_ifs
      · simpa using hq q
      · simp only [poll_l4s_queue, poll_classic_queue, PacketQueue.enqueue, List.mem_append,
          List.mem_singleton]
        rintro ((h | h) | h)
        · exact hq q (Or.inl h)
        · rw [h]; exact hp1
        · exact hq q (Or.inr h)
      · simp only [poll_l4s_queue, poll_classic_queue, PacketQueue.enqueue, List.mem_append,
          List.mem_singleton]
        rintro (h | h | h)
        · exact hq q (Or.inl h)
        · exact hq q (Or.inr h)
        · rw [h]; exact hp1
    · simp only [step]
      rw [enqueue_byte_limit]
      exact enqueue_size_bytes_le MTU s p e hp2 hb
    · simp only [step]
      rw [enqueue_byte_limit]
      unfold enqueue
      simp only []
      split_ifs with h1 h2
      · simpa [size_packets] using hp
      · simp only [poll_size_bytes, poll_byte_limit] at h1
        have hle : size_packets s ≤ (s.byte_limit_ - MTU) / L := by
          rw [Nat.le_div_iff_mul_le hL]
          omega
        simp only [poll_size_packets]
        simp only [size_packets, PacketQueue.size_packets, PacketQueue.enqueue,
          List.length_append, List.length_singleton, poll_l4s_queue, poll_classic_queue] at hle ⊢
        omega
      · simp only [poll_size_bytes, poll_byte_limit] at h1
        have hle : size_packets s ≤ (s.byte_limit_ - MTU) / L := by
          rw [Nat.le_div_iff_mul_le hL]
          omega
        simp only [poll_size_packets]
        simp only [size_packets, PacketQueue.size_packets, PacketQueue.enqueue,
          List.length_append, List.length_singleton, poll_l4s_queue, poll_classic_queue] at hle ⊢
        omega
  | deq env =>
    obtain ⟨r, s1, hd⟩ := dequeue_returns MTU s env
    obtain ⟨hb1, hsz, -⟩ := dequeue_loop_spec MTU _ s env 0 r s1 hd
    have hpk := dequeue_loop_size_packets_le MTU _ s env 0 r s1 hd
    simp only [step, hd]
    exact ⟨fun q h => hq q (dequeue_loop_mem MTU _ s env 0 r s1 hd q h),
      by rw [hb1]; exact le_trans hsz hb, by rw [hb1]; exact le_trans hpk hp, hb1⟩
  | tick now => exact ⟨hq, hb, hp, rfl⟩

theorem run_bounded (MTU L : Nat) (hL : 1 ≤ L) (steps : List Step) :
    ∀ s : DualQCoupledAQM, (∀ n ∈ enqueued_lengths steps, L ≤ n ∧ n ≤ MTU) →
      (∀ q, q ∈ s.l4s_queue_.queue ∨ q ∈ s.classic_queue_.queue → L ≤ q.contents.length) →
      size_bytes s ≤ s.byte_limit_ →
      size_packets s ≤ (s.byte_limit_ - MTU) / L + 1 →
      size_bytes (run MTU s steps) ≤ (run MTU s steps).byte_limit_ ∧
        size_packets (run MTU s steps) ≤ ((run MTU s steps).byte_limit_ - MTU) / L + 1 ∧
        (run MTU s steps).byte_limit_ = s.byte_limit_ := by
  induction steps with
  | nil => intro s _ _ hb hp; exact ⟨hb, hp, rfl⟩
  | cons st rest ih =>
    intro s hlen hq hb hp
    have h1 : ∀ n ∈ enqueued_lengths [st], L ≤ n ∧ n ≤ MTU := by
      intro n hn
      apply hlen
      cases st <;> simp_all [enqueued_lengths]
    have h2 : ∀ n ∈ enqueued_lengths rest, L ≤ n ∧ n ≤ MTU := by
      intro n hn
      apply hlen
      cases st <;> simp_all [enqueued_lengths]
    obtain ⟨hq1, hb1, hp1, hl1⟩ := step_bounded MTU L s st hL h1 hq hb hp
    obtain ⟨hb2, hp2, hl2⟩ := ih (step MTU s st) h2 hq1 hb1 hp1
    exact ⟨hb2, hp2, hl2.trans hl1⟩

/-- C12, refuted as stated: with `packets=2` and `MTU = 1500`, three 24-byte packets are all
admitted, so `size_packets = 3` exceeds the packet budget 2. -/
theorem size_packets_exceeds_budget :
    (∀ n ∈ enqueued_lengths three_small_packets, 1 ≤ n ∧ n ≤ 1500) ∧
      (construct 1500 (Args.with_packets 2) sample_ext).packet_limit_ = 2 ∧
      size_packets (run 1500 (construct 1500 (Args.with_packets 2) sample_ext)
        three_small_packets) = 3 :=
  ⟨by decide, by decide!, by decide!⟩

/-- C12, as the code has it: the packet budget `packets = n ≥ 1` is enforced only as the byte
budget `n·MTU`, for `(n + 1)·MTU < 2^32`, which keeps the product `packets·MTU` and every sum
`size_bytes + MTU` inside the unsigned range. After any run from a freshly constructed AQM in
which every enqueued packet is between `L ≥ 1` and `MTU` bytes long, `size_bytes ≤ n·MTU` and
`size_packets ≤ floor((n − 1)·MTU / L) + 1`; hence `size_packets` does not exceed `n` whenever
`(n − 1)·MTU < n·L`, which holds for `n = 1` with packets of any length and for every `n` with
packets of exactly `MTU` bytes. -/
theorem size_packets_within_budget (MTU L : Nat) (args : Args) (ext : Collaborators)
    (steps : List Step) (hn : 1 ≤ args.packets)
    (hrange : (args.packets + 1) * MTU < UINT_RANGE)
    (hL : 1 ≤ L) (hlen : ∀ n ∈ enqueued_lengths steps, L ≤ n ∧ n ≤ MTU) :
    (construct MTU args ext).packet_limit_ = args.packets ∧
      (run MTU (construct MTU args ext) steps).byte_limit_ = args.packets * MTU ∧
      size_bytes (run MTU (construct MTU args ext) steps) ≤ args.packets * MTU ∧
      size_packets (run MTU (construct MTU args ext) steps) ≤
        (args.packets - 1) * MTU / L + 1 ∧
      ((args.packets - 1) * MTU < args.packets * L →
        size_packets (run MTU (construct MTU args ext) steps) ≤ args.packets) := by
  have hne : args.packets ≠ 0 := by omega
  have hprod : args.packets * MTU < UINT_RANGE := by
    rw [Nat.add_mul] at hrange
    omega
  have hlim : (construct MTU args ext).byte_limit_ = args.packets * MTU := by
    simp [construct, hne, Nat.mod_eq_of_lt hprod]
  have hpl : (construct MTU args ext).packet_limit_ = args.packets := by
    simp [construct, hne]
  obtain ⟨hb, hp, hl⟩ := run_bounded MTU L hL steps (construct MTU args ext) hlen
    (by intro q h; simp [construct] at h) (by simp [construct, size_bytes, PacketQueue.size_bytes])
    (by simp [construct, size_packets, PacketQueue.size_packets])
  rw [hl, hlim] at hb hp
  have hsub : args.packets * MTU - MTU = (args.packets - 1) * MTU := by
    rw [Nat.sub_mul, Nat.one_mul]
  rw [hsub] at hp
  refine ⟨hpl, by rw [hl, hlim], hb, hp, ?_⟩
  intro hlt
  have : (args.packets - 1) * MTU / L < args.packets := by
    rw [Nat.div_lt_iff_lt_mul hL]
    exact hlt
  omega

/-- C12 at the stated input: with `packets=1` and `MTU = 1500`, of two MTU-sized packets the
second is dropped: `size_packets ≤ 1` (it is 1) and `satur_drop_pkts = 1`. -/
theorem size_packets_within_budget_witness :
    size_packets (run 1500 (construct 1500 (Args.with_packets 1) sample_ext) two_mtu_packets) ≤ 1 ∧
      size_packets (run 1500 (construct 1500 (Args.with_packets 1) sample_ext) two_mtu_packets)
        = 1 ∧
      (run 1500 (construct 1500 (Args.with_packets 1) sample_ext) two_mtu_packets).satur_drop_pkts_
        = 1 :=
  ⟨(size_packets_within_budget 1500 1500 (Args.with_packets 1) sample_ext two_mtu_packets
      (by decide) (by decide) (by decide) (by decide!)).2.2.2.2 (by decide), by decide!,
    by decide!⟩

/-! ## Constructor parameters -/

/-- C13, refuted as stated: with the empty argument string the effective `target_ms` and
`max_rtt_ms` are 15 and 100, for which the stated formulas give `Tupdate = min(15, 100/3) = 15`,
`alpha = 0.1·15/100² = 0.00015` and `beta = 0.3/100 = 0.003`; the constructor stores
`Tupdate = 16`, `alpha = 0.00016` and `beta = 0.0032`. -/
theorem controller_defaults_not_derived :
    (construct 1500 Args.empty sample_ext).target_ms_ = 15 ∧
      (construct 1500 Args.empty sample_ext).max_rtt_ms_ = 100 ∧
      (construct 1500 Args.empty sample_ext).t_update_ms_ = 16 ∧
      ((construct 1500 Args.empty sample_ext).t_update_ms_ : ℚ) ≠
        min (((construct 1500 Args.empty sample_ext).target_ms_ : ℕ) : ℚ)
          (((construct 1500 Args.empty sample_ext).max_rtt_ms_ : ℕ) / 3) ∧
      (construct 1500 Args.empty sample_ext).alpha_ = 16 / 100000 ∧
      (construct 1500 Args.empty sample_ext).alpha_ ≠
        (1 / 10) * min (((construct 1500 Args.empty sample_ext).target_ms_ : ℕ) : ℚ)
            (((construct 1500 Args.empty sample_ext).max_rtt_ms_ : ℕ) / 3) /
          (((construct 1500 Args.empty sample_ext).max_rtt_ms_ : ℕ) : ℚ) ^ 2 ∧
      (construct 1500 Args.empty sample_ext).beta_ = 32 / 10000 ∧
      (construct 1500 Args.empty sample_ext).beta_ ≠
        (3 / 10) / (((construct 1500 Args.empty sample_ext).max_rtt_ms_ : ℕ) : ℚ) := by
  refine ⟨rfl, rfl, rfl, by decide!, by decide!, by decide!, by decide!, by decide!⟩

/-- C13, as the code has it: when `tupdate`, `alpha` and `beta` are not given and `target`
and `max_rtt` are not given or given as their defaults 15 and 100, the constructed controller
has `target_ms = 15`, `max_rtt_ms = 100` and the documented default values `Tupdate = 16` ms,
`alpha = 0.00016` (which is `0.1 · Tupdate / max_rtt_ms²` for these values) and
`beta = 0.0032`. -/
theorem controller_defaults (MTU : Nat) (args : Args) (ext : Collaborators)
    (ht : args.tupdate = 0) (ha : args.alpha = 0) (hb : args.beta = 0)
    (htarget : args.target = 0 ∨ args.target = 15)
    (hrtt : args.max_rtt = 0 ∨ args.max_rtt = 100) :
    (construct MTU args ext).target_ms_ = 15 ∧
      (construct MTU args ext).max_rtt_ms_ = 100 ∧
      (construct MTU args ext).t_update_ms_ = 16 ∧
      (construct MTU args ext).alpha_ = 16 / 100000 ∧
      (construct MTU args ext).alpha_ =
        (1 / 10) * ((construct MTU args ext).t_update_ms_ : ℚ) /
          ((construct MTU args ext).max_rtt_ms_ : ℚ) ^ 2 ∧
      (construct MTU args ext).beta_ = 32 / 10000 := by
  have h0 : (construct MTU args ext).target_ms_ = 15 := by
    rcases htarget with h | h <;> simp [construct, h]
  have h00 : (construct MTU args ext).max_rtt_ms_ = 100 := by
    rcases hrtt with h | h <;> simp [construct, h]
  have h1 : (construct MTU args ext).t_update_ms_ = 16 := by simp [construct, ht]
  have h2 : (construct MTU args ext).alpha_ = 16 / 100000 := by simp [construct, ha]
  have h3 : (construct MTU args ext).beta_ = 32 / 10000 := by simp [construct, hb]
  refine ⟨h0, h00, h1, h2, ?_, h3⟩
  rw [h2, h1, h00]
  norm_num

/-- C13 (amended) at the empty argument string. -/
theorem controller_defaults_witness :
    (construct 1500 Args.empty sample_ext).t_update_ms_ = 16 ∧
      (construct 1500 Args.empty sample_ext).alpha_ = 16 / 100000 ∧
      (construct 1500 Args.empty sample_ext).beta_ = 32 / 10000 :=
  ⟨(controller_defaults 1500 Args.empty sample_ext rfl rfl rfl (Or.inl rfl) (Or.inl rfl)).2.2.1,
    (controller_defaults 1500 Args.empty sample_ext rfl rfl rfl (Or.inl rfl)
      (Or.inl rfl)).2.2.2.1,
    (controller_defaults 1500 Args.empty sample_ext rfl rfl rfl (Or.inl rfl)
      (Or.inl rfl)).2.2.2.2.2⟩

@[simp] theorem recur_size_bytes (q : PacketQueue) (p : ℚ) :
    (recur q p).2.size_bytes = q.size_bytes := by
  simp [PacketQueue.size_bytes]

theorem can_mark_or_drop_iff (MTU : Nat) (s : DualQCoupledAQM) :
    can_mark_or_drop MTU s = true ↔ 2 * MTU ≤ size_bytes s := by
  unfold can_mark_or_drop
  split_ifs with h
  · simp; omega
  · simp; omega

/-- C15: in a state where the scheduler selects Classic, with `pkt` the popped head, `r` the
result of the single `recur(Classic, p_C)` call and `can_act` the test `size_bytes ≥ 2·MTU`
after the pop: the iteration ends in a drop of `pkt` exactly when `r ∧ can_act ∧ (ECN(pkt) =
Not-ECT ∨ pp ≥ p_Cmax)`; it returns `mark(pkt)` when `r ∧ can_act ∧ ECN(pkt) ≠ Not-ECT ∧ pp <
p_Cmax`; in every other case it returns `pkt` itself. A Not-ECT packet is dropped or returned
as it is, never marked. -/
theorem classic_policy (MTU : Nat) (s : DualQCoupledAQM) (e : Env)
    (hsel : selected (poll s e.poll_start) = .Classic) :
    dequeue_iter MTU s e = dequeue_classic MTU (after_select (poll s e.poll_start)) e ∧
      (∀ p, (dequeue_iter MTU s e).1 = .dropped .Classic p ↔
        (p = (poll s e.poll_start).classic_queue_.front ∧
          (recur (poll s e.poll_start).classic_queue_.pop (poll s e.poll_start).p_c_).1 = true ∧
          2 * MTU ≤ (poll s e.poll_start).l4s_queue_.size_bytes
            + (poll s e.poll_start).classic_queue_.pop.size_bytes ∧
          (get_ecn_bits (poll s e.poll_start).classic_queue_.front = IPTOS_ECN_NOT_ECT ∨
            (poll s e.poll_start).p_Cmax_ ≤ (poll s e.poll_start).pp_))) ∧
      ((recur (poll s e.poll_start).classic_queue_.pop (poll s e.poll_start).p_c_).1 = true →
        2 * MTU ≤ (poll s e.poll_start).l4s_queue_.size_bytes
          + (poll s e.poll_start).classic_queue_.pop.size_bytes →
        get_ecn_bits (poll s e.poll_start).classic_queue_.front ≠ IPTOS_ECN_NOT_ECT →
        (poll s e.poll_start).pp_ < (poll s e.poll_start).p_Cmax_ →
        (dequeue_iter MTU s e).1 =
          .returned .Classic (mark (poll s e.poll_start).classic_queue_.front)) ∧
      (¬ ((recur (poll s e.poll_start).classic_queue_.pop (poll s e.poll_start).p_c_).1 = true ∧
          2 * MTU ≤ (poll s e.poll_start).l4s_queue_.size_bytes
            + (poll s e.poll_start).classic_queue_.pop.size_bytes) →
        (dequeue_iter MTU s e).1 = .returned .Classic (poll s e.poll_start).classic_queue_.front) ∧
      (get_ecn_bits (poll s e.poll_start).classic_queue_.front = IPTOS_ECN_NOT_ECT →
        (dequeue_iter MTU s e).1 = .dropped .Classic (poll s e.poll_start).classic_queue_.front ∨
          (dequeue_iter MTU s e).1 =
            .returned .Classic (poll s e.poll_start).classic_queue_.front) := by
  have hit : dequeue_iter MTU s e = dequeue_classic MTU (after_select (poll s e.poll_start)) e := by
    rw [dequeue_iter_unfold, hsel]
  refine ⟨hit, ?_⟩
  rw [hit]
  generalize poll s e.poll_start = s1
  have hcan : ∀ q : PacketQueue, q.size_bytes = s1.classic_queue_.pop.size_bytes →
      (can_mark_or_drop MTU { after_select s1 with classic_queue_ := q } = true ↔
        2 * MTU ≤ s1.l4s_queue_.size_bytes + s1.classic_queue_.pop.size_bytes) := by
    intro q hq
    rw [can_mark_or_drop_iff]
    simp only [size_bytes, after_select, hq]
  have hc := hcan (recur s1.classic_queue_.pop s1.p_c_).2 (recur_size_bytes _ _)
  have hov : classic_is_overloaded
      { after_select s1 with classic_queue_ := (recur s1.classic_queue_.pop s1.p_c_).2 } = true ↔
      s1.p_Cmax_ ≤ s1.pp_ := by
    simp [classic_is_overloaded, after_select]
  have hdef : dequeue_classic MTU (after_select s1) e =
      (if (recur s1.classic_queue_.pop s1.p_c_).1 = true then
        if (get_ecn_bits s1.classic_queue_.front = IPTOS_ECN_NOT_ECT ∨ classic_is_overloaded
              { after_select s1 with classic_queue_ := (recur s1.classic_queue_.pop s1.p_c_).2 }
                = true)
            ∧ can_mark_or_drop MTU
              { after_select s1 with classic_queue_ := (recur s1.classic_queue_.pop s1.p_c_).2 }
                = true then
          (.dropped .Classic s1.classic_queue_.front,
            drop { after_select s1 with
              classic_queue_ := (recur s1.classic_queue_.pop s1.p_c_).2 } "")
        else
          (.returned .Classic
            (if can_mark_or_drop MTU { after_select s1 with
                classic_queue_ := (recur s1.classic_queue_.pop s1.p_c_).2 } = true
              then mark s1.classic_queue_.front else s1.classic_queue_.front),
            poll (scheduler_update { after_select s1 with
              classic_queue_ := (recur s1.classic_queue_.pop s1.p_c_).2 }) e.poll_end)
      else
        (.returned .Classic s1.classic_queue_.front,
          poll (scheduler_update { after_select s1 with
            classic_queue_ := (recur s1.classic_queue_.pop s1.p_c_).2 }) e.poll_end)) := rfl
  rw [hdef]
  by_cases hr : (recur s1.classic_queue_.pop s1.p_c_).1 = true
  · by_cases ha : 2 * MTU ≤ s1.l4s_queue_.size_bytes + s1.classic_queue_.pop.size_bytes
    · by_cases hd : get_ecn_bits s1.classic_queue_.front = IPTOS_ECN_NOT_ECT ∨ s1.p_Cmax_ ≤ s1.pp_
      · rw [if_pos hr, if_pos ⟨by rw [hov]; exact hd, hc.mpr ha⟩]
        refine ⟨fun p => ⟨fun h => ?_, fun h => by rw [h.1]⟩, ?_, ?_, fun _ => Or.inl rfl⟩
        · injection h with _ h2
          exact ⟨h2.symm, hr, ha, hd⟩
        · intro _ _ h1 h2
          rcases hd with hd | hd
          · exact absurd hd h1
          · exact absurd hd (not_le.mpr h2)
        · intro h; exact absurd ⟨hr, ha⟩ h
      · rw [if_pos hr, if_neg (fun h => hd (by rw [← hov]; exact h.1)), if_pos (hc.mpr ha)]
        refine ⟨fun p => ⟨fun h => (by cases h), fun h => absurd h.2.2.2 hd⟩, fun _ _ _ _ => rfl,
          ?_, ?_⟩
        · intro h; exact absurd ⟨hr, ha⟩ h
        · intro h; exact absurd (Or.inl h) hd
    · rw [if_pos hr, if_neg (fun h => ha (hc.mp h.2)), if_neg (fun h => ha (hc.mp h))]
      refine ⟨fun p => ⟨fun h => (by cases h), fun h => absurd h.2.2.1 ha⟩, ?_, fun _ => rfl,
        fun _ => Or.inr rfl⟩
      intro _ h; exact absurd h ha
  · rw [if_neg hr]
    refine ⟨fun p => ⟨fun h => (by cases h), fun h => absurd h.2.1 hr⟩, ?_, fun _ => rfl,
      fun _ => Or.inr rfl⟩
    intro h; exact absurd h hr

theorem l4s_is_overloaded_iff (s : DualQCoupledAQM) :
    l4s_is_overloaded s = true ↔ (s.p_Cmax_ ≤ s.pp_ ∧ s.l4s_drop_on_overload_ = true) := by
  simp [l4s_is_overloaded, classic_is_overloaded]

theorem dequeue_l4s_outcome (MTU : Nat) (s : DualQCoupledAQM) (e : Env) :
    (¬ (s.p_Cmax_ ≤ s.pp_ ∧ s.l4s_drop_on_overload_ = true) →
        (dequeue_l4s MTU s e).1 = .returned .L4S
          (if (recur s.l4s_queue_.pop
                (max (s.l4s_queue_.calculate_l4s_native_prob
                  (s.l4s_queue_.pop.qdelay_in_ms e.now)) s.p_cl_)).1 = true ∧
              2 * MTU ≤ s.l4s_queue_.pop.size_bytes + s.classic_queue_.size_bytes
            then mark s.l4s_queue_.front else s.l4s_queue_.front)) ∧
      ((s.p_Cmax_ ≤ s.pp_ ∧ s.l4s_drop_on_overload_ = true) →
        (((recur s.l4s_queue_.pop s.p_c_).1 = true ∧
            2 * MTU ≤ s.l4s_queue_.pop.size_bytes + s.classic_queue_.size_bytes) →
          (dequeue_l4s MTU s e).1 = .dropped .L4S s.l4s_queue_.front) ∧
        (¬ ((recur s.l4s_queue_.pop s.p_c_).1 = true ∧
            2 * MTU ≤ s.l4s_queue_.pop.size_bytes + s.classic_queue_.size_bytes) →
          (dequeue_l4s MTU s e).1 = .returned .L4S
            (if (recur (recur s.l4s_queue_.pop s.p_c_).2 s.p_cl_).1 = true ∧
                2 * MTU ≤ s.l4s_queue_.pop.size_bytes + s.classic_queue_.size_bytes
              then mark s.l4s_queue_.front else s.l4s_queue_.front))) := by
  have hov := l4s_is_overloaded_iff (set_l4s s s.l4s_queue_.pop)
  simp only [set_l4s] at hov
  unfold dequeue_l4s
  simp only [Bool.and_eq_true, can_mark_or_drop_iff, size_bytes, set_l4s, recur_size_bytes,
    hov, L4SPacketQueue.calculate_l4s_native_prob]
  refine ⟨fun h => ?_, fun h => ⟨fun h1 => ?_, fun h1 => ?_⟩⟩
  · rw [if_pos h]
  · rw [if_neg (not_not.mpr h), if_pos h1]
  · rw [if_neg (not_not.mpr h), if_neg h1]

/-- C15 at the stated input: with `pp` forced to 0.25 and `p_C = 0.0625`, 100 Not-ECT Classic
packets taken at a queue depth of at least `2·MTU` give exactly 6 drops and 94 packets returned
unmodified; the first iteration returns its packet unmodified. -/
theorem classic_policy_witness :
    (dequeue_iter 1500 classic_backlog (Env.quiet 0)).1 =
        .returned .Classic (sample_packet 0 0) ∧
      ((dequeue_times 1500 classic_backlog (fun _ => Env.quiet 0) 94).1.map
        (fun d => d.drops)).sum = 6 ∧
      (dequeue_times 1500 classic_backlog (fun _ => Env.quiet 0) 94).1.length = 94 ∧
      (∀ d ∈ (dequeue_times 1500 classic_backlog (fun _ => Env.quiet 0) 94).1,
        d.pkt = sample_packet 0 0 ∧ d.dequeue_from = .Classic) ∧
      (dequeue_times 1500 classic_backlog (fun _ => Env.quiet 0) 94).2.classic_queue_.queue =
        List.replicate 2 (sample_packet 0 1476) :=
  ⟨(classic_policy 1500 classic_backlog (Env.quiet 0) (by decide!)).2.2.2.1 (by decide!),
    by decide!, by decide!, by decide!, by decide!⟩

/-- C16: in a state where the scheduler selects L4S, with `pkt` the popped head and `can_act`
the test `size_bytes ≥ 2·MTU` after the pop. If L4S is not overloaded the iteration returns
`pkt`, marked exactly when `recur(L4S, max(f_L4S(qdelay_L), p_CL))` returns true and `can_act`.
If L4S is overloaded (`pp ≥ p_Cmax` and drop-on-overload) the iteration drops `pkt` exactly
when `recur(L4S, p_C)` returns true and `can_act`; otherwise it returns `pkt`, marked exactly
when the subsequent `recur(L4S, p_CL)` returns true and `can_act`. -/
theorem l4s_policy (MTU : Nat) (s : DualQCoupledAQM) (e : Env)
    (hsel : selected (poll s e.poll_start) = .L4S) :
    let s1 := poll s e.poll_start
    let pkt := s1.l4s_queue_.front
    let can_act := 2 * MTU ≤ s1.l4s_queue_.pop.size_bytes + s1.classic_queue_.size_bytes
    dequeue_iter MTU s e = dequeue_l4s MTU (after_select s1) e ∧
      (¬ (s1.p_Cmax_ ≤ s1.pp_ ∧ s1.l4s_drop_on_overload_ = true) →
        (dequeue_iter MTU s e).1 = .returned .L4S
          (if (recur s1.l4s_queue_.pop
                (max (s1.l4s_queue_.calculate_l4s_native_prob
                  (s1.l4s_queue_.pop.qdelay_in_ms e.now)) s1.p_cl_)).1 = true ∧ can_act
            then mark pkt else pkt)) ∧
      ((s1.p_Cmax_ ≤ s1.pp_ ∧ s1.l4s_drop_on_overload_ = true) →
        (((recur s1.l4s_queue_.pop s1.p_c_).1 = true ∧ can_act) →
          (dequeue_iter MTU s e).1 = .dropped .L4S pkt) ∧
        (¬ ((recur s1.l4s_queue_.pop s1.p_c_).1 = true ∧ can_act) →
          (dequeue_iter MTU s e).1 = .returned .L4S
            (if (recur (recur s1.l4s_queue_.pop s1.p_c_).2 s1.p_cl_).1 = true ∧ can_act
              then mark pkt else pkt))) := by
  intro s1 pkt can_act
  have hit : dequeue_iter MTU s e = dequeue_l4s MTU (after_select s1) e := by
    rw [dequeue_iter_unfold, hsel]
  refine ⟨hit, ?_⟩
  rw [hit]
  exact dequeue_l4s_outcome MTU (after_select s1) e

/-- C16 at a concrete state: in `overloaded_state` (`pp = 1`, one ECT(1) packet queued) L4S is
overloaded, `recur(L4S, p_C)` returns false on the empty accumulator and nothing remains
queued after the pop, so the packet is returned unmodified. -/
theorem l4s_policy_witness :
    (dequeue_iter 1500 overloaded_state (Env.quiet 1000)).1 =
      .returned .L4S ⟨(sample_packet 1 0).contents, 0⟩ := by
  have h := ((l4s_policy 1500 overloaded_state (Env.quiet 1000) (by decide!)).2.2
    (by decide!)).2 (by decide!)
  rw [h]
  decide!

/-! ## Scheduler credit -/

theorem scheduler_update_scheduler (s : DualQCoupledAQM) :
    (scheduler_update s).scheduler_ =
      if s.scheduler_type_ = .WRR then
        match s.scheduler_ with
        | .wrr w => .wrr w.apply_credit_change
        | .strict => .strict
      else s.scheduler_ := by
  unfold scheduler_update
  split_ifs
  · split <;> simp_all
  · rfl

@[simp] theorem scheduler_update_scheduler_type (s : DualQCoupledAQM) :
    (scheduler_update s).scheduler_type_ = s.scheduler_type_ := by
  unfold scheduler_update; split_ifs <;> [split <;> rfl; rfl]

@[simp] theorem drop_scheduler (s : DualQCoupledAQM) (reason : String) :
    (drop s reason).scheduler_ = s.scheduler_ := by
  unfold drop; split_ifs <;> rfl

@[simp] theorem drop_scheduler_type (s : DualQCoupledAQM) (reason : String) :
    (drop s reason).scheduler_type_ = s.scheduler_type_ := by
  unfold drop; split_ifs <;> rfl

theorem apply_credit_change_count (w : WRRScheduler) :
    w.apply_credit_change.credit_changes = w.credit_changes + 1 := by
  unfold WRRScheduler.apply_credit_change
  simp only []
  split <;> rfl

theorem select_queue_wrr (w : WRRScheduler) (l4s classic : PacketQueue) :
    ∃ w1, (Scheduler.select_queue (.wrr w) l4s classic).2 = .wrr w1 ∧
      w1.credit_changes = w.credit_changes := by
  unfold Scheduler.select_queue
  simp only []
  split_ifs <;> exact ⟨_, rfl, rfl⟩

theorem dequeue_l4s_scheduler (MTU : Nat) (s : DualQCoupledAQM) (e : Env) :
    (dequeue_l4s MTU s e).2.scheduler_type_ = s.scheduler_type_ ∧
      (∀ q p, (dequeue_l4s MTU s e).1 = .dropped q p →
        (dequeue_l4s MTU s e).2.scheduler_ = s.scheduler_) ∧
      (∀ q p, (dequeue_l4s MTU s e).1 = .returned q p →
        (dequeue_l4s MTU s e).2.scheduler_ = (scheduler_update s).scheduler_) := by
  unfold dequeue_l4s
  simp only []
  split_ifs <;> simp [set_l4s, scheduler_update_scheduler]

theorem dequeue_classic_scheduler (MTU : Nat) (s : DualQCoupledAQM) (e : Env) :
    (dequeue_classic MTU s e).2.scheduler_type_ = s.scheduler_type_ ∧
      (∀ q p, (dequeue_classic MTU s e).1 = .dropped q p →
        (dequeue_classic MTU s e).2.scheduler_ = s.scheduler_) ∧
      (∀ q p, (dequeue_classic MTU s e).1 = .returned q p →
        (dequeue_classic MTU s e).2.scheduler_ = (scheduler_update s).scheduler_) := by
  unfold dequeue_classic
  simp only []
  split_ifs <;> simp [scheduler_update_scheduler]

theorem dequeue_iter_credit (MTU : Nat) (s : DualQCoupledAQM) (e : Env) (w : WRRScheduler)
    (hty : s.scheduler_type_ = .WRR) (hs : s.scheduler_ = .wrr w) :
    ∃ w1, (dequeue_iter MTU s e).2.scheduler_ = .wrr w1 ∧
      (dequeue_iter MTU s e).2.scheduler_type_ = .WRR ∧
      (∀ q p, (dequeue_iter MTU s e).1 = .dropped q p → w1.credit_changes = w.credit_changes) ∧
      (∀ p, (dequeue_iter MTU s e).1 = .returned .NONE p →
        w1.credit_changes = w.credit_changes ∧ p = empty_packet) ∧
      (∀ q p, (dequeue_iter MTU s e).1 = .returned q p → q ≠ .NONE →
        w1.credit_changes = w.credit_changes + 1) := by
  rw [dequeue_iter_unfold]
  have hty1 : (after_select (poll s e.poll_start)).scheduler_type_ = .WRR := by
    show (poll s e.poll_start).scheduler_type_ = .WRR
    rw [poll_scheduler_type]; exact hty
  obtain ⟨w0, hw0, hc0⟩ := select_queue_wrr w (poll s e.poll_start).l4s_queue_.toPacketQueue
    (poll s e.poll_start).classic_queue_
  have hs1 : (after_select (poll s e.poll_start)).scheduler_ = .wrr w0 := by
    show ((poll s e.poll_start).scheduler_.select_queue _ _).2 = .wrr w0
    rw [poll_scheduler, hs]; exact hw0
  have hupd : (scheduler_update (after_select (poll s e.poll_start))).scheduler_ =
      .wrr w0.apply_credit_change := by
    rw [scheduler_update_scheduler, if_pos hty1, hs1]
  split
  · obtain ⟨h1, h2, h3⟩ := dequeue_l4s_scheduler MTU (after_select (poll s e.poll_start)) e
    rcases dequeue_l4s_satur MTU (after_select (poll s e.poll_start)) e with
      ⟨⟨p, hp⟩, -⟩ | ⟨⟨p, hp⟩, -⟩
    · refine ⟨w0, by rw [h2 _ _ hp, hs1], by rw [h1, hty1], fun _ _ _ => hc0, ?_, ?_⟩
      · intro p1 h; rw [hp] at h; cases h
      · intro q p1 h; rw [hp] at h; cases h
    · refine ⟨w0.apply_credit_change, by rw [h3 _ _ hp, hupd], by rw [h1, hty1], ?_, ?_, ?_⟩
      · intro q p1 h; rw [hp] at h; cases h
      · intro p1 h; rw [hp] at h; cases h
      · intro q p1 _ _; rw [apply_credit_change_count, hc0]
  · obtain ⟨h1, h2, h3⟩ := dequeue_classic_scheduler MTU (after_select (poll s e.poll_start)) e
    rcases (dequeue_classic_satur MTU (after_select (poll s e.poll_start)) e).1 with
      ⟨p, hp⟩ | ⟨p, hp⟩
    · refine ⟨w0, by rw [h2 _ _ hp, hs1], by rw [h1, hty1], fun _ _ _ => hc0, ?_, ?_⟩
      · intro p1 h; rw [hp] at h; cases h
      · intro q p1 h; rw [hp] at h; cases h
    · refine ⟨w0.apply_credit_change, by rw [h3 _ _ hp, hupd], by rw [h1, hty1], ?_, ?_, ?_⟩
      · intro q p1 h; rw [hp] at h; cases h
      · intro p1 h; rw [hp] at h; cases h
      · intro q p1 _ _; rw [apply_credit_change_count, hc0]
  · refine ⟨w0, by rw [poll_scheduler, hs1], by rw [poll_scheduler_type, hty1], ?_, ?_, ?_⟩
    · intro q p h; cases h
    · intro p h; cases h; exact ⟨hc0, rfl⟩
    · intro q p h hne; cases h; exact absurd rfl hne

theorem dequeue_loop_credit (MTU : Nat) (fuel : Nat) :
    ∀ (s : DualQCoupledAQM) (env : Nat → Env) (drops : Nat) (w : WRRScheduler) (r : Dequeued)
      (s1 : DualQCoupledAQM), s.scheduler_type_ = .WRR → s.scheduler_ = .wrr w →
      dequeue_loop MTU fuel s env drops = some (r, s1) →
      ∃ w1, s1.scheduler_ = .wrr w1 ∧
        w1.credit_changes = w.credit_changes + (if r.dequeue_from = .NONE then 0 else 1) ∧
        (r.dequeue_from = .NONE → r.pkt = empty_packet) := by
  induction fuel with
  | zero => intro s env drops w r s1 _ _ h; simp [dequeue_loop] at h
  | succ n ih =>
    intro s env drops w r s1 hty hs h
    obtain ⟨w1, hw1, hty1, hdrop, hnone, hret⟩ := dequeue_iter_credit MTU s (env 0) w hty hs
    unfold dequeue_loop at h
    split at h
    · next q pkt s2 heq =>
      rw [heq] at hw1 hnone hret
      simp only [Option.some.injEq, Prod.mk.injEq] at h
      obtain ⟨hr, hs2⟩ := h
      subst hr hs2
      refine ⟨w1, hw1, ?_, ?_⟩
      · by_cases hq : q = .NONE
        · subst hq
          simp only [if_true, add_zero]
          exact (hnone pkt rfl).1
        · simp only [if_neg hq]
          exact hret q pkt rfl hq
      · intro hq
        simp only at hq
        subst hq
        exact (hnone pkt rfl).2
    · next q pkt s2 heq =>
      rw [heq] at hw1 hty1 hdrop
      obtain ⟨w2, hw2, hc2, hp2⟩ := ih s2 _ _ w1 r s1 hty1 hw1 h
      exact ⟨w2, hw2, by rw [hc2, hdrop q pkt rfl], hp2⟩

/-- C17: with the WRR scheduler, every `dequeue` call returns, and it invokes
`apply_credit_change` exactly once when it returns a packet taken from a sub-queue and not at
all when it returns the `"empty"` packet, however many packets it dropped before returning:
the ghost call count grows by 1 or by 0 accordingly. -/
theorem credit_change_once_per_packet (MTU : Nat) (s : DualQCoupledAQM) (env : Nat → Env)
    (w : WRRScheduler) (hty : s.scheduler_type_ = .WRR) (hs : s.scheduler_ = .wrr w) :
    (∃ r s1, dequeue MTU s env = some (r, s1)) ∧
      ∀ (r : Dequeued) (s1 : DualQCoupledAQM), dequeue MTU s env = some (r, s1) →
        ∃ w1, s1.scheduler_ = .wrr w1 ∧
          w1.credit_changes = w.credit_changes + (if r.dequeue_from = .NONE then 0 else 1) ∧
          (r.dequeue_from = .NONE → r.pkt = empty_packet) :=
  ⟨dequeue_returns MTU s env, fun r s1 h => dequeue_loop_credit MTU _ s env 0 w r s1 hty hs h⟩

/-- C17 at a concrete state: the WRR-configured AQM holding one packet; the `dequeue` call
returns that packet and the call count goes from 0 to 1. -/
theorem credit_change_once_per_packet_witness :
    ∃ r s1 w1, dequeue 1500 wrr_state (fun _ => Env.quiet 0) = some (r, s1) ∧
      r.dequeue_from = .Classic ∧ s1.scheduler_ = .wrr w1 ∧ w1.credit_changes = 1 := by
  have hthm := credit_change_once_per_packet 1500 wrr_state (fun _ => Env.quiet 0)
    sample_ext.wrr (by decide!) (by decide!)
  obtain ⟨r, s1, h⟩ := hthm.1
  obtain ⟨w1, hw1, hc, -⟩ := hthm.2 r s1 h
  have hq : (dequeue 1500 wrr_state (fun _ => Env.quiet 0)).map (fun x => x.1.dequeue_from)
      = some .Classic := by decide!
  rw [h] at hq
  simp only [Option.map_some', Option.some.injEq] at hq
  refine ⟨r, s1, w1, h, hq, hw1, ?_⟩
  rw [hc, hq]
  rfl

/-! ## The likelihoods passed to recur -/

theorem native_prob_bounds (q : L4SPacketQueue) (qdelay_ms : Nat) :
    0 ≤ q.calculate_l4s_native_prob qdelay_ms ∧ q.calculate_l4s_native_prob qdelay_ms ≤ 1 := by
  unfold L4SPacketQueue.calculate_l4s_native_prob
  split_ifs with h1 h2
  · exact ⟨le_refl _, zero_le_one⟩
  · exact ⟨zero_le_one, le_refl _⟩
  · have hpos : 0 < (qdelay_ms : ℚ) - q.T_low := by linarith
    have hR : 0 < q.T_range := by linarith
    constructor
    · exact le_of_lt (div_pos hpos hR)
    · rw [div_le_one hR]; linarith

theorem periodic_update_controlled (s : DualQCoupledAQM) (now : Nat) (h : Controlled s) :
    Controlled (periodic_update s now) := by
  obtain ⟨-, -, -, -, hk, hC, hL, hf⟩ := h
  exact ⟨(periodic_update_pp_bounds s now).1, (periodic_update_pp_bounds s now).2, rfl, rfl,
    hk, hC, hL, hf⟩

theorem poll_controlled (s : DualQCoupledAQM) (t : Option Nat) (h : Controlled s) :
    Controlled (poll s t) := by
  cases t
  · exact h
  · exact periodic_update_controlled s _ h

theorem scheduler_update_controlled (s : DualQCoupledAQM) (h : Controlled s) :
    Controlled (scheduler_update s) := by
  unfold scheduler_update
  split_ifs
  · split
    · exact h
    · exact h
  · exact h

theorem drop_controlled (s : DualQCoupledAQM) (reason : String) (h : Controlled s) :
    Controlled (drop s reason) := by
  unfold drop
  split_ifs
  · exact h
  · exact h

theorem enqueue_controlled (MTU : Nat) (s : DualQCoupledAQM) (p : QueuedPacket) (e : Env)
    (h : Controlled s) : Controlled (enqueue MTU s p e) := by
  have h1 := poll_controlled s e.poll_start h
  unfold enqueue
  simp only []
  split_ifs
  · exact drop_controlled _ _ h1
  · exact poll_controlled _ _ h1
  · exact poll_controlled _ _ h1

theorem dequeue_l4s_controlled (MTU : Nat) (s : DualQCoupledAQM) (e : Env) (h : Controlled s) :
    Controlled (dequeue_l4s MTU s e).2 := by
  have h1 : 0 ≤ s.pp_ ∧ s.pp_ ≤ 1 ∧ s.p_c_ = s.pp_ ^ 2 ∧ s.p_cl_ = s.pp_ * s.k_ ∧ s.k_ = 2 ∧
      s.p_Cmax_ = 1 / 4 ∧ s.p_Lmax_ = 1 ∧ s.l4s_drop_on_overload_ = true := h
  unfold dequeue_l4s
  simp only []
  split_ifs <;>
    (first
      | (apply poll_controlled; apply scheduler_update_controlled)
      | apply drop_controlled) <;>
    simp only [Controlled, set_l4s] <;>
    with_reducible exact h1

theorem dequeue_classic_controlled (MTU : Nat) (s : DualQCoupledAQM) (e : Env)
    (h : Controlled s) : Controlled (dequeue_classic MTU s e).2 := by
  have h1 : 0 ≤ s.pp_ ∧ s.pp_ ≤ 1 ∧ s.p_c_ = s.pp_ ^ 2 ∧ s.p_cl_ = s.pp_ * s.k_ ∧ s.k_ = 2 ∧
      s.p_Cmax_ = 1 / 4 ∧ s.p_Lmax_ = 1 ∧ s.l4s_drop_on_overload_ = true := h
  unfold dequeue_classic
  simp only []
  split_ifs <;>
    (first
      | (apply poll_controlled; apply scheduler_update_controlled)
      | apply drop_controlled) <;>
    simp only [Controlled] <;>
    with_reducible exact h1

theorem dequeue_iter_controlled (MTU : Nat) (s : DualQCoupledAQM) (e : Env) (h : Controlled s) :
    Controlled (dequeue_iter MTU s e).2 := by
  have hp : Controlled (after_select (poll s e.poll_start)) := poll_controlled s e.poll_start h
  rw [dequeue_iter_unfold]
  split
  · exact dequeue_l4s_controlled MTU _ e hp
  · exact dequeue_classic_controlled MTU _ e hp
  · exact poll_controlled _ _ hp

theorem dequeue_loop_controlled (MTU : Nat) (fuel : Nat) :
    ∀ (s : DualQCoupledAQM) (env : Nat → Env) (drops : Nat) (r : Dequeued)
      (s1 : DualQCoupledAQM), Controlled s → dequeue_loop MTU fuel s env drops = some (r, s1) →
      Controlled s1 := by
  induction fuel with
  | zero => intro s env drops r s1 _ h; simp [dequeue_loop] at h
  | succ n ih =>
    intro s env drops r s1 hs h
    have hit := dequeue_iter_controlled MTU s (env 0) hs
    unfold dequeue_loop at h
    split at h
    · next q pkt s2 heq =>
      rw [heq] at hit
      simp only [Option.some.injEq, Prod.mk.injEq] at h
      rw [← h.2]; exact hit
    · next q pkt s2 heq =>
      rw [heq] at hit
      exact ih s2 _ _ r s1 hit h

theorem construct_controlled (MTU : Nat) (args : Args) (ext : Collaborators) :
    Controlled (construct MTU args ext) := by
  refine ⟨le_refl _, zero_le_one, ?_, ?_, rfl, ?_, rfl, rfl⟩
  · show (0 : ℚ) = 0 ^ 2
    norm_num
  · show (0 : ℚ) = 0 * 2
    norm_num
  · show min ((1 : ℚ) / 2 ^ 2) 1 = 1 / 4
    norm_num

theorem reachable_controlled (MTU : Nat) (args : Args) (ext : Collaborators)
    (s : DualQCoupledAQM) (h : Reachable MTU args ext s) : Controlled s := by
  induction h with
  | init => exact construct_controlled MTU args ext
  | enq s p e _ ih => exact enqueue_controlled MTU s p e ih
  | deq s env r s1 _ hd ih => exact dequeue_loop_controlled MTU _ s env 0 r s1 ih hd
  | tick s now _ ih => exact periodic_update_controlled s now ih

/-! ## The recur accumulator in reachable states -/

theorem enqueue_classic_recur_count (MTU : Nat) (s : DualQCoupledAQM) (p : QueuedPacket)
    (e : Env) :
    (enqueue MTU s p e).classic_queue_.recur_count = s.classic_queue_.recur_count := by
  unfold enqueue
  simp only []
  split_ifs <;> simp [PacketQueue.enqueue]

theorem dequeue_l4s_classic_queue (MTU : Nat) (s : DualQCoupledAQM) (e : Env) :
    (dequeue_l4s MTU s e).2.classic_queue_ = s.classic_queue_ := by
  unfold dequeue_l4s
  simp only []
  split_ifs <;> simp [set_l4s]

theorem dequeue_classic_le_one (MTU : Nat) (s : DualQCoupledAQM) (e : Env) (hc : Controlled s)
    (h0 : 0 ≤ s.classic_queue_.recur_count) (h1 : s.classic_queue_.recur_count ≤ 1) :
    (dequeue_classic MTU s e).2.classic_queue_.recur_count ≤ 1 := by
  obtain ⟨hp0, hp1, hpc, -⟩ := hc
  have hr := recur_count_le_one s.classic_queue_.pop s.p_c_ h0 h1 (by rw [hpc]; positivity)
    (by rw [hpc]; exact pow_le_one₀ hp0 hp1)
  unfold dequeue_classic
  simp only []
  split_ifs <;>
    simp only [poll_classic_queue, scheduler_update_classic_queue, drop_classic_queue] <;>
    exact hr

theorem dequeue_iter_classic_le_one (MTU : Nat) (s : DualQCoupledAQM) (e : Env)
    (hc : Controlled s) (h0 : 0 ≤ s.classic_queue_.recur_count)
    (h1 : s.classic_queue_.recur_count ≤ 1) :
    (dequeue_iter MTU s e).2.classic_queue_.recur_count ≤ 1 := by
  have hp : Controlled (after_select (poll s e.poll_start)) := poll_controlled s e.poll_start hc
  have hq : (after_select (poll s e.poll_start)).classic_queue_ = s.classic_queue_ :=
    poll_classic_queue s e.poll_start
  rw [dequeue_iter_unfold]
  split
  · rw [dequeue_l4s_classic_queue, hq]; exact h1
  · exact dequeue_classic_le_one MTU _ e hp (by rw [hq]; exact h0) (by rw [hq]; exact h1)
  · rw [poll_classic_queue, hq]; exact h1

theorem dequeue_loop_classic_le_one (MTU : Nat) (fuel : Nat) :
    ∀ (s : DualQCoupledAQM) (env : Nat → Env) (drops : Nat) (r : Dequeued)
      (s1 : DualQCoupledAQM), Controlled s → NonNeg s → s.classic_queue_.recur_count ≤ 1 →
      dequeue_loop MTU fuel s env drops = some (r, s1) →
      s1.classic_queue_.recur_count ≤ 1 := by
  induction fuel with
  | zero => intro s env drops r s1 _ _ _ h; simp [dequeue_loop] at h
  | succ n ih =>
    intro s env drops r s1 hc hn h1 h
    have hit := dequeue_iter_classic_le_one MTU s (env 0) hc hn.2.2.2.2 h1
    have hic := dequeue_iter_controlled MTU s (env 0) hc
    have hin := dequeue_iter_nonneg MTU s (env 0) hn
    unfold dequeue_loop at h
    split at h
    · next q pkt s2 heq =>
      rw [heq] at hit
      simp only [Option.some.injEq, Prod.mk.injEq] at h
      rw [← h.2]; exact hit
    · next q pkt s2 heq =>
      rw [heq] at hit hic hin
      exact ih s2 _ _ r s1 hic hin hit h

theorem reachable_classic_le_one (MTU : Nat) (args : Args) (ext : Collaborators)
    (s : DualQCoupledAQM) (h : Reachable MTU args ext s) :
    s.classic_queue_.recur_count ≤ 1 := by
  induction h with
  | init => exact zero_le_one
  | enq s p e _ ih => rw [enqueue_classic_recur_count]; exact ih
  | deq s env r s1 hs hd ih =>
    exact dequeue_loop_classic_le_one MTU _ s env 0 r s1 (reachable_controlled MTU args ext s hs)
      (reachable_nonneg MTU args ext s hs) ih hd
  | tick s now _ ih => exact ih

theorem dequeue_classic_l4s_queue (MTU : Nat) (s : DualQCoupledAQM) (e : Env) :
    (dequeue_classic MTU s e).2.l4s_queue_ = s.l4s_queue_ := by
  unfold dequeue_classic
  simp only []
  split_ifs <;> simp

theorem dequeue_l4s_le_one (MTU : Nat) (s : DualQCoupledAQM) (e : Env) (hc : Controlled s)
    (hov : l4s_is_overloaded s = false) (h0 : 0 ≤ s.l4s_queue_.recur_count)
    (h1 : s.l4s_queue_.recur_count ≤ 1) :
    (dequeue_l4s MTU s e).2.l4s_queue_.recur_count ≤ 1 := by
  obtain ⟨hp0, hp1, -, hcl, hk, hC, -, hf⟩ := hc
  have hlt : s.pp_ < 1 / 4 := by
    by_contra hge
    have : l4s_is_overloaded s = true := by
      rw [l4s_is_overloaded_iff, hC]
      exact ⟨not_lt.mp hge, hf⟩
    rw [this] at hov
    cases hov
  have hpcl : s.p_cl_ ≤ 1 := by rw [hcl, hk]; linarith
  have hpcl0 : 0 ≤ s.p_cl_ := by rw [hcl, hk]; linarith
  have hov2 : l4s_is_overloaded (set_l4s s s.l4s_queue_.pop) = false := hov
  have key : ∀ d : Nat, (recur s.l4s_queue_.pop
      (max (s.l4s_queue_.calculate_l4s_native_prob d) s.p_cl_)).2.recur_count ≤ 1 := by
    intro d
    obtain ⟨hf0, hf1⟩ := native_prob_bounds s.l4s_queue_ d
    exact recur_count_le_one _ _ h0 h1 (le_trans hf0 (le_max_left _ _)) (max_le hf1 hpcl)
  unfold dequeue_l4s
  simp only [hov2, Bool.false_eq_true, not_false_eq_true, if_true, poll_l4s_queue,
    scheduler_update_l4s_queue]
  simp only [set_l4s]
  exact key _

theorem dequeue_iter_l4s_le_one (MTU : Nat) (s : DualQCoupledAQM) (e : Env)
    (hc : Controlled s) (hov : l4s_is_overloaded (poll s e.poll_start) = false)
    (h0 : 0 ≤ s.l4s_queue_.recur_count) (h1 : s.l4s_queue_.recur_count ≤ 1) :
    (dequeue_iter MTU s e).2.l4s_queue_.recur_count ≤ 1 := by
  have hp : Controlled (after_select (poll s e.poll_start)) := poll_controlled s e.poll_start hc
  have hq : (after_select (poll s e.poll_start)).l4s_queue_ = s.l4s_queue_ :=
    poll_l4s_queue s e.poll_start
  have hov2 : l4s_is_overloaded (after_select (poll s e.poll_start)) = false := hov
  rw [dequeue_iter_unfold]
  split
  · exact dequeue_l4s_le_one MTU _ e hp hov2 (by rw [hq]; exact h0) (by rw [hq]; exact h1)
  · rw [dequeue_classic_l4s_queue, hq]; exact h1
  · rw [poll_l4s_queue, hq]; exact h1

/-- C5, refuted as stated: a dequeue from the reachable state `overloaded_state` (one ECT(1)
packet queued, `pp = 1` after a tick at a queue delay of 1000 ms, hence `p_C = 1` and
`p_CL = 2`) leaves the L4S accumulator at 2; and the same tick and dequeue with a Not-ECT
packet queued (`classic_overload_run`) leave the Classic accumulator at 1. -/
theorem recur_count_reaches_two :
    (∃ r s1, overloaded_dequeue = some (r, s1) ∧ Reachable 1500 Args.empty sample_ext s1 ∧
      s1.l4s_queue_.recur_count = 2 ∧ ¬ (s1.l4s_queue_.recur_count < 1)) ∧
      (Reachable 1500 Args.empty sample_ext (run 1500 default_aqm classic_overload_run) ∧
        (run 1500 default_aqm classic_overload_run).classic_queue_.recur_count = 1 ∧
        ¬ ((run 1500 default_aqm classic_overload_run).classic_queue_.recur_count < 1)) := by
  have h : overloaded_dequeue.isSome = true := by decide!
  obtain ⟨⟨r, s1⟩, hrs⟩ := Option.isSome_iff_exists.mp h
  have hv : overloaded_dequeue.map (fun x => x.2.l4s_queue_.recur_count) = some 2 := by decide!
  rw [hrs] at hv
  simp only [Option.map_some', Option.some.injEq] at hv
  refine ⟨⟨r, s1, hrs, ?_, hv, ?_⟩,
    reachable_run 1500 Args.empty sample_ext classic_overload_run _ Reachable.init, by decide!,
    by decide!⟩
  · exact Reachable.deq _ _ r s1 (Reachable.tick _ _ (Reachable.enq _ _ _ Reachable.init)) hrs
  · rw [hv]; norm_num

/-- C5, as the code has it: in every state reachable from a freshly constructed AQM by
enqueue, dequeue and controller-tick steps, the recur accumulator of each sub-queue is
non-negative and that of the Classic sub-queue, which only receives `p_C = pp² ≤ 1`, is at
most 1 (it reaches 1). The L4S accumulator is not bounded by 1, because under overload it
receives `p_CL = 2·pp`, which can be as large as 2: an iteration of the loop of `dequeue`
that finds L4S not overloaded leaves the L4S accumulator at most 1 if it was at most 1, and a
call of `recur` keeps an accumulator inside `[0,1]` whenever its likelihood is in `[0,1]`. -/
theorem recur_count_bounds (MTU : Nat) (args : Args) (ext : Collaborators)
    (s : DualQCoupledAQM) (h : Reachable MTU args ext s) :
    (0 ≤ s.l4s_queue_.recur_count ∧ 0 ≤ s.classic_queue_.recur_count ∧
        s.classic_queue_.recur_count ≤ 1) ∧
      (∀ e : Env, l4s_is_overloaded (poll s e.poll_start) = false →
        s.l4s_queue_.recur_count ≤ 1 →
        (dequeue_iter MTU s e).2.l4s_queue_.recur_count ≤ 1) ∧
      ∀ (q : PacketQueue) (p : ℚ), 0 ≤ q.recur_count → q.recur_count ≤ 1 → 0 ≤ p → p ≤ 1 →
        0 ≤ (recur q p).2.recur_count ∧ (recur q p).2.recur_count ≤ 1 :=
  ⟨⟨(reachable_nonneg MTU args ext s h).2.2.2.1, (reachable_nonneg MTU args ext s h).2.2.2.2,
      reachable_classic_le_one MTU args ext s h⟩,
    fun e hov h1 => dequeue_iter_l4s_le_one MTU s e (reachable_controlled MTU args ext s h) hov
      (reachable_nonneg MTU args ext s h).2.2.2.1 h1,
    fun q p hq0 hq1 hp0 hp1 =>
      ⟨recur_count_nonneg q p hq0 hp0, recur_count_le_one q p hq0 hq1 hp0 hp1⟩⟩

/-- C5 (amended) at a concrete reachable state: the state after `classic_overload_run`, where
the Classic accumulator is 1. -/
theorem recur_count_bounds_witness :
    (0 ≤ (run 1500 default_aqm classic_overload_run).l4s_queue_.recur_count ∧
        0 ≤ (run 1500 default_aqm classic_overload_run).classic_queue_.recur_count ∧
        (run 1500 default_aqm classic_overload_run).classic_queue_.recur_count ≤ 1) ∧
      (run 1500 default_aqm classic_overload_run).classic_queue_.recur_count = 1 :=
  ⟨(recur_count_bounds 1500 Args.empty sample_ext (run 1500 default_aqm classic_overload_run)
      (reachable_run 1500 Args.empty sample_ext classic_overload_run _ Reachable.init)).1,
    by decide!⟩

/-! ## The bounds of the likelihoods -/

/-- C18, refuted as stated: in the reachable state `overloaded_state` L4S is overloaded and
`p_CL = 2`, and the `dequeue` iteration passes it to `recur`: the L4S accumulator goes from 0
to `0 + p_C + p_CL − 1 = 2`. -/
theorem p_cl_exceeds_one :
    Reachable 1500 Args.empty sample_ext overloaded_state ∧
      l4s_is_overloaded overloaded_state = true ∧ overloaded_state.p_c_ = 1 ∧
      overloaded_state.p_cl_ = 2 ∧ ¬ (overloaded_state.p_cl_ ≤ 1) ∧
      overloaded_state.l4s_queue_.recur_count = 0 ∧
      (dequeue_iter 1500 overloaded_state (Env.quiet 1000)).2.l4s_queue_.recur_count = 2 :=
  ⟨Reachable.tick _ _ (Reachable.enq _ _ _ Reachable.init), by decide!, by decide!, by decide!,
    by decide!, by decide!, by decide!⟩

/-- C18, as the code has it: in every reachable state `0 ≤ p_C ≤ 1` and `0 ≤ p_CL ≤ 2` (the
coupling factor times `pp ≤ 1`); and whenever L4S is not overloaded, which is when `dequeue`
uses `p_L = max(p_L', p_CL)`, `0 ≤ p_L ≤ p_Lmax = 1`. -/
theorem recur_likelihood_bounds (MTU : Nat) (args : Args) (ext : Collaborators)
    (s : DualQCoupledAQM) (h : Reachable MTU args ext s) :
    (0 ≤ s.p_c_ ∧ s.p_c_ ≤ 1) ∧ (0 ≤ s.p_cl_ ∧ s.p_cl_ ≤ 2) ∧ s.p_Lmax_ = 1 ∧
      (l4s_is_overloaded s = false → ∀ qdelay_ms : Nat,
        0 ≤ max (s.l4s_queue_.calculate_l4s_native_prob qdelay_ms) s.p_cl_ ∧
          max (s.l4s_queue_.calculate_l4s_native_prob qdelay_ms) s.p_cl_ ≤ s.p_Lmax_) := by
  obtain ⟨h0, h1, hc, hcl, hk, hC, hL, hf⟩ := reachable_controlled MTU args ext s h
  rw [hk] at hcl
  refine ⟨⟨?_, ?_⟩, ⟨?_, ?_⟩, hL, ?_⟩
  · rw [hc]; positivity
  · rw [hc]; exact pow_le_one₀ h0 h1
  · rw [hcl]; linarith
  · rw [hcl]; linarith
  · intro hov qd
    have hlt : s.pp_ < 1 / 4 := by
      by_contra hge
      have : l4s_is_overloaded s = true := by
        rw [l4s_is_overloaded_iff, hC]
        exact ⟨not_lt.mp hge, hf⟩
      rw [this] at hov
      cases hov
    obtain ⟨hf0, hf1⟩ := native_prob_bounds s.l4s_queue_ qd
    rw [hL]
    exact ⟨le_trans hf0 (le_max_left _ _), max_le hf1 (by rw [hcl]; linarith)⟩

/-- C18 (amended) at a concrete reachable state: the default AQM after one enqueue. -/
theorem recur_likelihood_bounds_witness :
    (0 ≤ tick_state.p_c_ ∧ tick_state.p_c_ ≤ 1) ∧ (0 ≤ tick_state.p_cl_ ∧ tick_state.p_cl_ ≤ 2) :=
  ⟨(recur_likelihood_bounds 1500 Args.empty sample_ext tick_state
      (Reachable.enq _ _ _ Reachable.init)).1,
    (recur_likelihood_bounds 1500 Args.empty sample_ext tick_state
      (Reachable.enq _ _ _ Reachable.init)).2.1⟩

/-! ## Termination of dequeue on a non-empty AQM -/

theorem dequeue_l4s_dropped_size (MTU : Nat) (s : DualQCoupledAQM) (e : Env) (q : QueueType)
    (p : QueuedPacket) (h : (dequeue_l4s MTU s e).1 = .dropped q p) :
    2 * MTU ≤ size_bytes (dequeue_l4s MTU s e).2 := by
  revert h
  unfold dequeue_l4s
  simp only []
  split_ifs with h1 h2 <;> intro h <;> (try (cases h; done))
  simp only [Bool.and_eq_true, can_mark_or_drop_iff] at h2
  simpa [size_bytes] using h2.2

theorem dequeue_classic_dropped_size (MTU : Nat) (s : DualQCoupledAQM) (e : Env)
    (q : QueueType) (p : QueuedPacket) (h : (dequeue_classic MTU s e).1 = .dropped q p) :
    2 * MTU ≤ size_bytes (dequeue_classic MTU s e).2 := by
  revert h
  unfold dequeue_classic
  simp only []
  split_ifs with h1 h2 <;> intro h <;> (try (cases h; done))
  have h3 := h2.2
  rw [can_mark_or_drop_iff] at h3
  simpa [size_bytes] using h3

theorem dequeue_iter_dropped_size (MTU : Nat) (s : DualQCoupledAQM) (e : Env) (q : QueueType)
    (p : QueuedPacket) (h : (dequeue_iter MTU s e).1 = .dropped q p) :
    2 * MTU ≤ size_bytes (dequeue_iter MTU s e).2 := by
  rw [dequeue_iter_unfold] at h ⊢
  split at h
  · exact dequeue_l4s_dropped_size MTU _ e q p h
  · exact dequeue_classic_dropped_size MTU _ e q p h
  · cases h

theorem size_packets_pos_of_size_bytes_pos (s : DualQCoupledAQM) (h : 0 < size_bytes s) :
    0 < size_packets s := by
  by_contra hz
  have h0 : size_packets s = 0 := by omega
  simp only [size_packets, PacketQueue.size_packets, Nat.add_eq_zero, List.length_eq_zero] at h0
  simp [size_bytes, PacketQueue.size_bytes, h0.1, h0.2] at h

theorem dequeue_loop_fuel_succ (MTU : Nat) (fuel : Nat) :
    ∀ (s : DualQCoupledAQM) (env : Nat → Env) (drops : Nat) (x : Dequeued × DualQCoupledAQM),
      dequeue_loop MTU fuel s env drops = some x →
      dequeue_loop MTU (fuel + 1) s env drops = some x := by
  induction fuel with
  | zero => intro s env drops x h; simp [dequeue_loop] at h
  | succ n ih =>
    intro s env drops x h
    unfold dequeue_loop at h ⊢
    split at h
    · next q pkt s2 heq => exact h
    · next q pkt s2 heq => exact ih s2 _ _ x h

theorem dequeue_loop_progress (MTU : Nat) (hMTU : 0 < MTU) (fuel : Nat) :
    ∀ (s : DualQCoupledAQM) (env : Nat → Env) (drops : Nat), size_packets s ≤ fuel →
      0 < size_packets s →
      ∃ r s1, dequeue_loop MTU fuel s env drops = some (r, s1) ∧ r.dequeue_from ≠ .NONE ∧
        drops ≤ r.drops ∧ size_packets s1 + (r.drops - drops) + 1 = size_packets s := by
  induction fuel with
  | zero => intro s env drops h1 h2; omega
  | succ n ih =>
    intro s env drops hle hpos
    obtain ⟨-, hcases⟩ := dequeue_iter_spec MTU s (env 0)
    have hsize := dequeue_iter_dropped_size MTU s (env 0)
    obtain ⟨-, -, -, hdrop, -⟩ := dequeue_iter_shrinks MTU s (env 0)
    have hstep : ∀ q p, (dequeue_iter MTU s (env 0)).1 = .returned q p → q ≠ .NONE →
        size_packets (dequeue_iter MTU s (env 0)).2 + 1 = size_packets s := by
      intro q p hq hne
      rcases hcases with ⟨-, -, ho, -⟩ | ⟨p1, rest, hpr, hl2, hc2, -⟩ | ⟨p1, rest, hpr, hc2, hl2, -⟩
      · rw [ho] at hq; cases hq; exact absurd rfl hne
      · simp [size_packets, PacketQueue.size_packets, hl2, hc2, hpr]; omega
      · simp [size_packets, PacketQueue.size_packets, hl2, hc2, hpr]; omega
    have hnone : ∀ p, (dequeue_iter MTU s (env 0)).1 ≠ .returned .NONE p := by
      intro p hp
      rcases hcases with ⟨hl, hc, -⟩ | ⟨p1, rest, hpr, -, -, ho⟩ | ⟨p1, rest, hpr, -, -, ho⟩
      · simp [size_packets, PacketQueue.size_packets, hl, hc] at hpos
      · rcases ho with ho | ho | ho <;> rw [ho] at hp <;> cases hp
      · rcases ho with ho | ho | ho <;> rw [ho] at hp <;> cases hp
    unfold dequeue_loop
    split
    · next q pkt s2 heq =>
      rw [heq] at hstep hnone
      have hq : q ≠ .NONE := fun h => hnone pkt (by rw [h])
      refine ⟨_, _, rfl, hq, le_refl _, ?_⟩
      have := hstep q pkt rfl hq
      simp only at this ⊢
      omega
    · next q pkt s2 heq =>
      rw [heq] at hsize hdrop
      have h2 : 2 * MTU ≤ size_bytes s2 := hsize q pkt rfl
      have h3 : size_packets s2 + 1 = size_packets s := hdrop q pkt rfl
      have h4 : 0 < size_packets s2 := size_packets_pos_of_size_bytes_pos s2 (by omega)
      obtain ⟨r, s1, hr, hne, hd, hsz⟩ := ih s2 (fun i => env (i + 1)) (drops + 1) (by omega) h4
      exact ⟨r, s1, hr, hne, by omega, by omega⟩

/-- C19: when at least one sub-queue is non-empty and `MTU > 0`, `dequeue` ends within
`size_packets` loop iterations and returns a packet taken from a sub-queue (as queued, or
marked), never the `"empty"` packet; the number of iterations is the number of dropped packets
plus one, and `size_packets` decreases by exactly that number. -/
theorem dequeue_of_nonempty (MTU : Nat) (s : DualQCoupledAQM) (env : Nat → Env)
    (hMTU : 0 < MTU) (hne : empty s = false) :
    ∃ r s1, dequeue MTU s env = some (r, s1) ∧
      dequeue_loop MTU (size_packets s) s env 0 = some (r, s1) ∧
      r.dequeue_from ≠ .NONE ∧ r.drops + 1 ≤ size_packets s ∧
      size_packets s1 + (r.drops + 1) = size_packets s ∧
      ∃ q, (q ∈ s.l4s_queue_.queue ∨ q ∈ s.classic_queue_.queue) ∧
        (r.pkt = q ∨ r.pkt = mark q) := by
  have hpos : 0 < size_packets s := by
    by_contra hz
    have h0 : size_packets s = 0 := by omega
    simp only [size_packets, PacketQueue.size_packets, Nat.add_eq_zero,
      List.length_eq_zero] at h0
    simp [empty, PacketQueue.empty, h0.1, h0.2] at hne
  obtain ⟨r, s1, hr, hq, -, hsz⟩ := dequeue_loop_progress MTU hMTU (size_packets s) s env 0
    (le_refl _) hpos
  have hd : dequeue MTU s env = some (r, s1) := dequeue_loop_fuel_succ MTU _ s env 0 _ hr
  refine ⟨r, s1, hd, hr, hq, by omega, by omega, ?_⟩
  exact (dequeue_loop_spec MTU _ s env 0 r s1 hd).2.2 hq

/-- C19 at a concrete state: the default AQM holding one packet. -/
theorem dequeue_of_nonempty_witness :
    ∃ r s1, dequeue 1500 tick_state (fun _ => Env.quiet 0) = some (r, s1) ∧
      r.dequeue_from ≠ .NONE ∧ size_packets s1 + (r.drops + 1) = size_packets tick_state := by
  obtain ⟨r, s1, h1, -, h3, -, h5, -⟩ :=
    dequeue_of_nonempty 1500 tick_state (fun _ => Env.quiet 0) (by decide) (by decide!)
  exact ⟨r, s1, h1, h3, h5⟩

/-! ## Conservation in recur -/

/-- C20, refuted as stated: with accumulator 1 and likelihood `2^-60` a call of `recur`
returns false and leaves the accumulator at 1, although accumulator plus likelihood exceeds 1,
so `T + cN = 1` differs from `c0 + N·p = 1 + 2^-60`; and with accumulator 0 and the double
nearest to 0.1 as likelihood `p`, ten calls never return true, while `c0 + 10·p` exceeds 1. -/
theorem recur_rounds_the_sum :
    ((recur ⟨[], 1⟩ (1 / 2 ^ 60)).1 = false ∧ (1 : ℚ) + 1 / 2 ^ 60 > 1 ∧
      (recur_times ⟨[], 1⟩ (1 / 2 ^ 60) 1).1 = 0 ∧
      (recur_times ⟨[], 1⟩ (1 / 2 ^ 60) 1).2.recur_count = 1 ∧
      ((recur_times ⟨[], 1⟩ (1 / 2 ^ 60) 1).1 : ℚ)
          + (recur_times ⟨[], 1⟩ (1 / 2 ^ 60) 1).2.recur_count ≠ 1 + (1 : ℕ) * (1 / 2 ^ 60)) ∧
      (0 ≤ to_double (1 / 10) ∧ to_double (1 / 10) ≤ 1 ∧
        (recur_times ⟨[], 0⟩ (to_double (1 / 10)) 10).1 = 0 ∧
        ¬ |(((recur_times ⟨[], 0⟩ (to_double (1 / 10)) 10).1 : ℕ) : ℚ)
            - (0 + (10 : ℕ) * to_double (1 / 10))| ≤ 1) := by
  have h1 : (recur_times ⟨[], 1⟩ (1 / 2 ^ 60) 1).1 = 0 := by decide!
  have h2 : (recur_times ⟨[], 1⟩ (1 / 2 ^ 60) 1).2.recur_count = 1 := by decide!
  have h3 : to_double (1 / 10) = 3602879701896397 / 36028797018963968 := by decide!
  have h4 : (recur_times ⟨[], 0⟩ (to_double (1 / 10)) 10).1 = 0 := by decide!
  refine ⟨⟨by decide!, by norm_num, h1, h2, ?_⟩, ?_, ?_, h4, ?_⟩
  · rw [h1, h2]; norm_num
  · rw [h3]; norm_num
  · rw [h3]; norm_num
  · rw [h4, h3]
    norm_num [abs_le]

/-- C20, as the code has it: for a likelihood `p ∈ [0,1]` and an initial accumulator
`c0 ∈ [0,1]`, after `N` consecutive calls of `recur` the number `T` of true returns and the
final accumulator `cN` satisfy `T + cN = c0 + N·p` up to the rounding of the `N` double
additions, which is at most `N·2^-53`, with `0 ≤ cN ≤ 1`; hence `T` differs from `c0 + N·p` by
at most `1 + N·2^-53`; and a call returns true exactly when the double sum of its pre-call
accumulator and `p` (the exact sum rounded to the nearest double) is strictly greater than 1.
When `p` and `c0` are multiples of `2^-52`, where the double arithmetic of `recur` is exact,
`T + cN = c0 + N·p`, `T` differs from `c0 + N·p` by at most 1, and a call returns true exactly
when its pre-call accumulator plus `p` is strictly greater than 1. -/
theorem recur_conservation (q : PacketQueue) (p : ℚ) (N : Nat) (hp0 : 0 ≤ p) (hp1 : p ≤ 1)
    (hc0 : 0 ≤ q.recur_count) (hc1 : q.recur_count ≤ 1) :
    |((recur_times q p N).1 : ℚ) + (recur_times q p N).2.recur_count
        - (q.recur_count + N * p)| ≤ N / 2 ^ 53 ∧
      (0 ≤ (recur_times q p N).2.recur_count ∧ (recur_times q p N).2.recur_count ≤ 1) ∧
      |((recur_times q p N).1 : ℚ) - (q.recur_count + N * p)| ≤ 1 + N / 2 ^ 53 ∧
      (∀ q1 : PacketQueue, (recur q1 p).1 = true ↔ to_double (q1.recur_count + p) > 1) ∧
      (on_grid p → on_grid q.recur_count →
        ((recur_times q p N).1 : ℚ) + (recur_times q p N).2.recur_count
            = q.recur_count + N * p ∧
          |((recur_times q p N).1 : ℚ) - (q.recur_count + N * p)| ≤ 1 ∧
          ∀ q1 : PacketQueue, on_grid q1.recur_count →
            ((recur q1 p).1 = true ↔ q1.recur_count + p > 1)) := by
  have herr := recur_times_error q p hp0 hp1 hc0 hc1 N
  obtain ⟨hb0, hb1⟩ := recur_times_bounds q p hp0 hp1 hc0 hc1 N
  refine ⟨herr, ⟨hb0, hb1⟩, ?_, ?_, ?_⟩
  · rw [abs_le] at herr ⊢
    constructor <;> linarith [herr.1, herr.2]
  · intro q1
    unfold recur
    simp only []
    split_ifs with h
    · simp [h]
    · simp [h]
  · intro hp hc
    obtain ⟨hsum, hg, -⟩ := recur_times_invariant q p hp hc N
    refine ⟨hsum, ?_, ?_⟩
    · rw [abs_le]
      constructor <;> linarith
    · intro q1 hq1
      rw [(recur_on_grid q1 p hq1 hp).1]
      split_ifs with h
      · simp [h]
      · simp [h]

/-- C20 (amended) at a concrete input: accumulator 1/2, likelihood 1/2, three calls. -/
theorem recur_conservation_witness :
    ((recur_times ⟨[], 1 / 2⟩ (1 / 2) 3).1 : ℚ) + (recur_times ⟨[], 1 / 2⟩ (1 / 2) 3).2.recur_count
      = 1 / 2 + (3 : ℕ) * (1 / 2) :=
  ((recur_conservation ⟨[], 1 / 2⟩ (1 / 2) 3 (by norm_num) (by norm_num) (by norm_num)
    (by norm_num)).2.2.2.2 ⟨2 ^ 51, by norm_num, by norm_num⟩
      ⟨2 ^ 51, by norm_num, by norm_num⟩).1

end DualPI2
